import Mathlib

/-!
# OU2: bit buffer and priority queue

A shallow embedding of `src/OU2/bit_buffer.c`, `src/OU2/list.c`,
`src/OU2/pqueue.c`, `src/OU2/calc_frequency.c`, `src/OU2/huffman_trie.c` and
`src/OU2/huffman.c`, with the demonstrations of `src/OU2/test_pqueue.c` and
`src/OU2/test_bit_buffer.c`, followed by theorems about the embedded functions.

Conventions of the embedding.

* A C `int` that holds an index, a size or a capacity is a `Nat`: the code
  never makes one negative (the only decrements are guarded by an `assert`),
  and signed overflow, being undefined in C, is outside the model.  The loop
  test `i - 8 >= b->next_remove` is written `b.next_remove + 8 ≤ i`, which is
  the same test over the integers.
* A C `int` that holds a bit value (the `value` argument of
  `bit_buffer_insert_bit`, the result of `bit_buffer_remove_bit`) is an `Int`.
* A `char` is its bit pattern, a `Nat` below 256.  Integer promotion of a
  `char` followed by `& (1 << bit)` with `bit ≤ 7` depends on the low eight
  bits only, so the signedness of `char` does not show.
* The storage `b->array` is a `List Nat` of bytes.  `malloc`, `calloc` and
  `realloc` always succeed.
* A failing `assert` is the result `none`.
* A frequency of `calc_frequency` is a 32-bit `int` held in an `Int`: the
  increment `frequency++` wraps modulo `2^32` into the signed range, as the
  compiled program does.  A weight of a `trie_node` is an `Int`; weights are
  only copied and compared.
-/

namespace OU2

/-! ## bit_buffer.c -/

/-- The record `struct bit_buffer` with its five fields. -/
structure bit_buffer where
  capacity : Nat
  array : List Nat
  size : Nat
  next_insert : Nat
  next_remove : Nat
deriving DecidableEq

/-- The content of storage that `realloc` hands out without initialising it. -/
def uninitialised : Nat := 0xFF

/-- The call `realloc(array, size)`: the first `size` bytes are kept and the storage
is extended with uninitialised bytes when it was shorter. -/
def realloc (array : List Nat) (size : Nat) : List Nat :=
  (array ++ List.replicate (size - array.length) uninitialised).take size

/-- The function `bit_buffer_empty`: capacity 16, two zeroed bytes, no content. -/
def bit_buffer_empty : bit_buffer :=
  { capacity := 16, array := List.replicate 2 0, size := 0, next_insert := 0, next_remove := 0 }

/-- The function `bit_buffer_size`. -/
def bit_buffer_size (b : bit_buffer) : Nat := b.size

/-- The internal function `bit_buffer_get_bit_value`: the value, 0 or 1, of bit
`bit_in_array` of the storage, bit 0 being the most significant bit of byte 0. -/
def bit_buffer_get_bit_value (b : bit_buffer) (bit_in_array : Nat) : Int :=
  let byte_no := bit_in_array / 8
  let the_byte := b.array.getD byte_no 0
  let bit := 7 - (bit_in_array % 8)
  if (the_byte &&& (1 <<< bit)) > 0 then 1 else 0

/-- The internal function `bit_buffer_set_bit_value`: bit `bit_in_array` of the storage
is set when `value` is nonzero and cleared otherwise.  The complement `~(1 << bit)`
is taken within the eight bits of the `char` that receives the result. -/
def bit_buffer_set_bit_value (b : bit_buffer) (bit_in_array : Nat) (value : Int) : bit_buffer :=
  let byte_no := bit_in_array / 8
  let the_byte := b.array.getD byte_no 0
  let bit := 7 - bit_in_array % 8
  let the_byte := if value ≠ 0 then the_byte ||| (1 <<< bit) else the_byte &&& (255 ^^^ (1 <<< bit))
  { b with array := b.array.set byte_no the_byte }

/-- The first loop of the growth branch of `bit_buffer_insert_bit`,
`for (i = ...; i - 8 >= b->next_remove; i--)`, entered at index `i`: bit `i - 8` is
copied to bit `i`, downwards.  At `i = 0` the test `-8 >= next_remove` fails. -/
def insert_bit_shift_loop (b : bit_buffer) : Nat → bit_buffer
  | 0 => b
  | i + 1 =>
    if b.next_remove + 8 ≤ i + 1 then
      insert_bit_shift_loop
        (bit_buffer_set_bit_value b (i + 1) (bit_buffer_get_bit_value b (i + 1 - 8))) i
    else b

/-- The second loop of the growth branch of `bit_buffer_insert_bit`,
`for (i = b->next_remove; i < b->next_remove + 8; i++)`, with `n` iterations left
when it stands at index `i`: the bits are cleared. -/
def insert_bit_zero_loop (b : bit_buffer) (i : Nat) : Nat → bit_buffer
  | 0 => b
  | n + 1 => insert_bit_zero_loop (bit_buffer_set_bit_value b i 0) (i + 1) n

/-- The function `bit_buffer_insert_bit`. -/
def bit_buffer_insert_bit (b : bit_buffer) (value : Int) : bit_buffer :=
  let b :=
    if bit_buffer_size b + 1 = b.capacity then
      let b := { b with array := realloc b.array (b.capacity / 8 + 1) }
      let b := { b with capacity := b.capacity + 8 }
      let b := { b with array := b.array.set (b.capacity / 8 - 1) 0 }
      if b.next_remove ≥ b.next_insert then
        let b := insert_bit_shift_loop b (b.capacity - 1)
        let b := insert_bit_zero_loop b b.next_remove 8
        { b with next_remove := b.next_remove + 8 }
      else b
    else b
  let b := bit_buffer_set_bit_value b b.next_insert value
  let b := { b with next_insert := (b.next_insert + 1) % b.capacity }
  { b with size := b.size + 1 }

/-- The first three statements of the growth branch of `bit_buffer_insert_bit`: one
more byte of storage, eight more bits of capacity, the new byte cleared. -/
def insert_bit_extend (b : bit_buffer) : bit_buffer :=
  let b := { b with array := realloc b.array (b.capacity / 8 + 1) }
  let b := { b with capacity := b.capacity + 8 }
  { b with array := b.array.set (b.capacity / 8 - 1) 0 }

/-- The body of `if (b->next_remove >= b->next_insert)` in `bit_buffer_insert_bit`:
the two loops and the move of `next_remove`. -/
def insert_bit_shift (b : bit_buffer) : bit_buffer :=
  let b := insert_bit_shift_loop b (b.capacity - 1)
  let b := insert_bit_zero_loop b b.next_remove 8
  { b with next_remove := b.next_remove + 8 }

/-- The statement `if (bit_buffer_size(b) + 1 == b->capacity) ...` at the head of
`bit_buffer_insert_bit`. -/
def insert_bit_grow (b : bit_buffer) : bit_buffer :=
  if bit_buffer_size b + 1 = b.capacity then
    let b := insert_bit_extend b
    if b.next_remove ≥ b.next_insert then insert_bit_shift b else b
  else b

/-- The last three statements of `bit_buffer_insert_bit`: the bit is written at
`next_insert`, which then advances, and the size is incremented. -/
def insert_bit_store (b : bit_buffer) (value : Int) : bit_buffer :=
  let b := bit_buffer_set_bit_value b b.next_insert value
  let b := { b with next_insert := (b.next_insert + 1) % b.capacity }
  { b with size := b.size + 1 }

/-- The loop of `bit_buffer_insert_byte`, `for (bit = 7; bit >= 0; bit--)`, with
`n` iterations left (the current `bit` is `n - 1`). -/
def insert_byte_loop (the_byte : Nat) : Nat → bit_buffer → bit_buffer
  | 0, b => b
  | bit + 1, b =>
    insert_byte_loop the_byte bit (bit_buffer_insert_bit b ((the_byte &&& (1 <<< bit) : Nat) : Int))

/-- The function `bit_buffer_insert_byte`. -/
def bit_buffer_insert_byte (b : bit_buffer) (the_byte : Nat) : bit_buffer :=
  insert_byte_loop the_byte 8 b

/-- The function `bit_buffer_inspect_bit`. -/
def bit_buffer_inspect_bit (b : bit_buffer) (bit_no : Nat) : Int :=
  let bit_in_buffer := (bit_no + b.next_remove) % b.capacity
  bit_buffer_get_bit_value b bit_in_buffer

/-- The function `bit_buffer_remove_bit`; `none` is the failure of `assert(b->size > 0)`. -/
def bit_buffer_remove_bit (b : bit_buffer) : Option (Int × bit_buffer) :=
  if b.size > 0 then
    let value := bit_buffer_get_bit_value b b.next_remove
    let b := bit_buffer_set_bit_value b b.next_remove 0
    let b := { b with next_remove := (b.next_remove + 1) % b.capacity }
    let b := { b with size := b.size - 1 }
    some (value, b)
  else none

/-- The loop of `bit_buffer_remove_byte`, `for (bit = 7; bit >= 0; bit--)`, with
`n` iterations left (the current `bit` is `n - 1`). -/
def remove_byte_loop : Nat → Nat → bit_buffer → Option (Nat × bit_buffer)
  | 0, the_byte, b => some (the_byte, b)
  | bit + 1, the_byte, b =>
    match bit_buffer_remove_bit b with
    | none => none
    | some (v, b) =>
      remove_byte_loop bit (if v ≠ 0 then the_byte ||| (1 <<< bit) else the_byte) b

/-- The function `bit_buffer_remove_byte`; `none` is the failure of
`assert(b->size >= 8)`. -/
def bit_buffer_remove_byte (b : bit_buffer) : Option (Nat × bit_buffer) :=
  if b.size ≥ 8 then remove_byte_loop 8 0 b else none

/-- The loop of `bit_buffer_copy`, `for (i = 0; i < bit_buffer_size(b); i++)`, standing
at index `i` with `n` iterations left. -/
def copy_loop (b : bit_buffer) (i : Nat) : Nat → bit_buffer → bit_buffer
  | 0, res => res
  | n + 1, res => copy_loop b (i + 1) n (bit_buffer_insert_bit res (bit_buffer_inspect_bit b i))

/-- The function `bit_buffer_copy`. -/
def bit_buffer_copy (b : bit_buffer) : bit_buffer :=
  copy_loop b 0 (bit_buffer_size b) bit_buffer_empty

/-- The loop of `bit_buffer_create`, `for (i = 0; i < size; i++)`, standing at index
`i` with `n` iterations left: byte `i` of the input is stored at index `i`. -/
def create_loop (byte_array : List Nat) (i : Nat) : Nat → List Nat → List Nat
  | 0, array => array
  | n + 1, array => create_loop byte_array (i + 1) n (array.set i (byte_array.getD i 0))

/-- The function `bit_buffer_create`. -/
def bit_buffer_create (byte_array : List Nat) (size : Nat) : bit_buffer :=
  let b := bit_buffer_empty
  let b := { b with array := realloc b.array size }
  let b := { b with array := create_loop byte_array 0 size b.array }
  let b := { b with capacity := size * 8 }
  { b with size := size * 8 }

/-- The function `bit_buffer_to_byte_array`: a fresh array of `capacity / 8` zero bytes
that receives the first `capacity / 8` bytes of the storage. -/
def bit_buffer_to_byte_array (b : bit_buffer) : List Nat :=
  (List.range (b.capacity / 8)).map (fun i => b.array.getD i 0)

/-! ### Scenarios used by the claims -/

/-- Insert the values of a list one by one with `bit_buffer_insert_bit`. -/
def insert_bits (b : bit_buffer) (vs : List Int) : bit_buffer :=
  vs.foldl bit_buffer_insert_bit b

/-- Call `bit_buffer_remove_bit` `n` times and collect the returned values in
the order of the calls; `none` when one of the calls fails. -/
def remove_bits : Nat → bit_buffer → Option (List Int × bit_buffer)
  | 0, b => some ([], b)
  | n + 1, b =>
    match bit_buffer_remove_bit b with
    | none => none
    | some (v, b) =>
      match remove_bits n b with
      | none => none
      | some (vs, b) => some (v :: vs, b)

/-- The truth value of a C `int` as the code reads it: 1 when nonzero, else 0.
On the bit values 0 and 1 it is the identity. -/
def truth (value : Int) : Int := if value ≠ 0 then 1 else 0

/-- The bits held by a buffer, oldest first, as `bit_buffer_inspect_bit` reports
them at the positions `0 .. size - 1`. -/
def queue_of (b : bit_buffer) : List Int :=
  (List.range (bit_buffer_size b)).map (bit_buffer_inspect_bit b)

/-- The eight bits of a byte as bit values, from bit 7 (most significant) down to
bit 0: 1 when the bit is set and 0 otherwise. -/
def byte_bits (the_byte : Nat) : List Int :=
  (List.range 8).reverse.map (fun bit => ((the_byte / 2 ^ bit % 2 : Nat) : Int))

/-- The abstract FIFO queue of bits, insertion: the bit goes to the end. -/
def fifo_insert (q : List Int) (value : Int) : List Int := q ++ [truth value]

/-- The abstract FIFO queue of bits, removal: the oldest bit leaves at the front;
`none` on the empty queue. -/
def fifo_remove : List Int → Option (Int × List Int)
  | [] => none
  | v :: q => some (v, q)

/-- The representation invariant of the circular storage: the capacity is a positive
multiple of 8 that matches the allocated bytes, the live bits fit in it, and
`next_insert` is `size` places after `next_remove`, around the end. -/
def Consistent (b : bit_buffer) : Prop :=
  b.capacity % 8 = 0 ∧ 0 < b.capacity ∧ b.array.length = b.capacity / 8 ∧
  b.size ≤ b.capacity ∧ b.next_remove < b.capacity ∧
  b.next_insert = (b.next_remove + b.size) % b.capacity

/-- A consistent buffer with at least one free place: the states on which
`bit_buffer_insert_bit` works as an append. -/
def WellFormed (b : bit_buffer) : Prop :=
  Consistent b ∧ b.size < b.capacity

/-- The buffers reached from `bit_buffer_empty` by insertions and removals of bits
and bytes, each removal within its precondition. -/
inductive Reachable : bit_buffer → Prop
  | empty : Reachable bit_buffer_empty
  | insert_bit (b : bit_buffer) (value : Int) :
      Reachable b → Reachable (bit_buffer_insert_bit b value)
  | insert_byte (b : bit_buffer) (the_byte : Nat) :
      Reachable b → Reachable (bit_buffer_insert_byte b the_byte)
  | remove_bit (b : bit_buffer) (value : Int) (b' : bit_buffer) :
      Reachable b → bit_buffer_remove_bit b = some (value, b') → Reachable b'
  | remove_byte (b : bit_buffer) (the_byte : Nat) (b' : bit_buffer) :
      Reachable b → bit_buffer_remove_byte b = some (the_byte, b') → Reachable b'

/-- A buffer whose live region wraps around the end of the storage and that has one
free place left: fifteen bits inserted, five removed, five more inserted. -/
def wrapped_example : bit_buffer :=
  { capacity := 16, array := [178, 241], size := 15, next_insert := 4, next_remove := 5 }

/-! ## list.c

The doubly linked list is the sequence of the values of its nodes.  A
`list_position` is the index of the node that `*pos.forward` points to, the length
of the list standing for the end position.  The memory handler `mfunc`, which frees
the values of removed nodes, has no effect on the content and is left out. -/

/-- The function `list_empty`. -/
def list_empty {α : Type} : List α := []

/-- The function `list_is_empty`. -/
def list_is_empty {α : Type} (l : List α) : Bool := l.isEmpty

/-- The function `list_first`: the position of the first node, which is the end
position when the list is empty. -/
def list_first {α : Type} (_l : List α) : Nat := 0

/-- The function `list_next`. -/
def list_next {α : Type} (_l : List α) (pos : Nat) : Nat := pos + 1

/-- The function `list_is_end`: no node stands at the position. -/
def list_is_end {α : Type} (l : List α) (pos : Nat) : Bool := decide (l.length ≤ pos)

/-- The function `list_inspect`: the value of the node at the position; `none` where
the code would follow a null pointer. -/
def list_inspect {α : Type} (l : List α) (pos : Nat) : Option α := l[pos]?

/-- The function `list_insert`: a new node with the value is linked in before the
node at the position. -/
def list_insert {α : Type} (l : List α) (pos : Nat) (value : α) : List α :=
  l.take pos ++ value :: l.drop pos

/-- The function `list_remove`: the node at the position is unlinked. -/
def list_remove {α : Type} (l : List α) (pos : Nat) : List α :=
  l.take pos ++ l.drop (pos + 1)

/-! ## pqueue.c -/

/-- The record `struct pqueue`: the list and the compare function, `none` for `NULL`. -/
structure pqueue (α : Type) where
  the_list : List α
  cmp_func : Option (α → α → Int)

/-- The function `pqueue_empty`. -/
def pqueue_empty {α : Type} (cmp_func : Option (α → α → Int)) : pqueue α :=
  { the_list := list_empty, cmp_func := cmp_func }

/-- The function `pqueue_is_empty`. -/
def pqueue_is_empty {α : Type} (pq : pqueue α) : Bool := list_is_empty pq.the_list

/-- The function `pqueue_delete_first`. -/
def pqueue_delete_first {α : Type} (pq : pqueue α) : pqueue α :=
  if !list_is_empty pq.the_list then
    { pq with the_list := list_remove pq.the_list (list_first pq.the_list) }
  else pq

/-- The loop `while (!list_is_end(pq->the_list, pos))` of `pqueue_insert`, standing at
position `pos` with the nodes `rest` from there to the end of the list still to
visit.  It returns the list after the `list_insert` that ends the function. -/
def pqueue_insert_loop {α : Type} (pq : pqueue α) (value : α) : List α → Nat → List α
  | [], pos => list_insert pq.the_list pos value
  | e :: rest, pos =>
    match pq.cmp_func with
    | some cmp =>
      if cmp value e < 0 then list_insert pq.the_list pos value
      else pqueue_insert_loop pq value rest (list_next pq.the_list pos)
    | none => pqueue_insert_loop pq value rest (list_next pq.the_list pos)

/-- The function `pqueue_insert`. -/
def pqueue_insert {α : Type} (pq : pqueue α) (value : α) : pqueue α :=
  if list_is_empty pq.the_list then
    { pq with the_list := list_insert pq.the_list (list_first pq.the_list) value }
  else
    { pq with the_list :=
        pqueue_insert_loop pq value pq.the_list (list_first pq.the_list) }

/-- The function `pqueue_inspect_first`. -/
def pqueue_inspect_first {α : Type} (pq : pqueue α) : Option α :=
  list_inspect pq.the_list (list_first pq.the_list)

/-! ## test_pqueue.c -/

/-- The record `queue_elem` of the demonstration: a priority and a tag. -/
structure queue_elem where
  prio : Int
  val : Char
deriving DecidableEq

/-- A C `int` result: the value taken modulo `2 ^ 32` into the signed range. -/
def wrap_int32 (x : Int) : Int := (x + 2 ^ 31) % 2 ^ 32 - 2 ^ 31

/-- The function `lessthan` of the demonstration: the difference of the priorities. -/
def lessthan (elem1 elem2 : queue_elem) : Int := wrap_int32 (elem1.prio - elem2.prio)

/-- The loop of `create_pq`: the pairs of the two arrays are inserted in order. -/
def create_pq_loop (numbers : List Int) (chars : List Char) (pq : pqueue queue_elem) :
    pqueue queue_elem :=
  (List.zip numbers chars).foldl (fun pq p => pqueue_insert pq { prio := p.1, val := p.2 }) pq

/-- The function `create_pq`. -/
def create_pq : pqueue queue_elem :=
  create_pq_loop [5, 3, 9, 7, 1, 0, 5] ['a', 'a', 'a', 'a', 'a', 'a', 'b']
    (pqueue_empty (some lessthan))

/-- The function `print_and_empty`: while the queue is not empty, its first element
is taken with `pqueue_inspect_first`, deleted with `pqueue_delete_first` and printed.
The result is the sequence of the printed elements and the queue left; `fuel` bounds
the number of iterations. -/
def print_and_empty {α : Type} : Nat → pqueue α → List α × pqueue α
  | 0, pq => ([], pq)
  | fuel + 1, pq =>
    if !pqueue_is_empty pq then
      match pqueue_inspect_first pq with
      | some q_elem =>
        let r := print_and_empty fuel (pqueue_delete_first pq)
        (q_elem :: r.1, r.2)
      | none => ([], pq)
    else ([], pq)

/-! ## huffman_trie.c -/

/-- The record `struct trie_node`: weight, key and the two children, `none` for
`NULL`. -/
inductive trie_node where
  | mk (weight : Int) (key : Nat) (left right : Option trie_node) : trie_node

/-- The field `weight` of a `trie_node`. -/
def trie_node.weight : trie_node → Int
  | .mk weight _ _ _ => weight

/-- The function `cmp_key`. -/
def cmp_key (node1 node2 : trie_node) : Int :=
  if node1.weight > node2.weight then 1
  else if node2.weight > node1.weight then -1
  else 0

/-! ### Notions used by the claims about the priority queue -/

/-- The comparator contract of `pqueue.h`: the sign of `cmp a b` tells whether `a` is
below, equal in rank to, or above `b` in a total preorder.  Swapping the arguments
swaps the sign, and "not above" is transitive. -/
structure IsTotalPreorderCmp {α : Type} (cmp : α → α → Int) : Prop where
  swap : ∀ a b, cmp a b < 0 ↔ 0 < cmp b a
  trans : ∀ a b c, cmp a b ≤ 0 → cmp b c ≤ 0 → cmp a c ≤ 0

/-- Ascending order of a list: `cmp x y ≤ 0` for every `x` stored before `y`. -/
def Ascending {α : Type} (cmp : α → α → Int) (l : List α) : Prop :=
  l.Pairwise (fun x y => cmp x y ≤ 0)

/-- The stable ascending sort, as a relation between the sequence `vs` in insertion
order and the sequence `out`: the same values, in non-decreasing rank, and the values
of any one rank in the order they have in `vs`. -/
def IsStableSortOf {α : Type} (cmp : α → α → Int) (vs out : List α) : Prop :=
  out.Perm vs ∧ Ascending cmp out ∧
  ∀ a, out.filter (fun x => decide (cmp a x = 0)) = vs.filter (fun x => decide (cmp a x = 0))

/-- Insert the values of a list one by one with `pqueue_insert`. -/
def pqueue_insert_all {α : Type} (pq : pqueue α) (vs : List α) : pqueue α :=
  vs.foldl pqueue_insert pq

/-- The queues reached from `pqueue_empty(cmp)` by `pqueue_insert` and
`pqueue_delete_first`. -/
inductive PQReachable {α : Type} (cmp : α → α → Int) : pqueue α → Prop
  | empty : PQReachable cmp (pqueue_empty (some cmp))
  | insert (pq : pqueue α) (value : α) :
      PQReachable cmp pq → PQReachable cmp (pqueue_insert pq value)
  | delete_first (pq : pqueue α) :
      PQReachable cmp pq → PQReachable cmp (pqueue_delete_first pq)

/-- Three leaves, two of them of weight 5, in the order of their insertion. -/
def three_leaves : List trie_node :=
  [trie_node.mk 5 97 none none, trie_node.mk 3 98 none none, trie_node.mk 5 99 none none]

/-- A byte array read most significant bit first: the bits of byte 0, then those of
byte 1, and so on. -/
def array_bits : List Nat → List Int
  | [] => []
  | the_byte :: rest => byte_bits the_byte ++ array_bits rest

/-- The outcome of a call of `bit_buffer_inspect_bit`, `none` standing for a failed
`assert`.  The function asserts `b` and `b->array`, which hold of every buffer of the
model, and nothing about `bit_no`: no call fails. -/
def bit_buffer_inspect_bit_call (b : bit_buffer) (bit_no : Nat) : Option Int :=
  some (bit_buffer_inspect_bit b bit_no)

/-! ## calc_frequency.h and huffman_trie.c, continued -/

/-- The record `charFrequency`: a character code and its number of occurrences. -/
structure charFrequency where
  character : Int
  frequency : Int
deriving DecidableEq

/-- The field `key` of a `trie_node`. -/
def trie_node.key : trie_node → Nat
  | .mk _ key _ _ => key

/-- The field `left` of a `trie_node`. -/
def trie_node.left : trie_node → Option trie_node
  | .mk _ _ left _ => left

/-- The field `right` of a `trie_node`. -/
def trie_node.right : trie_node → Option trie_node
  | .mk _ _ _ right => right

/-- The node that `process_frequency` makes of an entry of the table: the weight is
the frequency, the key is the character converted to `unsigned char`, and there are
no children. -/
def new_node (entry : charFrequency) : trie_node :=
  trie_node.mk entry.frequency (entry.character % 256).toNat none none

/-- The loop of `process_frequency`, `for (i = 0; i < 256; i++)`, standing at index `i`
with `n` iterations left.  An index outside the table reads an entry of frequency 0. -/
def process_frequency_loop (frequency : List charFrequency) (i : Nat) :
    Nat → pqueue trie_node → pqueue trie_node
  | 0, pq => pq
  | n + 1, pq =>
    let entry := frequency.getD i { character := 0, frequency := 0 }
    let pq := if entry.frequency > 0 then pqueue_insert pq (new_node entry) else pq
    process_frequency_loop frequency (i + 1) n pq

/-- The function `process_frequency`. -/
def process_frequency (frequency : List charFrequency) : pqueue trie_node :=
  process_frequency_loop frequency 0 256 (pqueue_empty (some cmp_key))

/-- The leaves that a frequency table calls for, in ascending symbol value: one leaf
for each symbol `i` below 256 whose count is above 0, with key `i` and the count as
weight. -/
def leaves_of (frequency : List charFrequency) : List trie_node :=
  (List.range 256).filterMap (fun i =>
    if (frequency.getD i { character := 0, frequency := 0 }).frequency > 0 then
      some (trie_node.mk (frequency.getD i { character := 0, frequency := 0 }).frequency i
        none none)
    else none)

/-- A table of 256 entries in which the symbols `A` and `B` occur four times and
once, and no other symbol occurs. -/
def frequency_example : List charFrequency :=
  (List.range 256).map (fun (i : Nat) =>
    { character := (i : Int), frequency := if i = 65 then 4 else if i = 66 then 1 else 0 })

/-! ## huffman.c -/

/-- The three file pointers that `check_prog_params` assigns; `none` is `NULL` or a
pointer that was not assigned, `some path` a file open on `path`. -/
structure prog_files where
  frequency_file_p : Option String
  process_file_p : Option String
  out_file_p : Option String
deriving DecidableEq

/-- The call `fopen(path, mode)` in a file system where `can_open path mode` tells
whether the file can be opened. -/
def fopen (can_open : String → String → Bool) (path mode : String) : Option String :=
  if can_open path mode then some path else none

/-- The function `check_prog_params`: its return value and the file pointers as it
leaves them.  The diagnostics it prints are left out. -/
def check_prog_params (can_open : String → String → Bool) (argc : Int) (argv : List String) :
    Int × prog_files :=
  let files : prog_files :=
    { frequency_file_p := none, process_file_p := none, out_file_p := none }
  if argc = 5 then
    let files := { files with frequency_file_p := fopen can_open (argv.getD 2 "") "r" }
    if files.frequency_file_p = none then (-1, files)
    else if argv.getD 1 "" = "-encode" then
      let files := { files with process_file_p := fopen can_open (argv.getD 3 "") "r" }
      if files.process_file_p = none then (-1, files)
      else
        let files := { files with out_file_p := fopen can_open (argv.getD 4 "") "wb" }
        if files.out_file_p = none then (-1, files) else (0, files)
    else if argv.getD 1 "" = "-decode" then
      let files := { files with process_file_p := fopen can_open (argv.getD 3 "") "rb" }
      if files.process_file_p = none then (-1, files)
      else
        let files := { files with out_file_p := fopen can_open (argv.getD 4 "") "w" }
        if files.out_file_p = none then (-1, files) else (0, files)
    else (0, files)
  else (-1, files)

/-- The exit code of `main`.  When `check_prog_params` reports failure, `main` returns
0; otherwise it reads the frequency file, prints the queue of `process_frequency` and
returns 0.  The reading and the printing do not bear on the exit code and are left
out. -/
def main (can_open : String → String → Bool) (argc : Int) (argv : List String) : Int :=
  let wrong_prog_params := (check_prog_params can_open argc argv).1
  if wrong_prog_params ≠ 0 then 0 else 0

/-- The number of growth events during the insertion of `vs` into `b`: the number of
calls of `bit_buffer_insert_bit` that change the capacity. -/
def growth_events (b : bit_buffer) : List Int → Nat
  | [] => 0
  | v :: vs =>
    (if (bit_buffer_insert_bit b v).capacity ≠ b.capacity then 1 else 0)
      + growth_events (bit_buffer_insert_bit b v) vs

/-- Every place of the storage that holds none of the `size` live bits, which stand at
the places `(next_remove + k) % capacity` for `k < size`, has the value 0. -/
def ZeroOutside (b : bit_buffer) : Prop :=
  ∀ j, j < b.capacity → (∀ k, k < b.size → j ≠ (b.next_remove + k) % b.capacity) →
    bit_buffer_get_bit_value b j = 0

/-! ## calc_frequency.c -/

/-- The first loop of `calc_frequency`: entry `i` of the 256 entries receives the
character `i` and the frequency 0. -/
def calc_frequency_init : List charFrequency :=
  (List.range 256).map (fun (i : Nat) => { character := (i : Int), frequency := 0 })

/-- The body of the second loop of `calc_frequency` for one value returned by `fgetc`:
`if (character >= 0 && character < 256) frequency[character].frequency++;`.  The field
`frequency` is a 32-bit `int`: the incremented value is taken modulo `2 ^ 32` into the
signed range, so that the counter passes from `2147483647` to `-2147483648`. -/
def calc_frequency_count (frequency : List charFrequency) (character : Int) :
    List charFrequency :=
  if character ≥ 0 ∧ character < 256 then
    frequency.set character.toNat
      { character := (frequency.getD character.toNat { character := 0, frequency := 0 }).character,
        frequency :=
          wrap_int32
            ((frequency.getD character.toNat { character := 0, frequency := 0 }).frequency + 1) }
  else frequency

/-- The second loop of `calc_frequency`,
`while ((character = fgetc(frequency_file_p)) != EOF)`, on the bytes that the file
still holds: `fgetc` returns each byte as an `int`, and `EOF` at the end of the bytes. -/
def calc_frequency_loop (frequency : List charFrequency) (file : List Nat) :
    List charFrequency :=
  file.foldl (fun frequency (byte : Nat) => calc_frequency_count frequency (byte : Int)) frequency

/-- The function `calc_frequency` on a file given by its bytes. -/
def calc_frequency (file : List Nat) : List charFrequency :=
  calc_frequency_loop calc_frequency_init file

/-! ## huffman_trie.c and huffman.c, the whole run -/

/-- The outcome of a call of `process_frequency`, `none` standing for a table that the
function rejects.  The function has no statement that fails or reports an error on a
table: whatever the frequencies are, it returns the queue it has built. -/
def process_frequency_call (frequency : List charFrequency) : Option (pqueue trie_node) :=
  some (process_frequency frequency)

/-- What a run of `main` leaves behind: the exit code, the lines
`printf("%d %c\n", test->weight, test->key)` printed from the queue, each as the weight
and the key, and the bytes of the file `argv[4]` after the run when the run has opened
it for writing, `none` when it has not. -/
structure main_run_result where
  exit_code : Int
  printed : List (Int × Nat)
  out_file : Option (List Nat)
deriving DecidableEq

/-- A run of `main` in a file system where `can_open path mode` tells whether a file
can be opened and `read path` is the content of a file.  When `check_prog_params`
reports failure nothing more happens.  Otherwise the table of `calc_frequency` on the
frequency file is made into the queue of `process_frequency`, and the queue is printed
and emptied from the front.  `fopen` with the mode `"wb"` or `"w"` leaves the output
file empty, and no statement of `main` writes to `out_file_p`: the calls of
`encode_file` and `decode_file` stand in a comment. -/
def main_run (can_open : String → String → Bool) (read : String → List Nat)
    (argc : Int) (argv : List String) : main_run_result :=
  let r := check_prog_params can_open argc argv
  let wrong_prog_params := r.1
  if wrong_prog_params ≠ 0 then
    { exit_code := 0, printed := [], out_file := r.2.out_file_p.map (fun _ => []) }
  else
    let frequency := calc_frequency ((r.2.frequency_file_p.map read).getD [])
    let pq := process_frequency frequency
    let printed := (print_and_empty pq.the_list.length pq).1
    { exit_code := 0,
      printed := printed.map (fun test => (test.weight, test.key)),
      out_file := r.2.out_file_p.map (fun _ => []) }

/-- The content of `FILE2` after the run `huffman -encode FILE0 FILE1 FILE2` in which
`FILE0` and `FILE1` both hold the bytes `D`: the encoding of `D` according to the
frequency analysis of `D`, as the usage text of the program has it. -/
def encode_run (D : List Nat) : Option (List Nat) :=
  (main_run (fun _ _ => true) (fun path => if path = "FILE2" then [] else D) 5
    ["huffman", "-encode", "FILE0", "FILE1", "FILE2"]).out_file

/-- The content of `FILE2` after the run `huffman -decode FILE0 FILE1 FILE2` in which
`FILE0` holds the bytes `D` and `FILE1` the bytes `E`. -/
def decode_run (D E : List Nat) : Option (List Nat) :=
  (main_run (fun _ _ => true)
    (fun path => if path = "FILE0" then D else if path = "FILE1" then E else []) 5
    ["huffman", "-decode", "FILE0", "FILE1", "FILE2"]).out_file

/-! # Theorems -/

/-! ## Bit-level facts -/

theorem and_mask_pos_iff (x m : Nat) : (x &&& (1 <<< m)) > 0 ↔ x.testBit m = true := by
  rw [Nat.one_shiftLeft]
  constructor
  · intro h
    by_contra hb
    have hz : x &&& 2 ^ m = 0 := by
      apply Nat.eq_of_testBit_eq
      intro i
      rw [Nat.testBit_and, Nat.testBit_two_pow, Nat.zero_testBit]
      by_cases hmi : m = i
      · subst hmi; simp [hb]
      · simp [hmi]
    omega
  · intro h
    have ht : (x &&& 2 ^ m).testBit m = true := by
      rw [Nat.testBit_and, Nat.testBit_two_pow_self, h]; rfl
    by_contra hz
    have hz0 : x &&& 2 ^ m = 0 := by omega
    rw [hz0, Nat.zero_testBit] at ht
    exact Bool.noConfusion ht

theorem testBit_set_mask (x k m : Nat) :
    (x ||| (1 <<< k)).testBit m = (decide (k = m) || x.testBit m) := by
  rw [Nat.one_shiftLeft, Nat.testBit_or, Nat.testBit_two_pow, Bool.or_comm]

theorem testBit_clear_mask (x k m : Nat) (hm : m < 8) :
    (x &&& (255 ^^^ (1 <<< k))).testBit m = (!decide (k = m) && x.testBit m) := by
  have h255 : (255 : Nat) = 2 ^ 8 - 1 := by norm_num
  rw [Nat.one_shiftLeft, Nat.testBit_and, Nat.testBit_xor, Nat.testBit_two_pow, h255,
    Nat.testBit_two_pow_sub_one]
  by_cases hkm : k = m <;> simp [hkm, hm]

/-- The value read by `bit_buffer_get_bit_value`, as a test of one bit of one byte. -/
theorem get_bit_value_eq (b : bit_buffer) (j : Nat) :
    bit_buffer_get_bit_value b j
      = if (b.array.getD (j / 8) 0).testBit (7 - j % 8) = true then 1 else 0 := by
  unfold bit_buffer_get_bit_value
  simp only [and_mask_pos_iff]

theorem set_bit_value_capacity (b : bit_buffer) (i : Nat) (v : Int) :
    (bit_buffer_set_bit_value b i v).capacity = b.capacity := rfl

theorem set_bit_value_size (b : bit_buffer) (i : Nat) (v : Int) :
    (bit_buffer_set_bit_value b i v).size = b.size := rfl

theorem set_bit_value_next_insert (b : bit_buffer) (i : Nat) (v : Int) :
    (bit_buffer_set_bit_value b i v).next_insert = b.next_insert := rfl

theorem set_bit_value_next_remove (b : bit_buffer) (i : Nat) (v : Int) :
    (bit_buffer_set_bit_value b i v).next_remove = b.next_remove := rfl

theorem set_bit_value_length (b : bit_buffer) (i : Nat) (v : Int) :
    (bit_buffer_set_bit_value b i v).array.length = b.array.length := by
  simp [bit_buffer_set_bit_value]

/-- Reading the bit that was just written gives the written truth value. -/
theorem get_set_same (b : bit_buffer) (i : Nat) (v : Int) (h : i / 8 < b.array.length) :
    bit_buffer_get_bit_value (bit_buffer_set_bit_value b i v) i = if v ≠ 0 then 1 else 0 := by
  rw [get_bit_value_eq]
  have hm : 7 - i % 8 < 8 := by omega
  simp only [bit_buffer_set_bit_value, List.getD_eq_getElem?_getD, List.getElem?_set_self h,
    Option.getD_some]
  by_cases hv : v = 0
  · simp only [hv, ne_eq, not_true_eq_false, if_false, testBit_clear_mask _ _ _ hm]
    simp
  · simp only [hv, ne_eq, not_false_eq_true, if_true, testBit_set_mask]
    simp

/-- Writing one bit leaves every other bit as it was. -/
theorem get_set_other (b : bit_buffer) (i j : Nat) (v : Int) (h : i ≠ j) :
    bit_buffer_get_bit_value (bit_buffer_set_bit_value b i v) j
      = bit_buffer_get_bit_value b j := by
  rw [get_bit_value_eq, get_bit_value_eq]
  have hm : 7 - j % 8 < 8 := by omega
  by_cases hb : i / 8 = j / 8
  · have hne : ¬ (7 - i % 8 = 7 - j % 8) := by omega
    by_cases hlen : i / 8 < b.array.length
    · have hlen2 : j / 8 < b.array.length := hb ▸ hlen
      simp only [bit_buffer_set_bit_value, List.getD_eq_getElem?_getD, ← hb,
        List.getElem?_set_self hlen, Option.getD_some]
      by_cases hv : v = 0
      · simp only [hv, ne_eq, not_true_eq_false, if_false, testBit_clear_mask _ _ _ hm]
        simp [hne]
      · simp only [hv, ne_eq, not_false_eq_true, if_true, testBit_set_mask]
        simp [hne]
    · have hle : b.array.length ≤ i / 8 := by omega
      simp only [bit_buffer_set_bit_value, List.set_eq_of_length_le hle]
  · simp only [bit_buffer_set_bit_value, List.getD_eq_getElem?_getD, List.getElem?_set_ne hb]

/-! ## The two loops of the growth branch -/

theorem get_bit_value_truth (b : bit_buffer) (j : Nat) :
    truth (bit_buffer_get_bit_value b j) = bit_buffer_get_bit_value b j := by
  unfold truth
  rw [get_bit_value_eq]
  split <;> simp

theorem get_set_same_truth (b : bit_buffer) (i : Nat) (v : Int) (h : i / 8 < b.array.length) :
    bit_buffer_get_bit_value (bit_buffer_set_bit_value b i v) i = truth v :=
  get_set_same b i v h

/-- The shift loop entered at `i` moves the bits `next_remove .. i - 8` up by eight
places and changes nothing else. -/
theorem shift_loop_spec (i : Nat) : ∀ (b : bit_buffer), i / 8 < b.array.length →
    (insert_bit_shift_loop b i).capacity = b.capacity ∧
    (insert_bit_shift_loop b i).size = b.size ∧
    (insert_bit_shift_loop b i).next_insert = b.next_insert ∧
    (insert_bit_shift_loop b i).next_remove = b.next_remove ∧
    (insert_bit_shift_loop b i).array.length = b.array.length ∧
    ∀ j, bit_buffer_get_bit_value (insert_bit_shift_loop b i) j
      = if b.next_remove + 8 ≤ j ∧ j ≤ i then bit_buffer_get_bit_value b (j - 8)
        else bit_buffer_get_bit_value b j := by
  induction i with
  | zero =>
    intro b _
    refine ⟨rfl, rfl, rfl, rfl, rfl, ?_⟩
    intro j
    have hc : ¬ (b.next_remove + 8 ≤ j ∧ j ≤ 0) := by omega
    simp only [insert_bit_shift_loop, if_neg hc]
  | succ i ih =>
    intro b hlen
    by_cases hgo : b.next_remove + 8 ≤ i + 1
    · have hlen1 : i / 8 < (bit_buffer_set_bit_value b (i + 1)
          (bit_buffer_get_bit_value b (i + 1 - 8))).array.length := by
        rw [set_bit_value_length]; omega
      obtain ⟨h1, h2, h3, h4, h5, h6⟩ := ih _ hlen1
      simp only [insert_bit_shift_loop, if_pos hgo]
      refine ⟨h1, h2, h3, h4, by rw [h5, set_bit_value_length], ?_⟩
      intro j
      rw [h6 j, set_bit_value_next_remove]
      by_cases hin : b.next_remove + 8 ≤ j ∧ j ≤ i
      · have hin' : b.next_remove + 8 ≤ j ∧ j ≤ i + 1 := by omega
        rw [if_pos hin, if_pos hin', get_set_other]
        omega
      · rw [if_neg hin]
        by_cases hj : j = i + 1
        · subst hj
          have hin' : b.next_remove + 8 ≤ i + 1 ∧ i + 1 ≤ i + 1 := by omega
          rw [if_pos hin', get_set_same_truth _ _ _ hlen, get_bit_value_truth]
        · have hin' : ¬ (b.next_remove + 8 ≤ j ∧ j ≤ i + 1) := by omega
          rw [if_neg hin', get_set_other]
          omega
    · have hstop : insert_bit_shift_loop b (i + 1) = b := by
        simp only [insert_bit_shift_loop, if_neg hgo]
      rw [hstop]
      refine ⟨rfl, rfl, rfl, rfl, rfl, ?_⟩
      intro j
      have hc : ¬ (b.next_remove + 8 ≤ j ∧ j ≤ i + 1) := by omega
      rw [if_neg hc]

/-- The clearing loop with `n` iterations from index `i` clears the bits
`i .. i + n - 1` and changes nothing else. -/
theorem zero_loop_spec (n : Nat) : ∀ (b : bit_buffer) (i : Nat), i + n ≤ 8 * b.array.length →
    (insert_bit_zero_loop b i n).capacity = b.capacity ∧
    (insert_bit_zero_loop b i n).size = b.size ∧
    (insert_bit_zero_loop b i n).next_insert = b.next_insert ∧
    (insert_bit_zero_loop b i n).next_remove = b.next_remove ∧
    (insert_bit_zero_loop b i n).array.length = b.array.length ∧
    ∀ j, bit_buffer_get_bit_value (insert_bit_zero_loop b i n) j
      = if i ≤ j ∧ j < i + n then 0 else bit_buffer_get_bit_value b j := by
  induction n with
  | zero =>
    intro b i _
    refine ⟨rfl, rfl, rfl, rfl, rfl, ?_⟩
    intro j
    have hc : ¬ (i ≤ j ∧ j < i + 0) := by omega
    simp only [insert_bit_zero_loop, if_neg hc]
  | succ n ih =>
    intro b i hlen
    have hlen1 : i + 1 + n ≤ 8 * (bit_buffer_set_bit_value b i 0).array.length := by
      rw [set_bit_value_length]; omega
    obtain ⟨h1, h2, h3, h4, h5, h6⟩ := ih _ (i + 1) hlen1
    simp only [insert_bit_zero_loop]
    refine ⟨h1, h2, h3, h4, by rw [h5, set_bit_value_length], ?_⟩
    intro j
    rw [h6 j]
    by_cases hin : i + 1 ≤ j ∧ j < i + 1 + n
    · have hin' : i ≤ j ∧ j < i + (n + 1) := by omega
      rw [if_pos hin, if_pos hin']
    · rw [if_neg hin]
      by_cases hj : j = i
      · subst hj
        have hin' : j ≤ j ∧ j < j + (n + 1) := by omega
        rw [if_pos hin', get_set_same _ _ _ (by omega)]
        simp
      · have hin' : ¬ (i ≤ j ∧ j < i + (n + 1)) := by omega
        rw [if_neg hin', get_set_other]
        omega

/-! ## Insertion on a well-formed buffer -/

theorem mod_lt_two (x c : Nat) (hx : x < 2 * c) :
    x % c = if x < c then x else x - c := by
  by_cases h : x < c
  · rw [if_pos h, Nat.mod_eq_of_lt h]
  · rw [if_neg h, Nat.mod_eq_sub_mod (by omega), Nat.mod_eq_of_lt (by omega)]

theorem get_bit_value_congr (b1 b2 : bit_buffer) (h : b1.array = b2.array) (j : Nat) :
    bit_buffer_get_bit_value b1 j = bit_buffer_get_bit_value b2 j := by
  unfold bit_buffer_get_bit_value
  rw [h]

/-- The storage after `realloc` by one byte and the clearing of the new byte. -/
theorem grow_array (array : List Nat) (n : Nat) (h : array.length = n) :
    (realloc array (n + 1)).set n 0 = array ++ [0] := by
  subst h
  unfold realloc
  have h1 : array.length + 1 - array.length = 1 := by omega
  rw [h1]
  have h2 : (array ++ List.replicate 1 uninitialised).length = array.length + 1 := by simp
  rw [← h2, List.take_length]
  simp

/-- A zero byte added at the end shows at no bit position. -/
theorem get_append_zero (b1 b : bit_buffer) (h : b1.array = b.array ++ [0]) (j : Nat) :
    bit_buffer_get_bit_value b1 j = bit_buffer_get_bit_value b j := by
  rw [get_bit_value_eq, get_bit_value_eq, h]
  by_cases hj : j / 8 < b.array.length
  · simp only [List.getD_eq_getElem?_getD, List.getElem?_append_left hj]
  · have h1 : (b.array ++ [0]).getD (j / 8) 0 = 0 := by
      simp only [List.getD_eq_getElem?_getD]
      by_cases hj2 : j / 8 = b.array.length
      · rw [hj2]; simp
      · rw [List.getElem?_eq_none (by simp; omega)]; rfl
    have h2 : b.array.getD (j / 8) 0 = 0 := by
      simp only [List.getD_eq_getElem?_getD]
      rw [List.getElem?_eq_none (by omega)]; rfl
    rw [h1, h2]

/-- The function `bit_buffer_insert_bit` is its growth statement followed by its
store statements. -/
theorem insert_bit_eq (b : bit_buffer) (v : Int) :
    bit_buffer_insert_bit b v = insert_bit_store (insert_bit_grow b) v := by
  unfold bit_buffer_insert_bit insert_bit_store insert_bit_grow insert_bit_extend insert_bit_shift
  by_cases hg : bit_buffer_size b + 1 = b.capacity
  · simp only [if_pos hg]
  · simp only [if_neg hg]

theorem insert_bit_extend_eq (b : bit_buffer) (hlen : b.array.length = b.capacity / 8) :
    insert_bit_extend b =
      { capacity := b.capacity + 8, array := b.array ++ [0], size := b.size,
        next_insert := b.next_insert, next_remove := b.next_remove } := by
  have h8 : (b.capacity + 8) / 8 - 1 = b.capacity / 8 := by omega
  simp only [insert_bit_extend, h8, grow_array b.array (b.capacity / 8) hlen]

/-- The shift of the wrapped part: the bits from `next_remove` on move up by eight
places, the eight places at `next_remove` are cleared, and `next_remove` follows. -/
theorem insert_bit_shift_spec (g : bit_buffer) (hlen : g.array.length = g.capacity / 8)
    (h8 : g.capacity % 8 = 0) (hnr : g.next_remove + 8 ≤ g.capacity) :
    (insert_bit_shift g).capacity = g.capacity ∧
    (insert_bit_shift g).size = g.size ∧
    (insert_bit_shift g).next_insert = g.next_insert ∧
    (insert_bit_shift g).next_remove = g.next_remove + 8 ∧
    (insert_bit_shift g).array.length = g.array.length ∧
    ∀ j, bit_buffer_get_bit_value (insert_bit_shift g) j
      = if g.next_remove ≤ j ∧ j < g.next_remove + 8 then 0
        else if g.next_remove + 8 ≤ j ∧ j ≤ g.capacity - 1 then bit_buffer_get_bit_value g (j - 8)
        else bit_buffer_get_bit_value g j := by
  have hlen1 : (g.capacity - 1) / 8 < g.array.length := by omega
  obtain ⟨s1, s2, s3, s4, s5, s6⟩ := shift_loop_spec (g.capacity - 1) g hlen1
  have hlen2 : g.next_remove + 8 ≤ 8 * (insert_bit_shift_loop g (g.capacity - 1)).array.length := by
    rw [s5]; omega
  obtain ⟨z1, z2, z3, z4, z5, z6⟩ := zero_loop_spec 8 _ g.next_remove hlen2
  unfold insert_bit_shift
  simp only [s4]
  generalize insert_bit_zero_loop (insert_bit_shift_loop g (g.capacity - 1)) g.next_remove 8 = Z
    at z1 z2 z3 z4 z5 z6 ⊢
  refine ⟨?_, ?_, ?_, ?_, ?_, ?_⟩
  · rw [z1, s1]
  · rw [z2, s2]
  · rw [z3, s3]
  · rw [z4, s4]
  · rw [z5, s5]
  intro j
  refine (get_bit_value_congr _ Z rfl j).trans ?_
  rw [z6 j, s6 j]

/-- The growth statement on a well-formed buffer: the result is consistent with two
free places, the capacity grows by 8 exactly when `size + 1 = capacity`, and every
bit of the buffer is still read at the same position. -/
theorem insert_bit_grow_spec (b : bit_buffer) (h : WellFormed b) :
    Consistent (insert_bit_grow b) ∧
    (insert_bit_grow b).size = b.size ∧
    (insert_bit_grow b).size + 1 < (insert_bit_grow b).capacity ∧
    (insert_bit_grow b).capacity
      = (if b.size + 1 = b.capacity then b.capacity + 8 else b.capacity) ∧
    ∀ i, i < b.size →
      bit_buffer_inspect_bit (insert_bit_grow b) i = bit_buffer_inspect_bit b i := by
  obtain ⟨⟨h8, hpos, hlen, hsz, hnr, hni⟩, hlt⟩ := h
  by_cases hg : b.size + 1 = b.capacity
  · have hni' := hni
    rw [mod_lt_two _ _ (by omega)] at hni'
    by_cases hs : b.next_remove ≥ b.next_insert
    · have hgrow : insert_bit_grow b = insert_bit_shift
          { capacity := b.capacity + 8, array := b.array ++ [0], size := b.size,
            next_insert := b.next_insert, next_remove := b.next_remove } := by
        unfold insert_bit_grow
        simp only [bit_buffer_size, if_pos hg, insert_bit_extend_eq b hlen, if_pos hs]
      generalize hG : bit_buffer.mk (b.capacity + 8) (b.array ++ [0]) b.size b.next_insert
        b.next_remove = G at hgrow
      have g1 : G.capacity = b.capacity + 8 := by rw [← hG]
      have g2 : G.array = b.array ++ [0] := by rw [← hG]
      have g3 : G.size = b.size := by rw [← hG]
      have g4 : G.next_insert = b.next_insert := by rw [← hG]
      have g5 : G.next_remove = b.next_remove := by rw [← hG]
      have hGlen : G.array.length = G.capacity / 8 := by
        rw [g1, g2, List.length_append, List.length_singleton, hlen]; omega
      have hnr1 : 1 ≤ b.next_remove := by
        by_contra hc
        split at hni' <;> omega
      obtain ⟨s1, s2, s3, s4, s5, s6⟩ := insert_bit_shift_spec G hGlen (by omega) (by omega)
      rw [hgrow]
      refine ⟨⟨by omega, by omega, by rw [s5, s1]; exact hGlen, by omega, by omega, ?_⟩,
        by omega, by omega, by rw [if_pos hg]; omega, ?_⟩
      · rw [s3, s4, s2, s1, g1, g3, g4, g5, mod_lt_two _ _ (by omega)]
        split at hni' <;> split <;> omega
      · intro i hi
        unfold bit_buffer_inspect_bit
        rw [s4, s1, g1, g5, s6, mod_lt_two _ (b.capacity + 8) (by omega),
          mod_lt_two _ b.capacity (by omega), g1, g5,
          get_append_zero G b g2, get_append_zero G b g2]
        by_cases hw : i + b.next_remove < b.capacity
        · have e1 : (if i + (b.next_remove + 8) < b.capacity + 8 then i + (b.next_remove + 8)
              else i + (b.next_remove + 8) - (b.capacity + 8)) = i + b.next_remove + 8 := by
            rw [if_pos (by omega)]; omega
          rw [e1, if_pos hw, if_neg (by omega), if_pos (by omega)]
          congr 1
        · have e1 : (if i + (b.next_remove + 8) < b.capacity + 8 then i + (b.next_remove + 8)
              else i + (b.next_remove + 8) - (b.capacity + 8)) = i + b.next_remove - b.capacity := by
            rw [if_neg (by omega)]; omega
          rw [e1, if_neg hw, if_neg (by omega), if_neg (by omega)]
    · have hgrow : insert_bit_grow b =
          { capacity := b.capacity + 8, array := b.array ++ [0], size := b.size,
            next_insert := b.next_insert, next_remove := b.next_remove } := by
        unfold insert_bit_grow
        simp only [bit_buffer_size, if_pos hg, insert_bit_extend_eq b hlen, if_neg hs]
      generalize hG : bit_buffer.mk (b.capacity + 8) (b.array ++ [0]) b.size b.next_insert
        b.next_remove = G at hgrow
      have g1 : G.capacity = b.capacity + 8 := by rw [← hG]
      have g2 : G.array = b.array ++ [0] := by rw [← hG]
      have g3 : G.size = b.size := by rw [← hG]
      have g4 : G.next_insert = b.next_insert := by rw [← hG]
      have g5 : G.next_remove = b.next_remove := by rw [← hG]
      have hnr0 : b.next_remove = 0 := by
        by_contra hc
        split at hni' <;> omega
      rw [hgrow]
      refine ⟨⟨by omega, by omega, ?_, by omega, by omega, ?_⟩,
        by omega, by omega, by rw [if_pos hg]; omega, ?_⟩
      · rw [g1, g2, List.length_append, List.length_singleton, hlen]; omega
      · rw [g1, g3, g4, g5, mod_lt_two _ _ (by omega)]
        split at hni' <;> split <;> omega
      · intro i hi
        unfold bit_buffer_inspect_bit
        rw [g1, g5, hnr0, Nat.add_zero, Nat.mod_eq_of_lt (by omega), Nat.mod_eq_of_lt (by omega),
          get_append_zero G b g2]
  · have hgrow : insert_bit_grow b = b := by
      unfold insert_bit_grow
      simp only [bit_buffer_size, if_neg hg]
    rw [hgrow]
    refine ⟨⟨h8, hpos, hlen, hsz, hnr, hni⟩, rfl, by omega, by rw [if_neg hg], fun _ _ => rfl⟩

/-- The store statements on a consistent buffer with a free place: the new bit is
read at position `size`, the bits before it are untouched. -/
theorem insert_bit_store_spec (g : bit_buffer) (v : Int) (hc : Consistent g)
    (hfree : g.size < g.capacity) :
    Consistent (insert_bit_store g v) ∧
    (insert_bit_store g v).size = g.size + 1 ∧
    (insert_bit_store g v).capacity = g.capacity ∧
    (insert_bit_store g v).next_remove = g.next_remove ∧
    (∀ i, i < g.size →
      bit_buffer_inspect_bit (insert_bit_store g v) i = bit_buffer_inspect_bit g i) ∧
    bit_buffer_inspect_bit (insert_bit_store g v) g.size = truth v := by
  obtain ⟨h8, hpos, hlen, hsz, hnr, hni⟩ := hc
  have hni' := hni
  rw [mod_lt_two _ _ (by omega)] at hni'
  have hni_lt : g.next_insert < g.capacity := by rw [hni]; exact Nat.mod_lt _ hpos
  have e1 : (insert_bit_store g v).capacity = g.capacity := rfl
  have e2 : (insert_bit_store g v).size = g.size + 1 := rfl
  have e3 : (insert_bit_store g v).next_remove = g.next_remove := rfl
  have e4 : (insert_bit_store g v).next_insert = (g.next_insert + 1) % g.capacity := rfl
  have e5 : (insert_bit_store g v).array
      = (bit_buffer_set_bit_value g g.next_insert v).array := rfl
  refine ⟨⟨by rw [e1]; exact h8, by rw [e1]; exact hpos, ?_, by rw [e1, e2]; omega,
    by rw [e1, e3]; exact hnr, ?_⟩, e2, e1, e3, ?_, ?_⟩
  · rw [e5, set_bit_value_length, e1]; exact hlen
  · rw [e4, e3, e2, e1, mod_lt_two _ _ (by omega), mod_lt_two _ _ (by omega)]
    split at hni' <;> split <;> split <;> omega
  · intro i hi
    unfold bit_buffer_inspect_bit
    rw [e1, e3, get_bit_value_congr _ _ e5, get_set_other]
    rw [mod_lt_two _ _ (by omega)]
    split at hni' <;> split <;> omega
  · unfold bit_buffer_inspect_bit
    rw [e1, e3, get_bit_value_congr _ _ e5, Nat.add_comm, ← hni]
    exact get_set_same_truth g g.next_insert v (by omega)

/-- One insertion on a well-formed buffer: the buffer stays well-formed, the size
grows by one, the capacity grows by 8 exactly when `size + 1 = capacity`, the bits
already held keep their positions in the queue and the new bit comes last. -/
theorem insert_bit_spec (b : bit_buffer) (v : Int) (h : WellFormed b) :
    WellFormed (bit_buffer_insert_bit b v) ∧
    (bit_buffer_insert_bit b v).size = b.size + 1 ∧
    (bit_buffer_insert_bit b v).capacity
      = (if b.size + 1 = b.capacity then b.capacity + 8 else b.capacity) ∧
    (∀ i, i < b.size →
      bit_buffer_inspect_bit (bit_buffer_insert_bit b v) i = bit_buffer_inspect_bit b i) ∧
    bit_buffer_inspect_bit (bit_buffer_insert_bit b v) b.size = truth v := by
  obtain ⟨g1, g2, g3, g4, g5⟩ := insert_bit_grow_spec b h
  obtain ⟨s1, s2, s3, s4, s5, s6⟩ := insert_bit_store_spec (insert_bit_grow b) v g1 (by omega)
  rw [insert_bit_eq]
  refine ⟨⟨s1, by omega⟩, by omega, by rw [s3, g4], ?_, ?_⟩
  · intro i hi
    rw [s5 i (by omega), g5 i hi]
  · rw [← g2]; exact s6

/-! ## Removal on a consistent buffer -/

/-- The function `bit_buffer_remove_bit` fails exactly on the size 0. -/
theorem remove_bit_none_iff (b : bit_buffer) :
    bit_buffer_remove_bit b = none ↔ b.size = 0 := by
  unfold bit_buffer_remove_bit
  by_cases h : b.size > 0
  · simp only [if_pos h]
    constructor
    · intro hc; exact Option.noConfusion hc
    · intro hc; omega
  · simp only [if_neg h]
    constructor
    · intro _; omega
    · intro _; trivial

/-- The result of `bit_buffer_remove_bit` on a non-empty buffer, field by field. -/
theorem remove_bit_fields (b : bit_buffer) (hs : 0 < b.size) :
    ∃ b', bit_buffer_remove_bit b = some (bit_buffer_get_bit_value b b.next_remove, b') ∧
      b'.size = b.size - 1 ∧ b'.capacity = b.capacity ∧
      b'.next_remove = (b.next_remove + 1) % b.capacity ∧
      b'.next_insert = b.next_insert ∧
      b'.array = (bit_buffer_set_bit_value b b.next_remove 0).array := by
  unfold bit_buffer_remove_bit
  rw [if_pos hs]
  exact ⟨_, rfl, rfl, rfl, rfl, rfl, rfl⟩

/-- One removal on a consistent, non-empty buffer: the bit at position 0 is returned,
the result is well-formed, and the other bits move one position towards the front. -/
theorem remove_bit_spec (b : bit_buffer) (hc : Consistent b) (hs : 0 < b.size) :
    ∃ b', bit_buffer_remove_bit b = some (bit_buffer_inspect_bit b 0, b') ∧
      WellFormed b' ∧ b'.size = b.size - 1 ∧ b'.capacity = b.capacity ∧
      b'.next_remove = (b.next_remove + 1) % b.capacity ∧
      ∀ i, i < b.size - 1 →
        bit_buffer_inspect_bit b' i = bit_buffer_inspect_bit b (i + 1) := by
  obtain ⟨h8, hpos, hlen, hsz, hnr, hni⟩ := hc
  obtain ⟨b', e0, e1, e2, e3, e4, e5⟩ := remove_bit_fields b hs
  have hi0 : bit_buffer_inspect_bit b 0 = bit_buffer_get_bit_value b b.next_remove := by
    unfold bit_buffer_inspect_bit
    rw [Nat.zero_add, Nat.mod_eq_of_lt hnr]
  refine ⟨b', by rw [hi0]; exact e0, ⟨⟨by rw [e2]; exact h8, by rw [e2]; exact hpos, ?_,
    by rw [e1, e2]; omega, by rw [e3, e2]; exact Nat.mod_lt _ hpos, ?_⟩, by rw [e1, e2]; omega⟩,
    e1, e2, e3, ?_⟩
  · rw [e5, set_bit_value_length, e2]; exact hlen
  · rw [e4, e3, e2, e1, Nat.mod_add_mod, hni]
    congr 1
    omega
  · intro i hi
    unfold bit_buffer_inspect_bit
    rw [e3, e2, get_bit_value_congr _ _ e5, Nat.add_mod_mod, get_set_other]
    · congr 2
      omega
    · rw [mod_lt_two _ _ (by omega)]
      split <;> omega

/-! ## The queue of bits held by a buffer -/

theorem queue_of_length (b : bit_buffer) : (queue_of b).length = b.size := by
  simp [queue_of, bit_buffer_size]

theorem queue_of_eq_nil_iff (b : bit_buffer) : queue_of b = [] ↔ b.size = 0 := by
  rw [← List.length_eq_zero, queue_of_length]

/-- An insertion appends the truth value of the inserted `int` to the queue. -/
theorem queue_of_insert_bit (b : bit_buffer) (v : Int) (h : WellFormed b) :
    queue_of (bit_buffer_insert_bit b v) = queue_of b ++ [truth v] := by
  obtain ⟨-, h2, -, h4, h5⟩ := insert_bit_spec b v h
  unfold queue_of bit_buffer_size
  rw [h2, List.range_succ, List.map_append, List.map_singleton, h5]
  congr 1
  apply List.map_congr_left
  intro i hi
  exact h4 i (List.mem_range.mp hi)

/-- A removal takes the head of the queue. -/
theorem queue_of_remove_bit (b : bit_buffer) (hc : Consistent b) (v : Int) (b' : bit_buffer)
    (hr : bit_buffer_remove_bit b = some (v, b')) :
    queue_of b = v :: queue_of b' ∧ WellFormed b' := by
  have hs : 0 < b.size := by
    by_contra hz
    have hn := (remove_bit_none_iff b).mpr (by omega)
    rw [hn] at hr
    exact Option.noConfusion hr
  obtain ⟨b'', e0, e1, e2, -, -, e5⟩ := remove_bit_spec b hc hs
  rw [e0] at hr
  have hv : bit_buffer_inspect_bit b 0 = v := by injection hr with hr; injection hr
  have hb : b'' = b' := by injection hr with hr; injection hr
  subst hb
  refine ⟨?_, e1⟩
  unfold queue_of bit_buffer_size
  have hsz : b.size = (b''.size) + 1 := by omega
  rw [hsz, List.range_succ_eq_map, List.map_cons, hv, List.map_map]
  congr 1
  apply List.map_congr_left
  intro i hi
  have hi' := List.mem_range.mp hi
  exact (e5 i (by omega)).symm

/-! ## Sequences of insertions and removals -/

theorem wellFormed_empty : WellFormed bit_buffer_empty := by
  unfold WellFormed Consistent bit_buffer_empty
  decide

theorem queue_of_empty : queue_of bit_buffer_empty = [] := by
  decide

theorem truth_truth (v : Int) : truth (truth v) = truth v := by
  unfold truth
  split <;> simp

theorem truth_of_bit (v : Int) (h : v = 0 ∨ v = 1) : truth v = v := by
  unfold truth
  rcases h with h | h <;> simp [h]

theorem map_truth_of_bits (vs : List Int) (h : ∀ v ∈ vs, v = 0 ∨ v = 1) :
    vs.map truth = vs := by
  induction vs with
  | nil => rfl
  | cons a l ih =>
    rw [List.map_cons, truth_of_bit a (h a (List.mem_cons_self a l)),
      ih (fun v hv => h v (List.mem_cons_of_mem a hv))]

/-- Insertions one after the other append the truth values to the queue. -/
theorem insert_bits_spec (vs : List Int) : ∀ (b : bit_buffer), WellFormed b →
    WellFormed (insert_bits b vs) ∧
    queue_of (insert_bits b vs) = queue_of b ++ vs.map truth := by
  induction vs with
  | nil =>
    intro b hb
    exact ⟨hb, by simp [insert_bits]⟩
  | cons v vs ih =>
    intro b hb
    have h1 := (insert_bit_spec b v hb).1
    obtain ⟨i1, i2⟩ := ih (bit_buffer_insert_bit b v) h1
    have hstep : insert_bits b (v :: vs) = insert_bits (bit_buffer_insert_bit b v) vs := rfl
    rw [hstep]
    refine ⟨i1, ?_⟩
    rw [i2, queue_of_insert_bit b v hb, List.map_cons, List.append_assoc, List.singleton_append]

/-- The first `n` removals on a consistent buffer that holds at least `n` bits
succeed and return the first `n` bits of the queue, in order. -/
theorem remove_bits_spec (n : Nat) : ∀ (b : bit_buffer), Consistent b → n ≤ b.size →
    ∃ b', remove_bits n b = some ((queue_of b).take n, b') ∧ Consistent b' ∧
      queue_of b' = (queue_of b).drop n ∧ b'.size = b.size - n ∧
      b'.capacity = b.capacity := by
  induction n with
  | zero =>
    intro b hb _
    exact ⟨b, rfl, hb, rfl, rfl, rfl⟩
  | succ n ih =>
    intro b hb hn
    obtain ⟨b1, r1, w1, s1, k1, -, -⟩ := remove_bit_spec b hb (by omega)
    obtain ⟨q1, -⟩ := queue_of_remove_bit b hb _ b1 r1
    obtain ⟨b2, r2, c2, q2, s2, k2⟩ := ih b1 w1.1 (by omega)
    refine ⟨b2, ?_, c2, ?_, by omega, by omega⟩
    · simp only [remove_bits, r1, r2, q1, List.take_succ_cons]
    · rw [q2, q1, List.drop_succ_cons]

/-! ## Bytes -/

theorem set_bit_value_congr_truth (b : bit_buffer) (i : Nat) (v w : Int)
    (h : truth v = truth w) :
    bit_buffer_set_bit_value b i v = bit_buffer_set_bit_value b i w := by
  have hvw : (v ≠ 0) ↔ (w ≠ 0) := by
    unfold truth at h
    by_cases hv : v = 0 <;> by_cases hw : w = 0 <;> simp_all
  unfold bit_buffer_set_bit_value
  simp only [hvw]

/-- Only the truth value of the inserted `int` matters to `bit_buffer_insert_bit`. -/
theorem insert_bit_congr_truth (b : bit_buffer) (v w : Int) (h : truth v = truth w) :
    bit_buffer_insert_bit b v = bit_buffer_insert_bit b w := by
  rw [insert_bit_eq, insert_bit_eq]
  unfold insert_bit_store
  rw [set_bit_value_congr_truth _ _ v w h]

theorem truth_and_mask (x bit : Nat) :
    truth ((x &&& (1 <<< bit) : Nat) : Int) = ((x / 2 ^ bit % 2 : Nat) : Int) := by
  have h1 := and_mask_pos_iff x bit
  rw [Nat.testBit_to_div_mod, decide_eq_true_iff] at h1
  unfold truth
  by_cases hp : x &&& (1 <<< bit) > 0
  · have h2 := h1.mp hp
    rw [h2, if_pos]
    · rfl
    · exact_mod_cast (by omega : x &&& (1 <<< bit) ≠ 0)
  · have h2 : x / 2 ^ bit % 2 = 0 := by
      have h3 : ¬ (x / 2 ^ bit % 2 = 1) := fun hc => hp (h1.mpr hc)
      omega
    have h4 : x &&& (1 <<< bit) = 0 := by omega
    rw [h2, h4]
    rfl

theorem truth_div_mod (x bit : Nat) :
    truth ((x / 2 ^ bit % 2 : Nat) : Int) = ((x / 2 ^ bit % 2 : Nat) : Int) := by
  apply truth_of_bit
  have h : x / 2 ^ bit % 2 < 2 := Nat.mod_lt _ (by norm_num)
  omega

/-- The loop of `bit_buffer_insert_byte` with `n` iterations left inserts the bits
`n - 1, ..., 0` of the byte, each as 1 or 0. -/
theorem insert_byte_loop_eq (x : Nat) (n : Nat) : ∀ (b : bit_buffer),
    insert_byte_loop x n b
      = insert_bits b ((List.range n).reverse.map
          (fun bit => ((x / 2 ^ bit % 2 : Nat) : Int))) := by
  induction n with
  | zero => intro b; rfl
  | succ n ih =>
    intro b
    rw [List.range_succ, List.reverse_append, List.reverse_singleton, List.singleton_append,
      List.map_cons]
    have hstep : ∀ (v : Int) (l : List Int),
        insert_bits b (v :: l) = insert_bits (bit_buffer_insert_bit b v) l := fun _ _ => rfl
    rw [hstep, ← ih]
    simp only [insert_byte_loop]
    rw [insert_bit_congr_truth b _ ((x / 2 ^ n % 2 : Nat) : Int)
      (by rw [truth_and_mask, truth_div_mod])]

theorem insert_byte_eq (b : bit_buffer) (x : Nat) :
    bit_buffer_insert_byte b x = insert_bits b (byte_bits x) :=
  insert_byte_loop_eq x 8 b

theorem shift_loop_size (i : Nat) : ∀ (b : bit_buffer),
    (insert_bit_shift_loop b i).size = b.size := by
  induction i with
  | zero => intro b; rfl
  | succ i ih =>
    intro b
    unfold insert_bit_shift_loop
    split
    · rw [ih, set_bit_value_size]
    · rfl

theorem zero_loop_size (n : Nat) : ∀ (b : bit_buffer) (i : Nat),
    (insert_bit_zero_loop b i n).size = b.size := by
  induction n with
  | zero => intro b i; rfl
  | succ n ih =>
    intro b i
    unfold insert_bit_zero_loop
    rw [ih, set_bit_value_size]

/-- Every call of `bit_buffer_insert_bit` adds one to the size, on any buffer. -/
theorem insert_bit_size (b : bit_buffer) (v : Int) :
    (bit_buffer_insert_bit b v).size = b.size + 1 := by
  rw [insert_bit_eq]
  have hs : (insert_bit_store (insert_bit_grow b) v).size = (insert_bit_grow b).size + 1 := rfl
  rw [hs]
  congr 1
  unfold insert_bit_grow
  split
  · simp only []
    split
    · unfold insert_bit_shift
      simp only []
      rw [zero_loop_size, shift_loop_size]
      rfl
    · rfl
  · rfl

theorem insert_bits_size (vs : List Int) : ∀ (b : bit_buffer),
    (insert_bits b vs).size = b.size + vs.length := by
  induction vs with
  | nil => intro b; rfl
  | cons v vs ih =>
    intro b
    have hstep : insert_bits b (v :: vs) = insert_bits (bit_buffer_insert_bit b v) vs := rfl
    rw [hstep, ih, insert_bit_size, List.length_cons]
    omega

/-- The loop of `bit_buffer_remove_byte` runs to its end when enough bits are held,
whatever the state of the buffer. -/
theorem remove_byte_loop_isSome (n : Nat) : ∀ (acc : Nat) (b : bit_buffer), n ≤ b.size →
    ∃ r b', remove_byte_loop n acc b = some (r, b') ∧ b'.size = b.size - n := by
  induction n with
  | zero => intro acc b _; exact ⟨acc, b, rfl, rfl⟩
  | succ n ih =>
    intro acc b hn
    obtain ⟨b1, r1, s1, -⟩ := remove_bit_fields b (by omega)
    obtain ⟨r, b2, r2, s2⟩ := ih
      (if bit_buffer_get_bit_value b b.next_remove ≠ 0 then acc ||| (1 <<< n) else acc) b1
      (by omega)
    refine ⟨r, b2, ?_, by omega⟩
    simp only [remove_byte_loop, r1]
    exact r2

/-- The function `bit_buffer_remove_byte` fails exactly on the sizes below 8. -/
theorem remove_byte_none_iff (b : bit_buffer) :
    bit_buffer_remove_byte b = none ↔ b.size < 8 := by
  unfold bit_buffer_remove_byte
  by_cases h : b.size ≥ 8
  · rw [if_pos h]
    obtain ⟨r, b', hr, -⟩ := remove_byte_loop_isSome 8 0 b h
    rw [hr]
    constructor
    · intro hc; exact Option.noConfusion hc
    · intro hc; omega
  · rw [if_neg h]
    constructor
    · intro _; omega
    · intro _; rfl

/-- The loop of `bit_buffer_remove_byte` with `n` iterations left, on a consistent
buffer: it removes the first `n` bits of the queue as `n` calls of
`bit_buffer_remove_bit` do, and sets bit `n - 1 - k` of the byte from the `k`-th of
them. -/
theorem remove_byte_loop_spec (n : Nat) : ∀ (acc : Nat) (b : bit_buffer), Consistent b →
    n ≤ b.size →
    ∃ r b', remove_byte_loop n acc b = some (r, b') ∧
      remove_bits n b = some ((queue_of b).take n, b') ∧
      (∀ m, r.testBit m = (acc.testBit m ||
        (decide (m < n) && decide (bit_buffer_inspect_bit b (n - 1 - m) ≠ 0)))) ∧
      Consistent b' ∧ queue_of b' = (queue_of b).drop n ∧ b'.size = b.size - n ∧
      b'.capacity = b.capacity := by
  induction n with
  | zero =>
    intro acc b hb _
    refine ⟨acc, b, rfl, rfl, ?_, hb, rfl, rfl, rfl⟩
    intro m
    simp
  | succ n ih =>
    intro acc b hb hn
    obtain ⟨b1, r1, w1, s1, k1, -, i1⟩ := remove_bit_spec b hb (by omega)
    obtain ⟨q1, -⟩ := queue_of_remove_bit b hb _ b1 r1
    obtain ⟨r, b2, r2, x2, t2, c2, q2, s2, k2⟩ := ih
      (if bit_buffer_inspect_bit b 0 ≠ 0 then acc ||| (1 <<< n) else acc) b1 w1.1 (by omega)
    refine ⟨r, b2, ?_, ?_, ?_, c2, ?_, by omega, by omega⟩
    · simp only [remove_byte_loop, r1]
      exact r2
    · simp only [remove_bits, r1, x2, q1, List.take_succ_cons]
    · intro m
      rw [t2 m]
      by_cases hm : m < n
      · have hm1 : m < n + 1 := by omega
        have hne : ¬ (n = m) := by omega
        have hsh : n + 1 - 1 - m = (n - 1 - m) + 1 := by omega
        rw [i1 (n - 1 - m) (by omega), hsh]
        by_cases hv : bit_buffer_inspect_bit b 0 ≠ 0
        · rw [if_pos hv, testBit_set_mask]
          simp [hm, hm1, hne]
        · rw [if_neg hv]
          simp [hm, hm1]
      · by_cases hmn : m = n
        · subst hmn
          have hz : m + 1 - 1 - m = 0 := by omega
          rw [hz]
          by_cases hv : bit_buffer_inspect_bit b 0 ≠ 0
          · rw [if_pos hv, testBit_set_mask]
            simp [hv]
          · rw [if_neg hv]
            simp [hv]
        · have hm1 : ¬ (m < n + 1) := by omega
          have hne : ¬ (n = m) := by omega
          by_cases hv : bit_buffer_inspect_bit b 0 ≠ 0
          · rw [if_pos hv, testBit_set_mask]
            simp [hm, hm1, hne]
          · rw [if_neg hv]
            simp [hm, hm1]
    · rw [q2, q1, List.drop_succ_cons]

theorem queue_of_getElem_opt (b : bit_buffer) (i : Nat) (hi : i < b.size) :
    (queue_of b)[i]? = some (bit_buffer_inspect_bit b i) := by
  unfold queue_of bit_buffer_size
  rw [List.getElem?_map, List.getElem?_range hi]
  rfl

/-- The function `bit_buffer_remove_byte` on a consistent buffer with at least 8
bits: the eight oldest bits leave the queue, as by eight calls of
`bit_buffer_remove_bit`, and the `k`-th of them is bit `7 - k` of the result. -/
theorem remove_byte_spec (b : bit_buffer) (hb : Consistent b) (h8 : 8 ≤ b.size) :
    ∃ r b', bit_buffer_remove_byte b = some (r, b') ∧
      remove_bits 8 b = some ((queue_of b).take 8, b') ∧
      r < 256 ∧
      (∀ k, k < 8 → r.testBit (7 - k) = decide (bit_buffer_inspect_bit b k ≠ 0)) ∧
      Consistent b' ∧ queue_of b' = (queue_of b).drop 8 ∧ b'.size = b.size - 8 ∧
      b'.capacity = b.capacity := by
  obtain ⟨r, b', r1, x1, t1, c1, q1, s1, k1⟩ := remove_byte_loop_spec 8 0 b hb h8
  refine ⟨r, b', ?_, x1, ?_, ?_, c1, q1, s1, k1⟩
  · unfold bit_buffer_remove_byte
    rw [if_pos h8]
    exact r1
  · have h256 : (256 : Nat) = 2 ^ 8 := by norm_num
    rw [h256]
    apply Nat.lt_pow_two_of_testBit
    intro i hi
    rw [t1 i]
    have hn : ¬ (i < 8) := by omega
    simp [hn]
  · intro k hk
    rw [t1 (7 - k)]
    have h1 : 7 - k < 8 := by omega
    have h2 : 8 - 1 - (7 - k) = k := by omega
    rw [h2]
    simp [h1]

theorem byte_bits_length (x : Nat) : (byte_bits x).length = 8 := by
  simp [byte_bits]

theorem byte_bits_getElem_opt (x k : Nat) (hk : k < 8) :
    (byte_bits x)[k]? = some ((x / 2 ^ (7 - k) % 2 : Nat) : Int) := by
  have hr : (List.range 8).reverse = [7, 6, 5, 4, 3, 2, 1, 0] := by decide
  unfold byte_bits
  rw [hr]
  interval_cases k <;> rfl

theorem byte_bits_bit (x : Nat) : ∀ v ∈ byte_bits x, v = 0 ∨ v = 1 := by
  intro v hv
  unfold byte_bits at hv
  rw [List.mem_map] at hv
  obtain ⟨bit, -, rfl⟩ := hv
  have h : x / 2 ^ bit % 2 < 2 := Nat.mod_lt _ (by norm_num)
  omega

/-- A byte inserted into a well-formed buffer appends its eight bits, most
significant first, to the queue. -/
theorem insert_byte_spec (b : bit_buffer) (x : Nat) (hb : WellFormed b) :
    WellFormed (bit_buffer_insert_byte b x) ∧
    queue_of (bit_buffer_insert_byte b x) = queue_of b ++ byte_bits x := by
  rw [insert_byte_eq]
  obtain ⟨h1, h2⟩ := insert_bits_spec (byte_bits x) b hb
  exact ⟨h1, by rw [h2, map_truth_of_bits _ (byte_bits_bit x)]⟩

/-- Every buffer reached from `bit_buffer_empty` is well-formed. -/
theorem Reachable.wellFormed {b : bit_buffer} (h : Reachable b) : WellFormed b := by
  induction h with
  | empty => exact wellFormed_empty
  | insert_bit b v _ ih => exact (insert_bit_spec b v ih).1
  | insert_byte b x _ ih => exact (insert_byte_spec b x ih).1
  | remove_bit b v b' _ hr ih => exact (queue_of_remove_bit b ih.1 v b' hr).2
  | remove_byte b x b' _ hr ih =>
    have h8 : 8 ≤ b.size := by
      by_contra hc
      have hn := (remove_byte_none_iff b).mpr (by omega)
      rw [hn] at hr
      exact Option.noConfusion hr
    obtain ⟨r, b'', r1, -, -, -, c1, -, s1, k1⟩ := remove_byte_spec b ih.1 h8
    rw [r1] at hr
    have hb : b'' = b' := by injection hr with hr; injection hr
    subst hb
    exact ⟨c1, by have := c1.2.2.2.1; have := ih.2; have := ih.1.2.2.2.1; omega⟩

theorem Reachable.insert_bits (vs : List Int) : ∀ {b : bit_buffer}, Reachable b →
    Reachable (OU2.insert_bits b vs) := by
  induction vs with
  | nil => intro b hb; exact hb
  | cons v vs ih => intro b hb; exact ih (Reachable.insert_bit b v hb)

theorem Reachable.remove_bits (n : Nat) : ∀ {b : bit_buffer} (vs : List Int) (b' : bit_buffer),
    Reachable b → OU2.remove_bits n b = some (vs, b') → Reachable b' := by
  induction n with
  | zero =>
    intro b vs b' hb hr
    have hb' : b = b' := by
      simp only [OU2.remove_bits] at hr
      injection hr with hr; injection hr
    exact hb' ▸ hb
  | succ n ih =>
    intro b vs b' hb hr
    simp only [OU2.remove_bits] at hr
    cases h1 : bit_buffer_remove_bit b with
    | none => rw [h1] at hr; exact Option.noConfusion hr
    | some p =>
      obtain ⟨v, b1⟩ := p
      rw [h1] at hr
      simp only [] at hr
      cases h2 : OU2.remove_bits n b1 with
      | none => rw [h2] at hr; exact Option.noConfusion hr
      | some q =>
        obtain ⟨ws, b2⟩ := q
        rw [h2] at hr
        simp only [] at hr
        have hb' : b2 = b' := by injection hr with hr; injection hr
        exact hb' ▸ ih ws b2 (Reachable.remove_bit b v b1 hb h1) h2

theorem reachable_wrapped_example : Reachable wrapped_example := by
  have h1 : Reachable (insert_bits bit_buffer_empty [1, 0, 1, 1, 0, 0, 1, 0, 1, 1, 1, 1, 0, 0, 0]) :=
    Reachable.insert_bits _ Reachable.empty
  have h2 : remove_bits 5 (insert_bits bit_buffer_empty [1, 0, 1, 1, 0, 0, 1, 0, 1, 1, 1, 1, 0, 0, 0])
      = some ([1, 0, 1, 1, 0],
          { capacity := 16, array := [2, 240], size := 10, next_insert := 15, next_remove := 5 }) := by
    decide
  have h3 := Reachable.insert_bits [1, 1, 0, 1, 1] (Reachable.remove_bits 5 _ _ h1 h2)
  have h4 : insert_bits
      { capacity := 16, array := [2, 240], size := 10, next_insert := 15, next_remove := 5 }
      [1, 1, 0, 1, 1] = wrapped_example := by decide
  exact h4 ▸ h3

/-! ## The claims about the bit buffer -/

/-- C2: for every sequence `vs` of bits inserted with `bit_buffer_insert_bit` into the
buffer of `bit_buffer_empty` with no removal, `bit_buffer_inspect_bit` at `i` is the
`i`-th inserted bit for every `i` below the length, and it is still that bit after any
further insertions `ws`, whether or not they grow the capacity. -/
theorem inspect_bit_after_insertions (vs ws : List Int) (hbits : ∀ v ∈ vs, v = 0 ∨ v = 1)
    (i : Nat) (hi : i < vs.length) :
    bit_buffer_inspect_bit (insert_bits bit_buffer_empty (vs ++ ws)) i = vs[i] := by
  obtain ⟨-, hq⟩ := insert_bits_spec (vs ++ ws) bit_buffer_empty wellFormed_empty
  rw [queue_of_empty, List.nil_append] at hq
  have hsz : (insert_bits bit_buffer_empty (vs ++ ws)).size = (vs ++ ws).length := by
    rw [← queue_of_length, hq, List.length_map]
  have hi' : i < (insert_bits bit_buffer_empty (vs ++ ws)).size := by
    rw [hsz, List.length_append]; omega
  have h1 := queue_of_getElem_opt _ i hi'
  rw [hq, List.getElem?_map, List.getElem?_append_left hi, List.getElem?_eq_getElem hi,
    Option.map_some'] at h1
  injection h1 with h1
  rw [← h1, truth_of_bit _ (hbits _ (List.getElem_mem hi))]

/-- Witness of C2: the bit at position 3 of ten inserted bits, after eight further
insertions that grow the capacity. -/
theorem inspect_bit_after_insertions_witness :
    (∀ v ∈ ([1, 0, 1, 1, 0, 0, 1, 0, 1, 1] : List Int), v = 0 ∨ v = 1) ∧
    3 < ([1, 0, 1, 1, 0, 0, 1, 0, 1, 1] : List Int).length ∧
    bit_buffer_inspect_bit (insert_bits bit_buffer_empty
      ([1, 0, 1, 1, 0, 0, 1, 0, 1, 1] ++ [1, 1, 1, 1, 1, 1, 1, 1])) 3 = 1 :=
  ⟨by decide, by decide,
    inspect_bit_after_insertions [1, 0, 1, 1, 0, 0, 1, 0, 1, 1] [1, 1, 1, 1, 1, 1, 1, 1]
      (by decide) 3 (by decide)⟩

/-- C3: every buffer reached from `bit_buffer_empty` by insertions and removals, the
ones whose live region wraps around the end of the storage included, behaves as an
abstract FIFO queue of bits.  An insertion of `v`, also one that grows the storage and
shifts the wrapped part, leaves `bit_buffer_inspect_bit` unchanged at every position
below the old size and makes the bit at the old size the truth value of `v` (`v`
itself when `v` is a bit); on the queue it is `fifo_insert`.  A removal is
`fifo_remove`: it returns the oldest bit and keeps the others in order. -/
theorem insert_bit_refines_fifo (b : bit_buffer) (hr : Reachable b) (v : Int) :
    (∀ i, i < bit_buffer_size b →
      bit_buffer_inspect_bit (bit_buffer_insert_bit b v) i = bit_buffer_inspect_bit b i) ∧
    bit_buffer_inspect_bit (bit_buffer_insert_bit b v) (bit_buffer_size b) = truth v ∧
    (v = 0 ∨ v = 1 →
      bit_buffer_inspect_bit (bit_buffer_insert_bit b v) (bit_buffer_size b) = v) ∧
    queue_of (bit_buffer_insert_bit b v) = fifo_insert (queue_of b) v ∧
    (bit_buffer_remove_bit b).map (fun r => (r.1, queue_of r.2)) = fifo_remove (queue_of b) := by
  have hw := hr.wellFormed
  obtain ⟨-, -, -, h4, h5⟩ := insert_bit_spec b v hw
  refine ⟨h4, h5, fun hv => h5.trans (truth_of_bit v hv), queue_of_insert_bit b v hw, ?_⟩
  cases hrem : bit_buffer_remove_bit b with
  | none =>
    have hz := (remove_bit_none_iff b).mp hrem
    rw [(queue_of_eq_nil_iff b).mpr hz]
    rfl
  | some p =>
    obtain ⟨x, b'⟩ := p
    obtain ⟨hq, -⟩ := queue_of_remove_bit b hw.1 x b' hrem
    rw [hq]
    rfl

/-- Witness of C3: the insertion into `wrapped_example`, which grows the storage and
shifts the wrapped part. -/
theorem insert_bit_refines_fifo_witness :
    Reachable wrapped_example ∧
    wrapped_example.next_insert < wrapped_example.next_remove ∧
    (bit_buffer_insert_bit wrapped_example 1).capacity = wrapped_example.capacity + 8 ∧
    ((∀ i, i < bit_buffer_size wrapped_example →
      bit_buffer_inspect_bit (bit_buffer_insert_bit wrapped_example 1) i
        = bit_buffer_inspect_bit wrapped_example i) ∧
    bit_buffer_inspect_bit (bit_buffer_insert_bit wrapped_example 1)
      (bit_buffer_size wrapped_example) = truth 1 ∧
    ((1 : Int) = 0 ∨ (1 : Int) = 1 →
      bit_buffer_inspect_bit (bit_buffer_insert_bit wrapped_example 1)
        (bit_buffer_size wrapped_example) = 1) ∧
    queue_of (bit_buffer_insert_bit wrapped_example 1)
      = fifo_insert (queue_of wrapped_example) 1 ∧
    (bit_buffer_remove_bit wrapped_example).map (fun r => (r.1, queue_of r.2))
      = fifo_remove (queue_of wrapped_example)) :=
  ⟨reachable_wrapped_example, by decide, by decide,
    insert_bit_refines_fifo wrapped_example reachable_wrapped_example 1⟩

/-- C7: for every byte and every buffer, `bit_buffer_insert_byte` gives the same
buffer as eight calls of `bit_buffer_insert_bit` with the bits of the byte from bit 7
down to bit 0, each as the value 1 when the bit is set and 0 otherwise; the size
grows by exactly 8. -/
theorem insert_byte_as_eight_bits (b : bit_buffer) (the_byte : Nat) :
    bit_buffer_insert_byte b the_byte = insert_bits b (byte_bits the_byte) ∧
    (byte_bits the_byte).length = 8 ∧
    bit_buffer_size (bit_buffer_insert_byte b the_byte) = bit_buffer_size b + 8 := by
  refine ⟨insert_byte_eq b the_byte, byte_bits_length the_byte, ?_⟩
  unfold bit_buffer_size
  rw [insert_byte_eq, insert_bits_size, byte_bits_length]

/-- C9: `bit_buffer_remove_bit` fails if and only if the size is 0; on a consistent
buffer that holds a bit it returns the oldest bit, the one at position 0, the other
bits stay in the queue in order, the size decreases by exactly 1, `next_remove`
becomes `(next_remove + 1) % capacity` and the capacity is unchanged. -/
theorem remove_bit_contract (b : bit_buffer) (hb : Consistent b) :
    (bit_buffer_remove_bit b = none ↔ bit_buffer_size b = 0) ∧
    (0 < bit_buffer_size b →
      ∃ v b', bit_buffer_remove_bit b = some (v, b') ∧
        v = bit_buffer_inspect_bit b 0 ∧
        queue_of b = v :: queue_of b' ∧
        bit_buffer_size b' + 1 = bit_buffer_size b ∧
        b'.next_remove = (b.next_remove + 1) % b.capacity ∧
        b'.capacity = b.capacity) := by
  refine ⟨remove_bit_none_iff b, ?_⟩
  intro hs
  obtain ⟨b', r1, -, s1, k1, n1, -⟩ := remove_bit_spec b hb hs
  obtain ⟨q1, -⟩ := queue_of_remove_bit b hb _ b' r1
  refine ⟨_, b', r1, rfl, q1, ?_, n1, k1⟩
  unfold bit_buffer_size at hs ⊢
  omega

/-- Witness of C9: the removal from `wrapped_example`. -/
theorem remove_bit_contract_witness :
    Consistent wrapped_example ∧ 0 < bit_buffer_size wrapped_example ∧
    ∃ v b', bit_buffer_remove_bit wrapped_example = some (v, b') ∧
        v = bit_buffer_inspect_bit wrapped_example 0 ∧
        queue_of wrapped_example = v :: queue_of b' ∧
        bit_buffer_size b' + 1 = bit_buffer_size wrapped_example ∧
        b'.next_remove = (wrapped_example.next_remove + 1) % wrapped_example.capacity ∧
        b'.capacity = wrapped_example.capacity :=
  ⟨by unfold Consistent; decide, by decide,
    (remove_bit_contract wrapped_example (by unfold Consistent; decide)).2 (by decide)⟩

theorem testBit_of_lt_256 (x i : Nat) (hx : x < 256) (hi : 8 ≤ i) : x.testBit i = false := by
  apply Nat.testBit_lt_two_pow
  calc x < 2 ^ 8 := by norm_num; exact hx
    _ ≤ 2 ^ i := Nat.pow_le_pow_right (by norm_num) hi

/-- A byte inserted into the empty buffer comes back from `bit_buffer_remove_byte`. -/
theorem remove_byte_insert_byte (x : Nat) (hx : x < 256) :
    ∃ b', bit_buffer_remove_byte (bit_buffer_insert_byte bit_buffer_empty x) = some (x, b') ∧
      bit_buffer_size b' = 0 := by
  obtain ⟨hw, hq⟩ := insert_byte_spec bit_buffer_empty x wellFormed_empty
  rw [queue_of_empty, List.nil_append] at hq
  generalize bit_buffer_insert_byte bit_buffer_empty x = B at hw hq ⊢
  have hsz : B.size = 8 := by
    rw [← queue_of_length, hq, byte_bits_length]
  obtain ⟨r, b', r1, -, lt1, t1, -, -, s1, -⟩ := remove_byte_spec B hw.1 (by omega)
  have hrx : r = x := by
    apply Nat.eq_of_testBit_eq
    intro i
    by_cases hi : i < 8
    · have h7 : 7 - (7 - i) = i := by omega
      have ht := t1 (7 - i) (by omega)
      rw [h7] at ht
      have hg := queue_of_getElem_opt B (7 - i) (by omega)
      rw [hq, byte_bits_getElem_opt x (7 - i) (by omega), h7] at hg
      injection hg with hg
      rw [ht, ← hg, Nat.testBit_to_div_mod]
      have h2 : x / 2 ^ i % 2 < 2 := Nat.mod_lt _ (by norm_num)
      by_cases h1 : x / 2 ^ i % 2 = 1
      · simp [h1]
      · have h0 : x / 2 ^ i % 2 = 0 := by omega
        simp [h0]
    · rw [testBit_of_lt_256 r i lt1 (by omega), testBit_of_lt_256 x i hx (by omega)]
  refine ⟨b', by rw [r1, hrx], ?_⟩
  unfold bit_buffer_size
  omega

/-- C8: `bit_buffer_remove_byte` fails exactly when the size is below 8.  Otherwise, on
a consistent buffer, it removes the eight oldest bits, as eight calls of
`bit_buffer_remove_bit` do, and returns them packed most significant bit first: the
result is below 256 and its bit `7 - k` is set exactly when the `k`-th oldest bit is
nonzero.  In particular a byte inserted into the empty buffer with
`bit_buffer_insert_byte` is returned by `bit_buffer_remove_byte`. -/
theorem remove_byte_contract (b : bit_buffer) (hb : Consistent b) :
    (bit_buffer_remove_byte b = none ↔ bit_buffer_size b < 8) ∧
    (8 ≤ bit_buffer_size b →
      ∃ r b', bit_buffer_remove_byte b = some (r, b') ∧
        remove_bits 8 b = some ((queue_of b).take 8, b') ∧
        r < 256 ∧
        (∀ k, k < 8 → r.testBit (7 - k) = decide (bit_buffer_inspect_bit b k ≠ 0)) ∧
        queue_of b' = (queue_of b).drop 8 ∧
        bit_buffer_size b' + 8 = bit_buffer_size b) ∧
    (∀ x, x < 256 →
      ∃ b', bit_buffer_remove_byte (bit_buffer_insert_byte bit_buffer_empty x) = some (x, b') ∧
        bit_buffer_size b' = 0) := by
  refine ⟨remove_byte_none_iff b, ?_, remove_byte_insert_byte⟩
  intro h8
  obtain ⟨r, b', r1, x1, lt1, t1, -, q1, s1, -⟩ := remove_byte_spec b hb h8
  refine ⟨r, b', r1, x1, lt1, t1, q1, ?_⟩
  unfold bit_buffer_size at h8 ⊢
  omega

/-- Witness of C8: `wrapped_example` holds fifteen bits, of which the eight oldest
make the byte `0x5E`. -/
theorem remove_byte_contract_witness :
    Consistent wrapped_example ∧ 8 ≤ bit_buffer_size wrapped_example ∧ (0xA7 : Nat) < 256 ∧
    (∃ r b', bit_buffer_remove_byte wrapped_example = some (r, b') ∧
        remove_bits 8 wrapped_example = some ((queue_of wrapped_example).take 8, b') ∧
        r < 256 ∧
        (∀ k, k < 8 →
          r.testBit (7 - k) = decide (bit_buffer_inspect_bit wrapped_example k ≠ 0)) ∧
        queue_of b' = (queue_of wrapped_example).drop 8 ∧
        bit_buffer_size b' + 8 = bit_buffer_size wrapped_example) ∧
    (∃ b', bit_buffer_remove_byte (bit_buffer_insert_byte bit_buffer_empty 0xA7)
        = some (0xA7, b') ∧ bit_buffer_size b' = 0) :=
  ⟨by unfold Consistent; decide, by decide, by decide,
    (remove_byte_contract wrapped_example (by unfold Consistent; decide)).2.1 (by decide),
    (remove_byte_contract wrapped_example (by unfold Consistent; decide)).2.2 0xA7 (by decide)⟩

/-- C10, evaluated at the failing input: a buffer made by `bit_buffer_create` from the
one byte `0x80` is full (size 8, capacity 8); `bit_buffer_insert_bit` on it does not
grow the storage, since `size + 1 == capacity` is false, and leaves size 9 above
capacity 8, with the new bit written over the oldest one. -/
theorem create_insert_bit_exceeds_capacity :
    bit_buffer_size (bit_buffer_create [0x80] 1) = 8 ∧
    (bit_buffer_create [0x80] 1).capacity = 8 ∧
    bit_buffer_size (bit_buffer_insert_bit (bit_buffer_create [0x80] 1) 0) = 9 ∧
    (bit_buffer_insert_bit (bit_buffer_create [0x80] 1) 0).capacity = 8 ∧
    ¬ (bit_buffer_size (bit_buffer_insert_bit (bit_buffer_create [0x80] 1) 0)
        ≤ (bit_buffer_insert_bit (bit_buffer_create [0x80] 1) 0).capacity) ∧
    bit_buffer_inspect_bit (bit_buffer_create [0x80] 1) 0 = 1 ∧
    bit_buffer_inspect_bit (bit_buffer_insert_bit (bit_buffer_create [0x80] 1) 0) 0 = 0 := by
  decide

/-! ## Buffers made from bytes -/

/-- The pattern match of `pqueue_insert_loop` on the nodes still to visit agrees with
`list_is_end` and `list_inspect` at the position of the loop. -/
theorem list_position_agrees {α : Type} (l : List α) (pos : Nat) :
    list_is_end l pos = (l.drop pos).isEmpty ∧ list_inspect l pos = (l.drop pos).head? ∧
    l.drop (list_next l pos) = (l.drop pos).tail := by
  refine ⟨?_, ?_, ?_⟩
  · unfold list_is_end
    by_cases h : l.length ≤ pos
    · rw [List.drop_eq_nil_of_le h]; simp [h]
    · have hne : l.drop pos ≠ [] := by
        intro hc
        exact h (List.drop_eq_nil_iff.mp hc)
      cases hd : l.drop pos with
      | nil => exact absurd hd hne
      | cons a t => simp [h]
  · unfold list_inspect
    rw [List.head?_drop]
  · unfold list_next
    rw [List.tail_drop]

/-- The loop of `pqueue_insert` with a comparator stops before the first remaining
node `e` with `cmp value e < 0`, or at the end. -/
theorem pqueue_insert_loop_eq {α : Type} (l : List α) (cmp : α → α → Int) (v : α)
    (rest : List α) : ∀ (pos : Nat),
    pqueue_insert_loop { the_list := l, cmp_func := some cmp } v rest pos
      = list_insert l (pos + (rest.takeWhile (fun e => decide (0 ≤ cmp v e))).length) v := by
  induction rest with
  | nil => intro pos; rfl
  | cons e rest ih =>
    intro pos
    simp only [pqueue_insert_loop]
    by_cases h : cmp v e < 0
    · have hp : ¬ (0 ≤ cmp v e) := by omega
      rw [if_pos h, List.takeWhile_cons_of_neg (by simpa using hp)]
      rfl
    · have hp : 0 ≤ cmp v e := by omega
      rw [if_neg h, List.takeWhile_cons_of_pos (by simpa using hp), ih]
      unfold list_next
      rw [List.length_cons]
      congr 1
      omega

theorem take_takeWhile_length {α : Type} (p : α → Bool) (l : List α) :
    l.take (l.takeWhile p).length = l.takeWhile p ∧
    l.drop (l.takeWhile p).length = l.dropWhile p := by
  have h := List.takeWhile_append_dropWhile p l
  generalize l.takeWhile p = T at h
  generalize l.dropWhile p = D at h
  subst h
  exact ⟨List.take_left T D, List.drop_left T D⟩

/-- The list of the queue after `pqueue_insert` with a comparator. -/
theorem pqueue_insert_list {α : Type} (l : List α) (cmp : α → α → Int) (v : α) :
    (pqueue_insert { the_list := l, cmp_func := some cmp } v).the_list
      = l.takeWhile (fun e => decide (0 ≤ cmp v e))
          ++ v :: l.dropWhile (fun e => decide (0 ≤ cmp v e)) := by
  unfold pqueue_insert
  cases l with
  | nil => rfl
  | cons a t =>
    have hne : list_is_empty (a :: t) = false := rfl
    simp only [hne, Bool.false_eq_true, if_false]
    rw [pqueue_insert_loop_eq]
    unfold list_first list_insert
    rw [Nat.zero_add, (take_takeWhile_length _ _).1, (take_takeWhile_length _ _).2]

theorem pqueue_insert_cmp_func {α : Type} (pq : pqueue α) (v : α) :
    (pqueue_insert pq v).cmp_func = pq.cmp_func := by
  unfold pqueue_insert
  split <;> rfl

/-- C5: for every queue content `l` and value `v`, `pqueue_insert` with a comparator
`cmp` places `v` immediately before the first existing element `e` with
`cmp v e < 0` and appends `v` at the end when there is none: the result is the longest
initial part of `l` whose elements have `cmp v e ≥ 0`, then `v`, then the rest of `l`.
The existing elements keep their relative order and the length grows by exactly one. -/
theorem pqueue_insert_position {α : Type} (l : List α) (cmp : α → α → Int) (v : α) :
    (pqueue_insert { the_list := l, cmp_func := some cmp } v).the_list
      = l.takeWhile (fun e => decide (0 ≤ cmp v e))
          ++ [v] ++ l.dropWhile (fun e => decide (0 ≤ cmp v e)) ∧
    l.takeWhile (fun e => decide (0 ≤ cmp v e))
      ++ l.dropWhile (fun e => decide (0 ≤ cmp v e)) = l ∧
    (∀ e ∈ l.takeWhile (fun e => decide (0 ≤ cmp v e)), ¬ (cmp v e < 0)) ∧
    (∀ e, (l.dropWhile (fun e => decide (0 ≤ cmp v e))).head? = some e → cmp v e < 0) ∧
    ((∀ e ∈ l, ¬ (cmp v e < 0)) →
      (pqueue_insert { the_list := l, cmp_func := some cmp } v).the_list = l ++ [v]) ∧
    (pqueue_insert { the_list := l, cmp_func := some cmp } v).the_list.length = l.length + 1 := by
  have hlist := pqueue_insert_list l cmp v
  refine ⟨?_, List.takeWhile_append_dropWhile _ l, ?_, ?_, ?_, ?_⟩
  · rw [hlist, List.append_assoc, List.singleton_append]
  · intro e he
    have h := List.mem_takeWhile_imp he
    have h' : 0 ≤ cmp v e := by simpa using h
    omega
  · intro e he
    have h := List.head?_dropWhile_not (fun e => decide (0 ≤ cmp v e)) l
    rw [he] at h
    have h' : ¬ (0 ≤ cmp v e) := by simpa using h
    omega
  · intro hall
    have hT : l.takeWhile (fun e => decide (0 ≤ cmp v e)) = l := by
      rw [List.takeWhile_eq_self_iff]
      intro e he
      have := hall e he
      simp only [decide_eq_true_eq]
      omega
    have hD : l.dropWhile (fun e => decide (0 ≤ cmp v e)) = [] := by
      rw [List.dropWhile_eq_nil_iff]
      intro e he
      have := hall e he
      simp only [decide_eq_true_eq]
      omega
    rw [hlist, hT, hD]
  · rw [hlist, List.length_append, List.length_cons]
    have h := congrArg List.length (List.takeWhile_append_dropWhile
      (fun e => decide (0 ≤ cmp v e)) l)
    rw [List.length_append] at h
    omega

/-! ### Consequences of the comparator contract -/

theorem IsTotalPreorderCmp.le_of_not_lt {α : Type} {cmp : α → α → Int}
    (h : IsTotalPreorderCmp cmp) {a b : α} (hab : ¬ (cmp a b < 0)) : cmp b a ≤ 0 := by
  by_contra hc
  exact hab ((h.swap a b).mpr (by omega))

theorem IsTotalPreorderCmp.refl {α : Type} {cmp : α → α → Int}
    (h : IsTotalPreorderCmp cmp) (a : α) : cmp a a ≤ 0 := by
  by_contra hc
  have h1 : cmp a a < 0 := (h.swap a a).mpr (by omega)
  omega

theorem IsTotalPreorderCmp.lt_of_lt_of_le {α : Type} {cmp : α → α → Int}
    (h : IsTotalPreorderCmp cmp) {a b c : α} (hab : cmp a b < 0) (hbc : cmp b c ≤ 0) :
    cmp a c < 0 := by
  by_contra hc
  have h1 : cmp c a ≤ 0 := h.le_of_not_lt hc
  have h2 : cmp b a ≤ 0 := h.trans b c a hbc h1
  have h3 : 0 < cmp b a := (h.swap a b).mp hab
  omega

theorem IsTotalPreorderCmp.eq_zero_swap {α : Type} {cmp : α → α → Int}
    (h : IsTotalPreorderCmp cmp) {a b : α} (hab : cmp a b = 0) : cmp b a = 0 := by
  have h1 : ¬ (cmp b a < 0) := fun hc => by
    have := (h.swap b a).mp hc
    omega
  have h2 : ¬ (0 < cmp b a) := fun hc => by
    have := (h.swap a b).mpr hc
    omega
  omega

/-- Every element after the insertion point is strictly above the inserted value. -/
theorem dropWhile_all_lt {α : Type} {cmp : α → α → Int} (h : IsTotalPreorderCmp cmp)
    (l : List α) (v : α) (hl : Ascending cmp l) :
    ∀ d ∈ l.dropWhile (fun e => decide (0 ≤ cmp v e)), cmp v d < 0 := by
  have hsub : (l.dropWhile (fun e => decide (0 ≤ cmp v e))).Sublist l :=
    List.dropWhile_sublist _
  have hD : Ascending cmp (l.dropWhile (fun e => decide (0 ≤ cmp v e))) :=
    List.Pairwise.sublist hsub hl
  have hhead := List.head?_dropWhile_not (fun e => decide (0 ≤ cmp v e)) l
  generalize l.dropWhile (fun e => decide (0 ≤ cmp v e)) = D at hD hhead
  cases D with
  | nil => intro d hd; exact absurd hd (List.not_mem_nil d)
  | cons d0 D' =>
    have h0 : cmp v d0 < 0 := by
      have h' : ¬ (0 ≤ cmp v d0) := by simpa using hhead
      omega
    intro d hd
    rcases List.mem_cons.mp hd with hd | hd
    · rw [hd]; exact h0
    · exact h.lt_of_lt_of_le h0 ((List.pairwise_cons.mp hD).1 d hd)

/-- An insertion keeps the list ascending. -/
theorem ascending_insert {α : Type} {cmp : α → α → Int} (h : IsTotalPreorderCmp cmp)
    (l : List α) (v : α) (hl : Ascending cmp l) :
    Ascending cmp (pqueue_insert { the_list := l, cmp_func := some cmp } v).the_list := by
  rw [pqueue_insert_list]
  have hD := dropWhile_all_lt h l v hl
  have hT : ∀ t ∈ l.takeWhile (fun e => decide (0 ≤ cmp v e)), cmp t v ≤ 0 := by
    intro t ht
    have h1 := List.mem_takeWhile_imp ht
    have h2 : 0 ≤ cmp v t := by simpa using h1
    exact h.le_of_not_lt (by omega)
  have hl' := hl
  unfold Ascending at hl' ⊢
  rw [← List.takeWhile_append_dropWhile (fun e => decide (0 ≤ cmp v e)) l,
    List.pairwise_append] at hl'
  obtain ⟨p1, p2, p3⟩ := hl'
  rw [List.pairwise_append]
  refine ⟨p1, List.pairwise_cons.mpr ⟨fun d hd => by have := hD d hd; omega, p2⟩, ?_⟩
  intro t ht x hx
  rcases List.mem_cons.mp hx with hx | hx
  · rw [hx]; exact hT t ht
  · exact p3 t ht x hx

/-- An insertion puts the value after the elements of its own rank: filtered by any
one rank, the list is as if the value had been appended. -/
theorem filter_insert {α : Type} {cmp : α → α → Int} (h : IsTotalPreorderCmp cmp)
    (l : List α) (v : α) (hl : Ascending cmp l) (a : α) :
    (pqueue_insert { the_list := l, cmp_func := some cmp } v).the_list.filter
        (fun x => decide (cmp a x = 0))
      = (l ++ [v]).filter (fun x => decide (cmp a x = 0)) := by
  rw [pqueue_insert_list]
  have hD := dropWhile_all_lt h l v hl
  conv_rhs => rw [← List.takeWhile_append_dropWhile (fun e => decide (0 ≤ cmp v e)) l]
  generalize l.dropWhile (fun e => decide (0 ≤ cmp v e)) = D at hD
  generalize l.takeWhile (fun e => decide (0 ≤ cmp v e)) = T
  rw [List.filter_append, List.filter_append, List.filter_append, List.filter_cons]
  by_cases hav : cmp a v = 0
  · have hnil : D.filter (fun x => decide (cmp a x = 0)) = [] := by
      rw [List.filter_eq_nil_iff]
      intro d hd hc
      have had : cmp a d = 0 := by simpa using hc
      have h1 : cmp d a ≤ 0 := by have := h.eq_zero_swap had; omega
      have h2 : cmp d v ≤ 0 := h.trans d a v h1 (by omega)
      have h3 : 0 < cmp d v := (h.swap v d).mp (hD d hd)
      omega
    rw [hnil]
    simp [hav]
  · simp [hav]

theorem perm_insert {α : Type} (cmp : α → α → Int) (l : List α) (v : α) :
    (pqueue_insert { the_list := l, cmp_func := some cmp } v).the_list.Perm (l ++ [v]) := by
  rw [pqueue_insert_list]
  conv_rhs => rw [← List.takeWhile_append_dropWhile (fun e => decide (0 ≤ cmp v e)) l]
  generalize l.dropWhile (fun e => decide (0 ≤ cmp v e)) = D
  generalize l.takeWhile (fun e => decide (0 ≤ cmp v e)) = T
  have h1 : (T ++ v :: D).Perm (v :: (T ++ D)) := List.perm_middle
  have h2 : (T ++ D ++ [v]).Perm (v :: (T ++ D)) := List.perm_append_singleton v (T ++ D)
  exact h1.trans h2.symm

theorem pqueue_eta {α : Type} (pq : pqueue α) (cmp : α → α → Int)
    (h : pq.cmp_func = some cmp) : pq = { the_list := pq.the_list, cmp_func := some cmp } := by
  cases pq
  simp only at h
  rw [h]

/-- Insertions one after the other into an ascending queue: the queue stays
ascending, holds the old and the new values, and, filtered by any one rank, is the
old list followed by the new values in insertion order. -/
theorem pqueue_insert_all_spec {α : Type} {cmp : α → α → Int} (h : IsTotalPreorderCmp cmp)
    (vs : List α) : ∀ (l : List α), Ascending cmp l →
    (pqueue_insert_all { the_list := l, cmp_func := some cmp } vs).cmp_func = some cmp ∧
    Ascending cmp (pqueue_insert_all { the_list := l, cmp_func := some cmp } vs).the_list ∧
    (pqueue_insert_all { the_list := l, cmp_func := some cmp } vs).the_list.Perm (l ++ vs) ∧
    ∀ a, (pqueue_insert_all { the_list := l, cmp_func := some cmp } vs).the_list.filter
        (fun x => decide (cmp a x = 0))
      = (l ++ vs).filter (fun x => decide (cmp a x = 0)) := by
  induction vs with
  | nil =>
    intro l hl
    refine ⟨rfl, hl, ?_, ?_⟩
    · rw [List.append_nil]; exact List.Perm.refl l
    · intro a; rw [List.append_nil]; rfl
  | cons v vs ih =>
    intro l hl
    have hstep : pqueue_insert_all { the_list := l, cmp_func := some cmp } (v :: vs)
        = pqueue_insert_all (pqueue_insert { the_list := l, cmp_func := some cmp } v) vs := rfl
    have heta := pqueue_eta (pqueue_insert { the_list := l, cmp_func := some cmp } v) cmp
      (pqueue_insert_cmp_func _ v)
    have hasc := ascending_insert h l v hl
    have hperm := perm_insert cmp l v
    have hfil := filter_insert h l v hl
    generalize (pqueue_insert { the_list := l, cmp_func := some cmp } v).the_list = R
      at heta hasc hperm hfil
    rw [hstep, heta]
    obtain ⟨i1, i2, i3, i4⟩ := ih R hasc
    refine ⟨i1, i2, ?_, ?_⟩
    · have h1 : (R ++ vs).Perm (l ++ [v] ++ vs) := List.Perm.append_right vs hperm
      rw [List.append_assoc, List.singleton_append] at h1
      exact i3.trans h1
    · intro a
      rw [i4 a, List.filter_append, hfil a, ← List.filter_append, List.append_assoc,
        List.singleton_append]

/-- The loop of `print_and_empty` with enough fuel prints the whole list of the
queue, from the front, and leaves the queue empty. -/
theorem print_and_empty_spec {α : Type} (cmp_func : Option (α → α → Int)) (fuel : Nat) :
    ∀ (l : List α), l.length ≤ fuel →
    print_and_empty fuel { the_list := l, cmp_func := cmp_func }
      = (l, { the_list := [], cmp_func := cmp_func }) := by
  induction fuel with
  | zero =>
    intro l hl
    have hnil : l = [] := List.length_eq_zero.mp (by omega)
    rw [hnil]
    rfl
  | succ fuel ih =>
    intro l hl
    cases l with
    | nil => rfl
    | cons e t =>
      have hrec := ih t (by rw [List.length_cons] at hl; omega)
      have hstep : print_and_empty (fuel + 1) { the_list := e :: t, cmp_func := cmp_func }
          = (e :: (print_and_empty fuel { the_list := t, cmp_func := cmp_func }).1,
              (print_and_empty fuel { the_list := t, cmp_func := cmp_func }).2) := by
        simp [print_and_empty, pqueue_is_empty, list_is_empty, pqueue_inspect_first,
          list_inspect, list_first, pqueue_delete_first, list_remove]
      rw [hstep, hrec]

/-- The function `pqueue_delete_first` drops the first element, if there is one. -/
theorem pqueue_delete_first_list {α : Type} (pq : pqueue α) :
    (pqueue_delete_first pq).the_list = pq.the_list.tail ∧
    (pqueue_delete_first pq).cmp_func = pq.cmp_func := by
  obtain ⟨l, c⟩ := pq
  cases l with
  | nil => exact ⟨rfl, rfl⟩
  | cons e t => exact ⟨rfl, rfl⟩

theorem ascending_delete_first {α : Type} (cmp : α → α → Int) (pq : pqueue α)
    (hl : Ascending cmp pq.the_list) : Ascending cmp (pqueue_delete_first pq).the_list := by
  rw [(pqueue_delete_first_list pq).1]
  exact List.Pairwise.sublist (List.tail_sublist _) hl

/-- Every queue reached from `pqueue_empty(cmp)` holds `cmp` and is ascending. -/
theorem PQReachable.ascending {α : Type} {cmp : α → α → Int} (h : IsTotalPreorderCmp cmp)
    {pq : pqueue α} (hr : PQReachable cmp pq) :
    pq.cmp_func = some cmp ∧ Ascending cmp pq.the_list := by
  induction hr with
  | empty => exact ⟨rfl, List.Pairwise.nil⟩
  | insert pq v _ ih =>
    refine ⟨by rw [pqueue_insert_cmp_func]; exact ih.1, ?_⟩
    rw [pqueue_eta pq cmp ih.1]
    exact ascending_insert h pq.the_list v ih.2
  | delete_first pq _ ih =>
    exact ⟨by rw [(pqueue_delete_first_list pq).2]; exact ih.1,
      ascending_delete_first cmp pq ih.2⟩

/-- The first element of an ascending list is not above any element of the list. -/
theorem inspect_first_least {α : Type} {cmp : α → α → Int} (h : IsTotalPreorderCmp cmp)
    (pq : pqueue α) (hl : Ascending cmp pq.the_list) (e : α)
    (he : pqueue_inspect_first pq = some e) : ∀ x ∈ pq.the_list, cmp e x ≤ 0 := by
  obtain ⟨l, c⟩ := pq
  cases l with
  | nil => exact Option.noConfusion he
  | cons e' t =>
    have hee : e' = e := by
      simpa [pqueue_inspect_first, list_inspect, list_first] using he
    subst hee
    intro x hx
    rcases List.mem_cons.mp hx with hx | hx
    · rw [hx]; exact h.refl e'
    · exact (List.pairwise_cons.mp hl).1 x hx

/-- The function `cmp_key` meets the comparator contract. -/
theorem cmp_key_total_preorder : IsTotalPreorderCmp cmp_key := by
  constructor
  · intro a b
    unfold cmp_key
    split_ifs <;> omega
  · intro a b c
    unfold cmp_key
    intro h1 h2
    split_ifs at h1 h2 ⊢ <;> omega

/-! ## The claims about the priority queue -/

/-- C4: for every sequence `vs` of values inserted with `pqueue_insert` into the queue
of `pqueue_empty(cmp)`, `cmp` a total preorder comparator, taking
`pqueue_inspect_first` and `pqueue_delete_first` until the queue is empty (the loop of
`print_and_empty`, with any fuel that covers the length) yields the stable ascending
sort of `vs`: the same values, in non-decreasing rank, those of equal rank in the
order of their insertion; the queue is then empty.  The queue of the demonstration,
weights 5 3 9 7 1 0 5 with tags a a a a a a b, is printed as
(0,a) (1,a) (3,a) (5,a) (5,b) (7,a) (9,a). -/
theorem pqueue_pops_stable_sort {α : Type} (cmp : α → α → Int) (hcmp : IsTotalPreorderCmp cmp)
    (vs : List α) (fuel : Nat) (hfuel : vs.length ≤ fuel) :
    IsStableSortOf cmp vs
      (print_and_empty fuel (pqueue_insert_all (pqueue_empty (some cmp)) vs)).1 ∧
    (print_and_empty fuel (pqueue_insert_all (pqueue_empty (some cmp)) vs)).1.length
      = vs.length ∧
    pqueue_is_empty
      (print_and_empty fuel (pqueue_insert_all (pqueue_empty (some cmp)) vs)).2 = true ∧
    (print_and_empty 7 create_pq).1
      = [{ prio := 0, val := 'a' }, { prio := 1, val := 'a' }, { prio := 3, val := 'a' },
         { prio := 5, val := 'a' }, { prio := 5, val := 'b' }, { prio := 7, val := 'a' },
         { prio := 9, val := 'a' }] := by
  have hempty : (pqueue_empty (some cmp) : pqueue α) = { the_list := [], cmp_func := some cmp } :=
    rfl
  obtain ⟨i1, i2, i3, i4⟩ := pqueue_insert_all_spec hcmp vs [] List.Pairwise.nil
  rw [List.nil_append] at i3
  simp only [List.nil_append] at i4
  rw [hempty, pqueue_eta _ cmp i1]
  generalize (pqueue_insert_all { the_list := [], cmp_func := some cmp } vs).the_list = R
    at i2 i3 i4
  have hlen : R.length = vs.length := i3.length_eq
  rw [print_and_empty_spec (some cmp) fuel R (by omega)]
  exact ⟨⟨i3, i2, i4⟩, hlen, rfl, by decide⟩

/-- Witness of C4: `three_leaves` under `cmp_key`. -/
theorem pqueue_pops_stable_sort_witness :
    IsTotalPreorderCmp cmp_key ∧ three_leaves.length ≤ 3 ∧
    IsStableSortOf cmp_key three_leaves
      (print_and_empty 3 (pqueue_insert_all (pqueue_empty (some cmp_key)) three_leaves)).1 ∧
    (print_and_empty 3 (pqueue_insert_all (pqueue_empty (some cmp_key)) three_leaves)).1.length
      = three_leaves.length ∧
    pqueue_is_empty
      (print_and_empty 3 (pqueue_insert_all (pqueue_empty (some cmp_key)) three_leaves)).2
        = true :=
  ⟨cmp_key_total_preorder, by decide,
    (pqueue_pops_stable_sort cmp_key cmp_key_total_preorder three_leaves 3 (by decide)).1,
    (pqueue_pops_stable_sort cmp_key cmp_key_total_preorder three_leaves 3 (by decide)).2.1,
    (pqueue_pops_stable_sort cmp_key cmp_key_total_preorder three_leaves 3 (by decide)).2.2.1⟩

/-- C6: ascending order is an invariant of the priority queue.  For a total preorder
comparator `cmp`, a queue that is ascending (`cmp x y ≤ 0` for every `x` stored before
`y`) is still ascending after `pqueue_insert` and after `pqueue_delete_first`; hence in
every queue reached from `pqueue_empty(cmp)`, `pqueue_inspect_first` on a non-empty
queue returns an element `e` with `cmp e x ≤ 0` for every stored `x`. -/
theorem pqueue_ascending_invariant {α : Type} (cmp : α → α → Int)
    (hcmp : IsTotalPreorderCmp cmp) :
    (∀ (l : List α) (v : α), Ascending cmp l →
      Ascending cmp (pqueue_insert { the_list := l, cmp_func := some cmp } v).the_list) ∧
    (∀ (l : List α), Ascending cmp l →
      Ascending cmp (pqueue_delete_first { the_list := l, cmp_func := some cmp }).the_list) ∧
    (∀ (pq : pqueue α), PQReachable cmp pq → Ascending cmp pq.the_list) ∧
    (∀ (pq : pqueue α), PQReachable cmp pq → pqueue_is_empty pq = false →
      ∃ e, pqueue_inspect_first pq = some e ∧ ∀ x ∈ pq.the_list, cmp e x ≤ 0) := by
  refine ⟨fun l v hl => ascending_insert hcmp l v hl,
    fun l hl => ascending_delete_first cmp _ hl,
    fun pq hr => (hr.ascending hcmp).2, ?_⟩
  intro pq hr hne
  have hasc := (hr.ascending hcmp).2
  cases hl : pq.the_list with
  | nil =>
    have : pqueue_is_empty pq = true := by
      unfold pqueue_is_empty list_is_empty
      rw [hl]; rfl
    rw [this] at hne
    exact Bool.noConfusion hne
  | cons e t =>
    have he : pqueue_inspect_first pq = some e := by
      unfold pqueue_inspect_first list_inspect list_first
      rw [hl]; simp
    refine ⟨e, he, ?_⟩
    rw [← hl]
    exact inspect_first_least hcmp pq hasc e he

/-- Witness of C6: the comparator `cmp_key`. -/
theorem pqueue_ascending_invariant_witness :
    IsTotalPreorderCmp cmp_key ∧
    (∀ (l : List trie_node) (v : trie_node), Ascending cmp_key l →
      Ascending cmp_key (pqueue_insert { the_list := l, cmp_func := some cmp_key } v).the_list) ∧
    (∀ (l : List trie_node), Ascending cmp_key l →
      Ascending cmp_key
        (pqueue_delete_first { the_list := l, cmp_func := some cmp_key }).the_list) ∧
    (∀ (pq : pqueue trie_node), PQReachable cmp_key pq → Ascending cmp_key pq.the_list) ∧
    (∀ (pq : pqueue trie_node), PQReachable cmp_key pq → pqueue_is_empty pq = false →
      ∃ e, pqueue_inspect_first pq = some e ∧ ∀ x ∈ pq.the_list, cmp_key e x ≤ 0) :=
  ⟨cmp_key_total_preorder, pqueue_ascending_invariant cmp_key cmp_key_total_preorder⟩

/-! ## Capacity -/

/-- The capacity after a sequence of insertions into a well-formed buffer. -/
theorem insert_bits_capacity (vs : List Int) : ∀ (b : bit_buffer), WellFormed b →
    (insert_bits b vs).capacity
      = max b.capacity (8 * ((b.size + vs.length) / 8 + 1)) := by
  induction vs with
  | nil =>
    intro b hb
    obtain ⟨⟨h8, hpos, -, -, -, -⟩, hlt⟩ := hb
    show b.capacity = _
    rw [List.length_nil, Nat.add_zero]
    omega
  | cons v vs ih =>
    intro b hb
    obtain ⟨w1, s1, c1, -, -⟩ := insert_bit_spec b v hb
    have hstep : insert_bits b (v :: vs) = insert_bits (bit_buffer_insert_bit b v) vs := rfl
    rw [hstep, ih _ w1, s1, c1, List.length_cons]
    obtain ⟨⟨h8, hpos, -, -, -, -⟩, hlt⟩ := hb
    split <;> omega

theorem to_byte_array_getElem_opt (b : bit_buffer) (i : Nat) (hi : i < b.capacity / 8) :
    (bit_buffer_to_byte_array b)[i]? = some (b.array.getD i 0) := by
  unfold bit_buffer_to_byte_array
  rw [List.getElem?_map, List.getElem?_range hi]
  rfl

theorem to_byte_array_eq_array (b : bit_buffer) (hlen : b.array.length = b.capacity / 8) :
    bit_buffer_to_byte_array b = b.array := by
  apply List.ext_getElem?
  intro i
  by_cases hi : i < b.capacity / 8
  · rw [to_byte_array_getElem_opt b i hi, List.getD_eq_getElem?_getD,
      List.getElem?_eq_getElem (by omega)]
    rfl
  · rw [List.getElem?_eq_none (by simp [bit_buffer_to_byte_array]; omega),
      List.getElem?_eq_none (by omega)]

/-- C12: for every buffer, `bit_buffer_to_byte_array` returns exactly `capacity / 8`
bytes, byte `i` being byte `i` of the storage; when the storage has its `capacity / 8`
bytes the result is the storage itself.  The result does not depend on `size`,
`next_insert` or `next_remove`, and the function, which takes the buffer as a
constant, returns no buffer: the buffer is as it was. -/
theorem to_byte_array_is_storage (b : bit_buffer) :
    (bit_buffer_to_byte_array b).length = b.capacity / 8 ∧
    (∀ i, i < b.capacity / 8 → (bit_buffer_to_byte_array b)[i]? = some (b.array.getD i 0)) ∧
    (b.array.length = b.capacity / 8 → bit_buffer_to_byte_array b = b.array) ∧
    (∀ size next_insert next_remove,
      bit_buffer_to_byte_array
        { b with size := size, next_insert := next_insert, next_remove := next_remove }
        = bit_buffer_to_byte_array b) := by
  refine ⟨by simp [bit_buffer_to_byte_array], to_byte_array_getElem_opt b,
    to_byte_array_eq_array b, fun _ _ _ => rfl⟩
theorem get_bit_value_div_mod (b : bit_buffer) (j : Nat) :
    bit_buffer_get_bit_value b j
      = ((b.array.getD (j / 8) 0 / 2 ^ (7 - j % 8) % 2 : Nat) : Int) := by
  rw [get_bit_value_eq, Nat.testBit_to_div_mod]
  have h2 : b.array.getD (j / 8) 0 / 2 ^ (7 - j % 8) % 2 < 2 := Nat.mod_lt _ (by norm_num)
  by_cases h1 : b.array.getD (j / 8) 0 / 2 ^ (7 - j % 8) % 2 = 1
  · rw [if_pos (decide_eq_true h1), h1]; rfl
  · have h0 : b.array.getD (j / 8) 0 / 2 ^ (7 - j % 8) % 2 = 0 := by omega
    rw [if_neg (by simpa using h1), h0]; rfl

theorem array_bits_length (array : List Nat) : (array_bits array).length = 8 * array.length := by
  induction array with
  | nil => rfl
  | cons x t ih =>
    simp only [array_bits, List.length_append, byte_bits_length, ih, List.length_cons]
    omega

/-- Bit `i` of a byte array read most significant bit first is bit `7 - i % 8` of
byte `i / 8`. -/
theorem array_bits_getElem_opt (array : List Nat) : ∀ (i : Nat), i < 8 * array.length →
    (array_bits array)[i]?
      = some ((array.getD (i / 8) 0 / 2 ^ (7 - i % 8) % 2 : Nat) : Int) := by
  induction array with
  | nil => intro i hi; simp at hi
  | cons x t ih =>
    intro i hi
    simp only [array_bits]
    by_cases h8 : i < 8
    · rw [List.getElem?_append_left (by rw [byte_bits_length]; exact h8),
        byte_bits_getElem_opt x i h8]
      have hd : i / 8 = 0 := by omega
      have hm : i % 8 = i := by omega
      rw [hd, hm]
      rfl
    · rw [List.getElem?_append_right (by rw [byte_bits_length]; omega), byte_bits_length,
        ih (i - 8) (by rw [List.length_cons] at hi; omega)]
      have hd : i / 8 = (i - 8) / 8 + 1 := by omega
      have hm : (i - 8) % 8 = i % 8 := by omega
      rw [hd, hm]
      rfl

/-- The storage of a buffer read most significant bit first, in terms of
`bit_buffer_get_bit_value`. -/
theorem array_bits_eq_map_get (b : bit_buffer) :
    array_bits b.array
      = (List.range (8 * b.array.length)).map (bit_buffer_get_bit_value b) := by
  apply List.ext_getElem?
  intro i
  by_cases hi : i < 8 * b.array.length
  · rw [array_bits_getElem_opt _ i hi, List.getElem?_map, List.getElem?_range hi,
      Option.map_some', get_bit_value_div_mod]
  · rw [List.getElem?_eq_none (by rw [array_bits_length]; omega),
      List.getElem?_eq_none (by simp; omega)]

/-- C13, evaluated at the failing input: two bits of value 1 are inserted into the
empty buffer and one is removed.  The buffer then holds the one bit 1, but the byte
array of `bit_buffer_to_byte_array`, read most significant bit first, starts with the
cleared place of the removed bit: it is 0, 1 and fourteen times 0, not the bit 1
followed by padding. -/
theorem to_byte_array_after_removal :
    ∃ v b, bit_buffer_remove_bit (insert_bits bit_buffer_empty [1, 1]) = some (v, b) ∧
      bit_buffer_size b = 1 ∧ bit_buffer_inspect_bit b 0 = 1 ∧ queue_of b = [1] ∧
      bit_buffer_to_byte_array b = [0x40, 0] ∧
      array_bits (bit_buffer_to_byte_array b)
        = [0, 1, 0, 0, 0, 0, 0, 0, 0, 0, 0, 0, 0, 0, 0, 0] ∧
      array_bits (bit_buffer_to_byte_array b) ≠ queue_of b ++ List.replicate 15 0 :=
  ⟨1, { capacity := 16, array := [0x40, 0], size := 1, next_insert := 2, next_remove := 1 },
    by decide, by decide, by decide, by decide, by decide, by decide, by decide⟩
/-! ## Buffers that were only inserted into -/

/-- The growth statement on a well-formed buffer with `next_remove = 0`: there is
nothing to shift. -/
theorem insert_bit_grow_no_wrap (b : bit_buffer) (h : WellFormed b) (h0 : b.next_remove = 0) :
    (insert_bit_grow b).next_remove = 0 ∧
    (insert_bit_grow b).next_insert = b.size ∧
    ∀ j, bit_buffer_get_bit_value (insert_bit_grow b) j = bit_buffer_get_bit_value b j := by
  obtain ⟨⟨h8, hpos, hlen, hsz, hnr, hni⟩, hlt⟩ := h
  rw [h0, Nat.zero_add, Nat.mod_eq_of_lt hlt] at hni
  by_cases hg : b.size + 1 = b.capacity
  · have hs : ¬ (b.next_remove ≥ b.next_insert) := by omega
    have hgrow : insert_bit_grow b = bit_buffer.mk (b.capacity + 8) (b.array ++ [0]) b.size
        b.next_insert b.next_remove := by
      unfold insert_bit_grow
      simp only [bit_buffer_size, if_pos hg, insert_bit_extend_eq b hlen, if_neg hs]
    rw [hgrow]
    exact ⟨h0, hni, fun j => get_append_zero _ b rfl j⟩
  · have hgrow : insert_bit_grow b = b := by
      unfold insert_bit_grow
      simp only [bit_buffer_size, if_neg hg]
    rw [hgrow]
    exact ⟨h0, hni, fun _ => rfl⟩

/-- One insertion into a well-formed buffer with `next_remove = 0` writes the bit at
the place `size` of the storage and changes no other place. -/
theorem insert_bit_storage (b : bit_buffer) (v : Int) (h : WellFormed b)
    (h0 : b.next_remove = 0) :
    (bit_buffer_insert_bit b v).next_remove = 0 ∧
    ∀ j, bit_buffer_get_bit_value (bit_buffer_insert_bit b v) j
      = if j = b.size then truth v else bit_buffer_get_bit_value b j := by
  obtain ⟨g1, g2, g3⟩ := insert_bit_grow_no_wrap b h h0
  obtain ⟨c1, s1, s2, -, -⟩ := insert_bit_grow_spec b h
  rw [insert_bit_eq]
  generalize insert_bit_grow b = g at g1 g2 g3 c1 s1 s2
  have e3 : (insert_bit_store g v).next_remove = g.next_remove := rfl
  have e5 : (insert_bit_store g v).array = (bit_buffer_set_bit_value g g.next_insert v).array :=
    rfl
  refine ⟨by rw [e3, g1], ?_⟩
  intro j
  rw [get_bit_value_congr _ _ e5, g2]
  by_cases hj : j = b.size
  · rw [if_pos hj, hj]
    exact get_set_same_truth g b.size v (by have := c1.2.2.1; have := c1.1; omega)
  · rw [if_neg hj, get_set_other _ _ _ _ (fun hc => hj hc.symm), g3]

/-- The loop of `bit_buffer_copy` inserts the inspected bits one by one. -/
theorem copy_loop_eq (b : bit_buffer) (n : Nat) : ∀ (i : Nat) (res : bit_buffer),
    copy_loop b i n res
      = insert_bits res ((List.range' i n).map (bit_buffer_inspect_bit b)) := by
  induction n with
  | zero => intro i res; rfl
  | succ n ih =>
    intro i res
    simp only [copy_loop]
    rw [ih]
    rfl

theorem copy_eq (b : bit_buffer) :
    bit_buffer_copy b = insert_bits bit_buffer_empty (queue_of b) := by
  unfold bit_buffer_copy queue_of
  rw [copy_loop_eq, List.range_eq_range']

theorem map_truth_queue_of (b : bit_buffer) : (queue_of b).map truth = queue_of b := by
  unfold queue_of
  rw [List.map_map]
  apply List.map_congr_left
  intro i _
  exact get_bit_value_truth b _

/-- C16: for every buffer `b`, `bit_buffer_copy` returns a buffer with the size of `b`
in which `bit_buffer_inspect_bit` at every `i` below the size reads what it reads in
`b`; the copy is well-formed and holds the queue of `b`.  The function takes `b` as a
constant and returns only the copy: `b` is as it was. -/
theorem copy_holds_the_same_bits (b : bit_buffer) :
    bit_buffer_size (bit_buffer_copy b) = bit_buffer_size b ∧
    (∀ i, i < bit_buffer_size b →
      bit_buffer_inspect_bit (bit_buffer_copy b) i = bit_buffer_inspect_bit b i) ∧
    queue_of (bit_buffer_copy b) = queue_of b ∧
    WellFormed (bit_buffer_copy b) := by
  obtain ⟨hw, hq⟩ := insert_bits_spec (queue_of b) bit_buffer_empty wellFormed_empty
  rw [queue_of_empty, List.nil_append, map_truth_queue_of, ← copy_eq] at hq
  rw [← copy_eq] at hw
  have hs : (bit_buffer_copy b).size = b.size := by
    rw [← queue_of_length, hq, queue_of_length]
  refine ⟨hs, ?_, hq, hw⟩
  intro i hi
  have h1 := queue_of_getElem_opt (bit_buffer_copy b) i (by rw [hs]; exact hi)
  rw [hq, queue_of_getElem_opt b i hi] at h1
  injection h1 with h1
  exact h1.symm
/-! ## Inspection -/

/-- C17, counterexample: the claim that `bit_buffer_inspect_bit` fails for every
`n ≥ size` is false.  In the buffer that holds the three bits 1, 0, 1 (capacity 16),
the call at `n = 16` does not fail: it wraps around the storage and returns the bit at
position 0, and the call at `n = 3` returns the unused storage bit 0. -/
theorem inspect_bit_past_size_returns :
    ¬ (∀ (b : bit_buffer) (n : Nat), bit_buffer_size b ≤ n →
        bit_buffer_inspect_bit_call b n = none) ∧
    bit_buffer_size (insert_bits bit_buffer_empty [1, 0, 1]) = 3 ∧
    bit_buffer_inspect_bit_call (insert_bits bit_buffer_empty [1, 0, 1]) 16 = some 1 ∧
    bit_buffer_inspect_bit_call (insert_bits bit_buffer_empty [1, 0, 1]) 3 = some 0 := by
  refine ⟨?_, by decide, by decide, by decide⟩
  intro h
  have h1 := h bit_buffer_empty 0 (by decide)
  exact Option.noConfusion h1

/-- C17, amended: `bit_buffer_inspect_bit` rejects no `bit_no`.  For every `n`, also
`n ≥ size`, the call returns the storage bit at `(n + next_remove) % capacity`
without failing; for `n < size` on a consistent buffer that bit is the `n`-th bit not
yet removed, the one that the `(n + 1)`-th of successive calls of
`bit_buffer_remove_bit` returns.  The function takes the buffer as a constant and
returns no buffer: the buffer is as it was. -/
theorem inspect_bit_contract (b : bit_buffer) (hb : Consistent b) :
    (∀ n, bit_buffer_inspect_bit_call b n
      = some (bit_buffer_get_bit_value b ((n + b.next_remove) % b.capacity))) ∧
    (∀ n, bit_buffer_size b ≤ n → bit_buffer_inspect_bit_call b n ≠ none) ∧
    (∀ n, n < bit_buffer_size b →
      ∃ vs b', remove_bits (n + 1) b = some (vs, b') ∧
        vs[n]? = some (bit_buffer_inspect_bit b n) ∧
        bit_buffer_inspect_bit_call b n = vs[n]?) := by
  refine ⟨fun n => rfl, fun n _ hc => Option.noConfusion hc, ?_⟩
  intro n hn
  unfold bit_buffer_size at hn
  obtain ⟨b', r1, -, -, -, -⟩ := remove_bits_spec (n + 1) b hb (by omega)
  have hv : ((queue_of b).take (n + 1))[n]? = some (bit_buffer_inspect_bit b n) := by
    rw [List.getElem?_take_of_lt (by omega), queue_of_getElem_opt b n hn]
  exact ⟨_, b', r1, hv, by rw [hv]; rfl⟩

/-- Witness of C17, amended: `wrapped_example`. -/
theorem inspect_bit_contract_witness :
    Consistent wrapped_example ∧
    (∀ n, bit_buffer_inspect_bit_call wrapped_example n
      = some (bit_buffer_get_bit_value wrapped_example
          ((n + wrapped_example.next_remove) % wrapped_example.capacity))) ∧
    (∀ n, bit_buffer_size wrapped_example ≤ n →
      bit_buffer_inspect_bit_call wrapped_example n ≠ none) ∧
    (∀ n, n < bit_buffer_size wrapped_example →
      ∃ vs b', remove_bits (n + 1) wrapped_example = some (vs, b') ∧
        vs[n]? = some (bit_buffer_inspect_bit wrapped_example n) ∧
        bit_buffer_inspect_bit_call wrapped_example n = vs[n]?) :=
  ⟨by unfold Consistent; decide,
    inspect_bit_contract wrapped_example (by unfold Consistent; decide)⟩

/-! ## Deletion from the priority queue -/

/-- C18: `pqueue_delete_first` on an empty queue is a no-op, the queue stays empty
and nothing fails; on a non-empty queue it removes exactly the first element and
leaves the remaining elements in their order.  The compare function is kept. -/
theorem delete_first_contract {α : Type} (cmp_func : Option (α → α → Int)) (e : α)
    (t : List α) :
    pqueue_delete_first { the_list := [], cmp_func := cmp_func }
      = { the_list := [], cmp_func := cmp_func } ∧
    pqueue_is_empty (pqueue_delete_first (pqueue_empty cmp_func)) = true ∧
    pqueue_delete_first { the_list := e :: t, cmp_func := cmp_func }
      = { the_list := t, cmp_func := cmp_func } ∧
    (pqueue_delete_first { the_list := e :: t, cmp_func := cmp_func }).the_list.length
      = (e :: t).length - 1 :=
  ⟨rfl, rfl, rfl, rfl⟩
/-! ## The exit code of the program -/

/-- C20, evaluated at failing inputs: `main` exits with code 0 on every command
line.  With one argument, `check_prog_params` reports the usage error (-1) and `main`
returns 0; with five arguments and a frequency file that cannot be opened,
`check_prog_params` reports -1 and `main` returns 0; with five arguments and the
option `-x`, `check_prog_params` itself reports success. -/
theorem main_exits_zero_on_failure :
    (∀ can_open argc argv, main can_open argc argv = 0) ∧
    (check_prog_params (fun _ _ => true) 1 ["huffman"]).1 = -1 ∧
    main (fun _ _ => true) 1 ["huffman"] = 0 ∧
    (check_prog_params (fun _ _ => false) 5 ["huffman", "-encode", "f", "in", "out"]).1 = -1 ∧
    main (fun _ _ => false) 5 ["huffman", "-encode", "f", "in", "out"] = 0 ∧
    (check_prog_params (fun _ _ => true) 5 ["huffman", "-x", "f", "in", "out"]).1 = 0 := by
  refine ⟨?_, by decide, by decide, by decide, by decide, by decide⟩
  intro can_open argc argv
  unfold main
  simp
/-! ## The queue of leaves -/

/-- The loop of `process_frequency` inserts, in the order of the indices, a node for
each entry of positive frequency. -/
theorem process_frequency_loop_eq (frequency : List charFrequency) (n : Nat) :
    ∀ (i : Nat) (pq : pqueue trie_node),
    process_frequency_loop frequency i n pq
      = pqueue_insert_all pq ((List.range' i n).filterMap (fun i =>
          if (frequency.getD i { character := 0, frequency := 0 }).frequency > 0 then
            some (new_node (frequency.getD i { character := 0, frequency := 0 }))
          else none)) := by
  induction n with
  | zero => intro i pq; rfl
  | succ n ih =>
    intro i pq
    simp only [process_frequency_loop]
    rw [ih, List.range'_succ]
    by_cases hf : (frequency.getD i { character := 0, frequency := 0 }).frequency > 0
    · simp only [List.filterMap_cons, if_pos hf]
      rfl
    · simp only [List.filterMap_cons, if_neg hf]

/-- On a table whose entry `i` holds the character `i`, `process_frequency` inserts
the leaves of `leaves_of` in their order. -/
theorem process_frequency_eq (frequency : List charFrequency)
    (htable : ∀ i : Nat, i < 256 → (frequency[i]?).map charFrequency.character = some (i : Int)) :
    process_frequency frequency
      = pqueue_insert_all (pqueue_empty (some cmp_key)) (leaves_of frequency) := by
  unfold process_frequency leaves_of
  rw [process_frequency_loop_eq, ← List.range_eq_range']
  congr 1
  apply List.filterMap_congr
  intro i hi
  have hi' := List.mem_range.mp hi
  have hc : (frequency.getD i { character := 0, frequency := 0 }).character = (i : Int) := by
    have h := htable i hi'
    rw [List.getD_eq_getElem?_getD]
    cases hget : frequency[i]? with
    | none => rw [hget] at h; exact Option.noConfusion h
    | some e =>
      rw [hget] at h
      simpa using h
  have hk : ((i : Int) % 256).toNat = i := by omega
  unfold new_node
  rw [hc, hk]

theorem cmp_key_le_iff (x y : trie_node) : cmp_key x y ≤ 0 ↔ x.weight ≤ y.weight := by
  unfold cmp_key
  constructor <;> intro h <;> split_ifs at h ⊢ <;> omega

theorem cmp_key_eq_zero_iff (x y : trie_node) : cmp_key x y = 0 ↔ x.weight = y.weight := by
  unfold cmp_key
  constructor <;> intro h <;> split_ifs at h ⊢ <;> omega

/-- In a stable sort, two values of equal rank stand in the order that they have in
the input. -/
theorem IsStableSortOf.pairwise {α : Type} {cmp : α → α → Int} (hcmp : IsTotalPreorderCmp cmp)
    {vs out : List α} (h : IsStableSortOf cmp vs out) (R : α → α → Prop)
    (hvs : vs.Pairwise R) :
    out.Pairwise (fun x y => cmp x y ≤ 0 ∧ (cmp x y = 0 → R x y)) := by
  obtain ⟨-, hasc, hfil⟩ := h
  rw [List.pairwise_iff_forall_sublist]
  intro x y hxy
  refine ⟨(List.pairwise_iff_forall_sublist.mp hasc) hxy, ?_⟩
  intro h0
  have hxx : cmp x x = 0 := by
    have h1 := hcmp.refl x
    have h2 : ¬ (cmp x x < 0) := fun hc => by
      have := (hcmp.swap x x).mp hc
      omega
    omega
  have hsub := List.Sublist.filter (fun z => decide (cmp x z = 0)) hxy
  have hf : [x, y].filter (fun z => decide (cmp x z = 0)) = [x, y] := by
    simp [List.filter_cons, hxx, h0]
  rw [hf, hfil x] at hsub
  exact (List.pairwise_iff_forall_sublist.mp hvs) (hsub.trans (List.filter_sublist _))

/-- The leaves of `leaves_of` have strictly ascending keys. -/
theorem leaves_of_pairwise_key (frequency : List charFrequency) :
    (leaves_of frequency).Pairwise (fun x y => x.key < y.key) := by
  unfold leaves_of
  apply List.Pairwise.filterMap _ _ (List.pairwise_lt_range 256)
  intro i j hij x hx y hy
  simp only [Option.mem_def] at hx hy
  split at hx
  · split at hy
    · injection hx with hx
      injection hy with hy
      rw [← hx, ← hy]
      exact hij
    · exact Option.noConfusion hy
  · exact Option.noConfusion hx

theorem mem_leaves_of (frequency : List charFrequency) (node : trie_node) :
    node ∈ leaves_of frequency ↔
      ∃ i, i < 256 ∧ 0 < (frequency.getD i { character := 0, frequency := 0 }).frequency ∧
        node = trie_node.mk (frequency.getD i { character := 0, frequency := 0 }).frequency i
          none none := by
  unfold leaves_of
  rw [List.mem_filterMap]
  constructor
  · rintro ⟨i, hi, hf⟩
    split at hf
    · injection hf with hf
      exact ⟨i, List.mem_range.mp hi, by omega, hf.symm⟩
    · exact Option.noConfusion hf
  · rintro ⟨i, hi, hpos, hnode⟩
    refine ⟨i, List.mem_range.mpr hi, ?_⟩
    rw [if_pos (by omega), hnode]

/-- C19: for every table of frequencies whose entries 0 to 255 hold the characters 0
to 255, `process_frequency` returns a queue that holds exactly the leaves of
`leaves_of`: one node without children, with the symbol as key and the count as
weight, for each symbol whose count is above 0, and none for the others.  The queue is
ascending by weight, and leaves of equal weight stand in ascending symbol value: it is
the stable sort by weight of the leaves taken in symbol order. -/
theorem process_frequency_queue (frequency : List charFrequency)
    (htable : ∀ i : Nat, i < 256 → (frequency[i]?).map charFrequency.character = some (i : Int)) :
    (process_frequency frequency).the_list.Perm (leaves_of frequency) ∧
    (∀ node, node ∈ (process_frequency frequency).the_list ↔
      ∃ i, i < 256 ∧ 0 < (frequency.getD i { character := 0, frequency := 0 }).frequency ∧
        node = trie_node.mk (frequency.getD i { character := 0, frequency := 0 }).frequency i
          none none) ∧
    (process_frequency frequency).the_list.Pairwise
      (fun x y => x.weight < y.weight ∨ (x.weight = y.weight ∧ x.key < y.key)) ∧
    IsStableSortOf cmp_key (leaves_of frequency) (process_frequency frequency).the_list := by
  rw [process_frequency_eq frequency htable]
  obtain ⟨-, i2, i3, i4⟩ :=
    pqueue_insert_all_spec cmp_key_total_preorder (leaves_of frequency) [] List.Pairwise.nil
  rw [List.nil_append] at i3
  simp only [List.nil_append] at i4
  have hempty : (pqueue_empty (some cmp_key) : pqueue trie_node)
      = { the_list := [], cmp_func := some cmp_key } := rfl
  rw [hempty]
  have hstable : IsStableSortOf cmp_key (leaves_of frequency)
      (pqueue_insert_all { the_list := [], cmp_func := some cmp_key }
        (leaves_of frequency)).the_list := ⟨i3, i2, i4⟩
  refine ⟨i3, ?_, ?_, hstable⟩
  · intro node
    rw [i3.mem_iff, mem_leaves_of]
  · have hp := hstable.pairwise cmp_key_total_preorder _ (leaves_of_pairwise_key frequency)
    apply List.Pairwise.imp _ hp
    intro x y hxy
    obtain ⟨h1, h2⟩ := hxy
    rw [cmp_key_le_iff] at h1
    rw [cmp_key_eq_zero_iff] at h2
    by_cases he : x.weight = y.weight
    · exact Or.inr ⟨he, h2 he⟩
    · exact Or.inl (by omega)
theorem frequency_example_table :
    ∀ i : Nat, i < 256 →
      (frequency_example[i]?).map charFrequency.character = some (i : Int) := by
  intro i hi
  unfold frequency_example
  rw [List.getElem?_map, List.getElem?_range hi]
  rfl

set_option maxRecDepth 100000 in
theorem process_frequency_example :
    (process_frequency frequency_example).the_list
      = [trie_node.mk 1 66 none none, trie_node.mk 4 65 none none] := by
  rfl

/-- Witness of C19: `frequency_example`, whose queue is the leaf of `B` (weight 1)
followed by the leaf of `A` (weight 4). -/
theorem process_frequency_queue_witness :
    (∀ i : Nat, i < 256 →
      (frequency_example[i]?).map charFrequency.character = some (i : Int)) ∧
    (process_frequency frequency_example).the_list
      = [trie_node.mk 1 66 none none, trie_node.mk 4 65 none none] ∧
    ((process_frequency frequency_example).the_list.Perm (leaves_of frequency_example) ∧
    (∀ node, node ∈ (process_frequency frequency_example).the_list ↔
      ∃ i, i < 256 ∧
        0 < (frequency_example.getD i { character := 0, frequency := 0 }).frequency ∧
        node = trie_node.mk
          (frequency_example.getD i { character := 0, frequency := 0 }).frequency i
          none none) ∧
    (process_frequency frequency_example).the_list.Pairwise
      (fun x y => x.weight < y.weight ∨ (x.weight = y.weight ∧ x.key < y.key)) ∧
    IsStableSortOf cmp_key (leaves_of frequency_example)
      (process_frequency frequency_example).the_list) :=
  ⟨frequency_example_table, process_frequency_example,
    process_frequency_queue frequency_example frequency_example_table⟩

/-! ## Growth events -/

/-- Each growth event adds 8 to the capacity, and nothing else changes it. -/
theorem growth_events_capacity (vs : List Int) : ∀ (b : bit_buffer), WellFormed b →
    8 * growth_events b vs + b.capacity = (insert_bits b vs).capacity := by
  induction vs with
  | nil => intro b _; show 8 * 0 + b.capacity = b.capacity; omega
  | cons v vs ih =>
    intro b hb
    obtain ⟨w1, -, c1, -, -⟩ := insert_bit_spec b v hb
    have hstep : insert_bits b (v :: vs) = insert_bits (bit_buffer_insert_bit b v) vs := rfl
    have ih1 := ih _ w1
    rw [hstep, ← ih1]
    simp only [growth_events]
    rw [c1]
    by_cases hg : b.size + 1 = b.capacity
    · rw [if_pos hg, if_pos (by omega)]
      omega
    · rw [if_neg hg, if_neg (by omega)]
      omega

/-- C23, counterexample: nine insertions into the buffer of `bit_buffer_empty` do not
trigger exactly one growth event; they trigger none, and the capacity is still 16. -/
theorem nine_insertions_not_one_growth :
    ¬ (growth_events bit_buffer_empty [1, 0, 1, 1, 0, 0, 1, 0, 1] = 1) ∧
    growth_events bit_buffer_empty [1, 0, 1, 1, 0, 0, 1, 0, 1] = 0 ∧
    (insert_bits bit_buffer_empty [1, 0, 1, 1, 0, 0, 1, 0, 1]).capacity = 16 := by
  decide

/-- C23, amended: inserting 9 bits with `bit_buffer_insert_bit` into the buffer of
`bit_buffer_empty` (initial capacity 16) triggers no growth event: the capacity is 16
after each of the 9 insertions.  The first growth event comes with the 16th
insertion: with seven more bits there is exactly one growth event, and the capacity
is then 24. -/
theorem nine_insertions_no_growth (vs : List Int) (h9 : vs.length = 9) :
    growth_events bit_buffer_empty vs = 0 ∧
    (∀ k, (insert_bits bit_buffer_empty (vs.take k)).capacity = 16) ∧
    (∀ ws : List Int, ws.length = 6 →
      growth_events bit_buffer_empty (vs ++ ws) = 0) ∧
    (∀ ws : List Int, ws.length = 7 →
      growth_events bit_buffer_empty (vs ++ ws) = 1 ∧
      (insert_bits bit_buffer_empty (vs ++ ws)).capacity = 24) := by
  have hcap : ∀ l : List Int, (insert_bits bit_buffer_empty l).capacity
      = max 16 (8 * (l.length / 8 + 1)) := fun l => by
    have h := insert_bits_capacity l bit_buffer_empty wellFormed_empty
    have h0 : bit_buffer_empty.size = 0 := rfl
    have h16 : bit_buffer_empty.capacity = 16 := rfl
    rw [h, h0, h16, Nat.zero_add]
  have hev : ∀ l : List Int, 8 * growth_events bit_buffer_empty l + 16
      = max 16 (8 * (l.length / 8 + 1)) := fun l => by
    have h := growth_events_capacity l bit_buffer_empty wellFormed_empty
    have h16 : bit_buffer_empty.capacity = 16 := rfl
    rw [h16, hcap l] at h
    exact h
  refine ⟨?_, ?_, ?_, ?_⟩
  · have h := hev vs
    rw [h9] at h
    omega
  · intro k
    rw [hcap]
    have hk : (vs.take k).length ≤ 9 := by
      rw [List.length_take]; omega
    omega
  · intro ws hws
    have h := hev (vs ++ ws)
    rw [List.length_append, h9, hws] at h
    omega
  · intro ws hws
    have h := hev (vs ++ ws)
    have h' := hcap (vs ++ ws)
    rw [List.length_append, h9, hws] at h h'
    omega

/-- Witness of C23, amended. -/
theorem nine_insertions_no_growth_witness :
    ([1, 0, 1, 1, 0, 0, 1, 0, 1] : List Int).length = 9 ∧
    growth_events bit_buffer_empty [1, 0, 1, 1, 0, 0, 1, 0, 1] = 0 ∧
    (∀ k, (insert_bits bit_buffer_empty
      (([1, 0, 1, 1, 0, 0, 1, 0, 1] : List Int).take k)).capacity = 16) ∧
    (∀ ws : List Int, ws.length = 6 →
      growth_events bit_buffer_empty ([1, 0, 1, 1, 0, 0, 1, 0, 1] ++ ws) = 0) ∧
    (∀ ws : List Int, ws.length = 7 →
      growth_events bit_buffer_empty ([1, 0, 1, 1, 0, 0, 1, 0, 1] ++ ws) = 1 ∧
      (insert_bits bit_buffer_empty ([1, 0, 1, 1, 0, 0, 1, 0, 1] ++ ws)).capacity = 24) :=
  ⟨by decide, nine_insertions_no_growth [1, 0, 1, 1, 0, 0, 1, 0, 1] (by decide)⟩

/-- C25, evaluated at the failing input: the buffer of `bit_buffer_create` from the
one byte `0x00` is full.  `bit_buffer_insert_bit` with the value 1 makes the size 9
without growing the capacity 8, and writes the bit at place 0, over the oldest bit:
`bit_buffer_inspect_bit` at 0 changes from 0 to 1, and nine removals return 1 followed
by eight times 0 instead of eight times 0 followed by 1. -/
theorem create_insert_bit_overwrites :
    bit_buffer_size (bit_buffer_insert_bit (bit_buffer_create [0x00] 1) 1) = 9 ∧
    (bit_buffer_insert_bit (bit_buffer_create [0x00] 1) 1).capacity = 8 ∧
    bit_buffer_inspect_bit (bit_buffer_create [0x00] 1) 0 = 0 ∧
    bit_buffer_inspect_bit (bit_buffer_insert_bit (bit_buffer_create [0x00] 1) 1) 0 = 1 ∧
    (remove_bits 9 (bit_buffer_insert_bit (bit_buffer_create [0x00] 1) 1)).map (fun r => r.1)
      = some [1, 0, 0, 0, 0, 0, 0, 0, 0] ∧
    (remove_bits 9 (bit_buffer_insert_bit (bit_buffer_create [0x00] 1) 1)).map (fun r => r.1)
      ≠ some [0, 0, 0, 0, 0, 0, 0, 0, 1] := by
  decide

/-! ## The comparators -/

/-- C26: `cmp_key` meets the comparator contract of `pqueue.h` on every pair of
nodes.  It returns 1 when the weight of the first node is above that of the second,
-1 when it is below and 0 when the weights are equal, whatever the keys and the
children; hence `cmp_key a b = - cmp_key b a`, and the order it induces is a total
preorder: transitive and total. -/
theorem cmp_key_contract (node1 node2 node3 : trie_node) :
    (node1.weight > node2.weight → cmp_key node1 node2 = 1) ∧
    (node1.weight < node2.weight → cmp_key node1 node2 = -1) ∧
    (node1.weight = node2.weight → cmp_key node1 node2 = 0) ∧
    cmp_key node1 node2
      = cmp_key (trie_node.mk node1.weight 0 none none) (trie_node.mk node2.weight 0 none none) ∧
    cmp_key node1 node2 = - cmp_key node2 node1 ∧
    (cmp_key node1 node2 ≤ 0 → cmp_key node2 node3 ≤ 0 → cmp_key node1 node3 ≤ 0) ∧
    (cmp_key node1 node2 ≤ 0 ∨ cmp_key node2 node1 ≤ 0) ∧
    IsTotalPreorderCmp cmp_key := by
  refine ⟨?_, ?_, ?_, rfl, ?_, cmp_key_total_preorder.trans node1 node2 node3, ?_,
    cmp_key_total_preorder⟩
  · intro h; unfold cmp_key; rw [if_pos h]
  · intro h; unfold cmp_key; rw [if_neg (by omega), if_pos (by omega)]
  · intro h; unfold cmp_key; rw [if_neg (by omega), if_neg (by omega)]
  · unfold cmp_key
    split_ifs <;> omega
  · unfold cmp_key
    split_ifs <;> omega

/-- C27, evaluated at the failing input: for the priorities `2147483647` and `-1`,
both 32-bit `int` values, the difference `2147483648` taken modulo `2 ^ 32` as a
signed `int` is `-2147483648`: `lessthan` returns a value below 0 although the first
priority is above the second. -/
theorem lessthan_overflow :
    lessthan { prio := 2147483647, val := 'a' } { prio := -1, val := 'b' } = -2147483648 ∧
    lessthan { prio := 2147483647, val := 'a' } { prio := -1, val := 'b' } < 0 ∧
    ({ prio := 2147483647, val := 'a' } : queue_elem).prio
      > ({ prio := -1, val := 'b' } : queue_elem).prio ∧
    -2147483648 ≤ ({ prio := 2147483647, val := 'a' } : queue_elem).prio ∧
    ({ prio := 2147483647, val := 'a' } : queue_elem).prio ≤ 2147483647 ∧
    -2147483648 ≤ ({ prio := -1, val := 'b' } : queue_elem).prio ∧
    ({ prio := -1, val := 'b' } : queue_elem).prio ≤ 2147483647 := by
  decide
/-! ## The cursors -/

/-- C29: the cursor invariant of the circular buffer.  In every state reached from
`bit_buffer_empty` by insertions and removals of bits and bytes, `next_insert` and
`next_remove` are below the capacity (and, as all indices of the model, not below 0),
the size is strictly below the capacity, and
`next_insert = (next_remove + size) % capacity`.  In particular, in the growth branch
(`size + 1 = capacity`) the test `next_remove >= next_insert` is true exactly when
the live region wraps: when `next_insert` stands before `next_remove`, that is when
the live bits reach the end of the storage (`capacity ≤ next_remove + size`). -/
theorem cursor_invariant (b : bit_buffer) (hr : Reachable b) :
    b.next_insert < b.capacity ∧ b.next_remove < b.capacity ∧
    bit_buffer_size b < b.capacity ∧
    b.next_insert = (b.next_remove + bit_buffer_size b) % b.capacity ∧
    (bit_buffer_size b + 1 = b.capacity →
      ((b.next_remove ≥ b.next_insert ↔ b.next_insert < b.next_remove) ∧
       (b.next_remove ≥ b.next_insert ↔ b.capacity ≤ b.next_remove + bit_buffer_size b))) := by
  obtain ⟨⟨h8, hpos, hlen, hsz, hnr, hni⟩, hlt⟩ := hr.wellFormed
  unfold bit_buffer_size
  refine ⟨by rw [hni]; exact Nat.mod_lt _ hpos, hnr, hlt, hni, ?_⟩
  intro hg
  rw [mod_lt_two _ _ (by omega)] at hni
  constructor
  · constructor
    · intro h; split at hni <;> omega
    · intro h; omega
  · constructor
    · intro h; split at hni <;> omega
    · intro h; split at hni <;> omega

/-- Witness of C29: `wrapped_example`, which stands in the growth branch with a
wrapped live region. -/
theorem cursor_invariant_witness :
    Reachable wrapped_example ∧
    bit_buffer_size wrapped_example + 1 = wrapped_example.capacity ∧
    wrapped_example.next_remove ≥ wrapped_example.next_insert ∧
    (wrapped_example.next_insert < wrapped_example.capacity ∧
    wrapped_example.next_remove < wrapped_example.capacity ∧
    bit_buffer_size wrapped_example < wrapped_example.capacity ∧
    wrapped_example.next_insert
      = (wrapped_example.next_remove + bit_buffer_size wrapped_example)
          % wrapped_example.capacity ∧
    (bit_buffer_size wrapped_example + 1 = wrapped_example.capacity →
      ((wrapped_example.next_remove ≥ wrapped_example.next_insert ↔
          wrapped_example.next_insert < wrapped_example.next_remove) ∧
       (wrapped_example.next_remove ≥ wrapped_example.next_insert ↔
          wrapped_example.capacity
            ≤ wrapped_example.next_remove + bit_buffer_size wrapped_example)))) :=
  ⟨reachable_wrapped_example, by decide, by decide,
    cursor_invariant wrapped_example reachable_wrapped_example⟩
/-! ## Zeros outside the live region -/

theorem get_out_of_range (b : bit_buffer) (j : Nat) (h : b.array.length ≤ j / 8) :
    bit_buffer_get_bit_value b j = 0 := by
  rw [get_bit_value_div_mod, List.getD_eq_getElem?_getD, List.getElem?_eq_none h]
  simp

theorem zeroOutside_empty : ZeroOutside bit_buffer_empty := by
  intro j _ _
  rw [get_bit_value_div_mod]
  have hz : bit_buffer_empty.array.getD (j / 8) 0 = 0 := by
    show (List.replicate 2 0).getD (j / 8) 0 = 0
    rw [List.getD_eq_getElem?_getD]
    by_cases hj : j / 8 < 2
    · rw [List.getElem?_eq_getElem (by simpa using hj), List.getElem_replicate]; rfl
    · rw [List.getElem?_eq_none (by simp; omega)]; rfl
  rw [hz]
  simp

/-- The growth statement on a well-formed buffer whose `next_remove` is not 0, in the
growth branch: the storage after the shift, place by place. -/
theorem insert_bit_grow_wrap (b : bit_buffer) (h : WellFormed b)
    (hg : b.size + 1 = b.capacity) (h1 : 1 ≤ b.next_remove) :
    (insert_bit_grow b).next_remove = b.next_remove + 8 ∧
    ∀ j, bit_buffer_get_bit_value (insert_bit_grow b) j
      = if b.next_remove ≤ j ∧ j < b.next_remove + 8 then 0
        else if b.next_remove + 8 ≤ j ∧ j ≤ b.capacity + 7 then bit_buffer_get_bit_value b (j - 8)
        else bit_buffer_get_bit_value b j := by
  obtain ⟨⟨h8, hpos, hlen, hsz, hnr, hni⟩, hlt⟩ := h
  rw [mod_lt_two _ _ (by omega)] at hni
  have hs : b.next_remove ≥ b.next_insert := by split at hni <;> omega
  have hgrow : insert_bit_grow b = insert_bit_shift
      { capacity := b.capacity + 8, array := b.array ++ [0], size := b.size,
        next_insert := b.next_insert, next_remove := b.next_remove } := by
    unfold insert_bit_grow
    simp only [bit_buffer_size, if_pos hg, insert_bit_extend_eq b hlen, if_pos hs]
  generalize hG : bit_buffer.mk (b.capacity + 8) (b.array ++ [0]) b.size b.next_insert
    b.next_remove = G at hgrow
  have g1 : G.capacity = b.capacity + 8 := by rw [← hG]
  have g2 : G.array = b.array ++ [0] := by rw [← hG]
  have g5 : G.next_remove = b.next_remove := by rw [← hG]
  have hGlen : G.array.length = G.capacity / 8 := by
    rw [g1, g2, List.length_append, List.length_singleton, hlen]; omega
  obtain ⟨-, -, -, s4, -, s6⟩ := insert_bit_shift_spec G hGlen (by omega) (by omega)
  rw [hgrow]
  refine ⟨by rw [s4, g5], ?_⟩
  intro j
  rw [s6 j, g5, g1, get_append_zero G b g2, get_append_zero G b g2]
  have e : b.capacity + 8 - 1 = b.capacity + 7 := by omega
  rw [e]

/-- The growth statement keeps the zeros outside the live region. -/
theorem insert_bit_grow_zero (b : bit_buffer) (h : WellFormed b) (hz : ZeroOutside b) :
    ZeroOutside (insert_bit_grow b) := by
  obtain ⟨c1, s1, -, k1, -⟩ := insert_bit_grow_spec b h
  have hw := h
  obtain ⟨⟨h8, hpos, hlen, hsz, hnr, hni⟩, hlt⟩ := h
  by_cases hg : b.size + 1 = b.capacity
  · rw [if_pos hg] at k1
    by_cases h0 : b.next_remove = 0
    · obtain ⟨n1, -, t1⟩ := insert_bit_grow_no_wrap b hw h0
      intro j hj hlive
      rw [n1, s1, k1] at hlive
      rw [t1 j]
      by_cases hjc : j < b.capacity
      · apply hz j hjc
        intro k hk
        have := hlive k hk
        rw [Nat.zero_add, Nat.mod_eq_of_lt (by omega)] at this
        rw [h0, Nat.zero_add, Nat.mod_eq_of_lt (by omega)]
        exact this
      · exact get_out_of_range b j (by omega)
    · obtain ⟨n1, t1⟩ := insert_bit_grow_wrap b hw hg (by omega)
      intro j hj hlive
      rw [n1, s1, k1] at hlive
      rw [k1] at hj
      rw [t1 j]
      by_cases hA : b.next_remove ≤ j ∧ j < b.next_remove + 8
      · rw [if_pos hA]
      · rw [if_neg hA]
        by_cases hB : b.next_remove + 8 ≤ j ∧ j ≤ b.capacity + 7
        · exfalso
          have := hlive (j - b.next_remove - 8) (by omega)
          rw [Nat.mod_eq_of_lt (by omega)] at this
          omega
        · rw [if_neg hB]
          have hjlt : j < b.next_remove := by omega
          by_cases hlast : j + 1 = b.next_remove
          · apply hz j (by omega)
            intro k hk
            rw [mod_lt_two _ _ (by omega)]
            split <;> omega
          · exfalso
            have := hlive (j + b.capacity - b.next_remove) (by omega)
            rw [mod_lt_two _ _ (by omega), if_neg (by omega)] at this
            omega
  · have hgrow : insert_bit_grow b = b := by
      unfold insert_bit_grow
      simp only [bit_buffer_size, if_neg hg]
    rw [hgrow]
    exact hz

/-- The store statements keep the zeros outside the live region. -/
theorem insert_bit_store_zero (g : bit_buffer) (v : Int) (hc : Consistent g)
    (hz : ZeroOutside g) :
    ZeroOutside (insert_bit_store g v) := by
  obtain ⟨h8, hpos, hlen, hsz, hnr, hni⟩ := hc
  have e1 : (insert_bit_store g v).capacity = g.capacity := rfl
  have e2 : (insert_bit_store g v).size = g.size + 1 := rfl
  have e3 : (insert_bit_store g v).next_remove = g.next_remove := rfl
  have e5 : (insert_bit_store g v).array
      = (bit_buffer_set_bit_value g g.next_insert v).array := rfl
  intro j hj hlive
  rw [e1] at hj
  rw [e1, e2, e3] at hlive
  have hne : g.next_insert ≠ j := by
    have := hlive g.size (by omega)
    rw [← hni] at this
    exact fun hc => this hc.symm
  rw [get_bit_value_congr _ _ e5, get_set_other _ _ _ _ hne]
  exact hz j hj (fun k hk => hlive k (by omega))

/-- An insertion keeps the zeros outside the live region. -/
theorem insert_bit_zero (b : bit_buffer) (v : Int) (h : WellFormed b) (hz : ZeroOutside b) :
    ZeroOutside (bit_buffer_insert_bit b v) := by
  obtain ⟨c1, -, -, -, -⟩ := insert_bit_grow_spec b h
  rw [insert_bit_eq]
  exact insert_bit_store_zero _ v c1 (insert_bit_grow_zero b h hz)

/-- A removal keeps the zeros outside the live region: the place of the removed bit
is cleared. -/
theorem remove_bit_zero (b : bit_buffer) (hc : Consistent b) (hz : ZeroOutside b) (v : Int)
    (b' : bit_buffer) (hr : bit_buffer_remove_bit b = some (v, b')) : ZeroOutside b' := by
  have hs : 0 < b.size := by
    by_contra hzero
    have hn := (remove_bit_none_iff b).mpr (by omega)
    rw [hn] at hr
    exact Option.noConfusion hr
  obtain ⟨b'', e0, e1, e2, e3, -, e5⟩ := remove_bit_fields b hs
  rw [e0] at hr
  have hb : b'' = b' := by injection hr with hr; injection hr
  subst hb
  obtain ⟨h8, hpos, hlen, hsz, hnr, hni⟩ := hc
  intro j hj hlive
  rw [e2] at hj
  rw [e1, e2, e3] at hlive
  rw [get_bit_value_congr _ _ e5]
  by_cases hjn : j = b.next_remove
  · rw [hjn, get_set_same _ _ _ (by omega)]
    simp
  · rw [get_set_other _ _ _ _ (fun hc => hjn hc.symm)]
    apply hz j hj
    intro k hk
    by_cases hk0 : k = 0
    · rw [hk0, Nat.add_zero, Nat.mod_eq_of_lt hnr]; exact hjn
    · have := hlive (k - 1) (by omega)
      rw [Nat.mod_add_mod] at this
      have e : b.next_remove + 1 + (k - 1) = b.next_remove + k := by omega
      rw [e] at this
      exact this
theorem insert_bits_zero (vs : List Int) : ∀ (b : bit_buffer), WellFormed b → ZeroOutside b →
    ZeroOutside (insert_bits b vs) := by
  induction vs with
  | nil => intro b _ hz; exact hz
  | cons v vs ih =>
    intro b hb hz
    exact ih _ (insert_bit_spec b v hb).1 (insert_bit_zero b v hb hz)

theorem remove_bits_zero (n : Nat) : ∀ (b : bit_buffer) (vs : List Int) (b' : bit_buffer),
    Consistent b → ZeroOutside b → remove_bits n b = some (vs, b') → ZeroOutside b' := by
  induction n with
  | zero =>
    intro b vs b' _ hz hr
    have hb' : b = b' := by
      simp only [remove_bits] at hr
      injection hr with hr; injection hr
    exact hb' ▸ hz
  | succ n ih =>
    intro b vs b' hc hz hr
    simp only [remove_bits] at hr
    cases h1 : bit_buffer_remove_bit b with
    | none => rw [h1] at hr; exact Option.noConfusion hr
    | some p =>
      obtain ⟨v, b1⟩ := p
      rw [h1] at hr
      simp only [] at hr
      cases h2 : remove_bits n b1 with
      | none => rw [h2] at hr; exact Option.noConfusion hr
      | some q =>
        obtain ⟨ws, b2⟩ := q
        rw [h2] at hr
        simp only [] at hr
        have hb' : b2 = b' := by injection hr with hr; injection hr
        exact hb' ▸ ih b1 ws b2 (queue_of_remove_bit b hc v b1 h1).2.1
          (remove_bit_zero b hc hz v b1 h1) h2

/-- Every buffer reached from `bit_buffer_empty` has zeros outside its live region. -/
theorem Reachable.zeroOutside {b : bit_buffer} (h : Reachable b) : ZeroOutside b := by
  induction h with
  | empty => exact zeroOutside_empty
  | insert_bit b v hb ih => exact insert_bit_zero b v hb.wellFormed ih
  | insert_byte b x hb ih =>
    rw [insert_byte_eq]
    exact insert_bits_zero _ b hb.wellFormed ih
  | remove_bit b v b' hb hr ih => exact remove_bit_zero b hb.wellFormed.1 ih v b' hr
  | remove_byte b x b' hb hr ih =>
    have h8 : 8 ≤ b.size := by
      by_contra hc
      have hn := (remove_byte_none_iff b).mpr (by omega)
      rw [hn] at hr
      exact Option.noConfusion hr
    obtain ⟨r, b'', r1, x1, -, -, -, -, -, -⟩ := remove_byte_spec b hb.wellFormed.1 h8
    rw [r1] at hr
    have hb' : b'' = b' := by injection hr with hr; injection hr
    subst hb'
    exact remove_bits_zero 8 b _ b'' hb.wellFormed.1 ih x1

/-- C30: the zero-outside-live-region invariant.  In every state reached from
`bit_buffer_empty` by insertions and removals, every place of the storage that is not
one of the `size` live places `(next_remove + k) % capacity`, `k < size`, holds the
value 0.  This includes the place freed by `bit_buffer_remove_bit`, the byte added by
a growth, and the 8 places vacated by the shift of a growth. -/
theorem zero_outside_live_region (b : bit_buffer) (hr : Reachable b) :
    (∀ j, j < b.capacity →
      (∀ k, k < bit_buffer_size b → j ≠ (b.next_remove + k) % b.capacity) →
      bit_buffer_get_bit_value b j = 0) ∧
    (∀ v b', bit_buffer_remove_bit b = some (v, b') →
      bit_buffer_get_bit_value b' b.next_remove = 0) ∧
    (bit_buffer_size b + 1 = b.capacity → b.next_remove = 0 →
      ∀ v j, b.capacity ≤ j → j < b.capacity + 8 →
        bit_buffer_get_bit_value (bit_buffer_insert_bit b v) j = 0) ∧
    (bit_buffer_size b + 1 = b.capacity → 1 ≤ b.next_remove →
      ∀ v j, b.next_remove ≤ j → j < b.next_remove + 8 →
        bit_buffer_get_bit_value (bit_buffer_insert_bit b v) j = 0) := by
  have hw := hr.wellFormed
  obtain ⟨⟨h8, hpos, hlen, hsz, hnr, hni⟩, hlt⟩ := hr.wellFormed
  refine ⟨hr.zeroOutside, ?_, ?_, ?_⟩
  · intro v b' hrem
    have hs : 0 < b.size := by
      by_contra hzero
      have hn := (remove_bit_none_iff b).mpr (by omega)
      rw [hn] at hrem
      exact Option.noConfusion hrem
    obtain ⟨b'', e0, -, -, -, -, e5⟩ := remove_bit_fields b hs
    rw [e0] at hrem
    have hb : b'' = b' := by injection hrem with hrem; injection hrem
    subst hb
    rw [get_bit_value_congr _ _ e5, get_set_same _ _ _ (by omega)]
    simp
  · intro hg h0 v j hj1 hj2
    unfold bit_buffer_size at hg
    rw [(insert_bit_storage b v hw h0).2 j, if_neg (by omega)]
    exact get_out_of_range b j (by omega)
  · intro hg h1 v j hj1 hj2
    unfold bit_buffer_size at hg
    obtain ⟨-, t1⟩ := insert_bit_grow_wrap b hw hg h1
    have hgi : (insert_bit_grow b).next_insert + 1 = b.next_remove := by
      have hc := (insert_bit_grow_spec b hw).1
      have hsz' := (insert_bit_grow_spec b hw).2.1
      have hcap := (insert_bit_grow_spec b hw).2.2.2.1
      have hn := (insert_bit_grow_wrap b hw hg h1).1
      rw [if_pos hg] at hcap
      have := hc.2.2.2.2.2
      rw [hn, hsz', hcap, mod_lt_two _ _ (by omega)] at this
      split at this <;> omega
    rw [insert_bit_eq]
    have e5 : (insert_bit_store (insert_bit_grow b) v).array
        = (bit_buffer_set_bit_value (insert_bit_grow b) (insert_bit_grow b).next_insert v).array :=
      rfl
    rw [get_bit_value_congr _ _ e5, get_set_other _ _ _ _ (by omega), t1 j,
      if_pos ⟨hj1, hj2⟩]

/-- Witness of C30: `wrapped_example`, whose only free place is place 4. -/
theorem zero_outside_live_region_witness :
    Reachable wrapped_example ∧
    bit_buffer_get_bit_value wrapped_example 4 = 0 ∧
    ((∀ j, j < wrapped_example.capacity →
      (∀ k, k < bit_buffer_size wrapped_example →
        j ≠ (wrapped_example.next_remove + k) % wrapped_example.capacity) →
      bit_buffer_get_bit_value wrapped_example j = 0) ∧
    (∀ v b', bit_buffer_remove_bit wrapped_example = some (v, b') →
      bit_buffer_get_bit_value b' wrapped_example.next_remove = 0) ∧
    (bit_buffer_size wrapped_example + 1 = wrapped_example.capacity →
      wrapped_example.next_remove = 0 →
      ∀ v j, wrapped_example.capacity ≤ j → j < wrapped_example.capacity + 8 →
        bit_buffer_get_bit_value (bit_buffer_insert_bit wrapped_example v) j = 0) ∧
    (bit_buffer_size wrapped_example + 1 = wrapped_example.capacity →
      1 ≤ wrapped_example.next_remove →
      ∀ v j, wrapped_example.next_remove ≤ j → j < wrapped_example.next_remove + 8 →
        bit_buffer_get_bit_value (bit_buffer_insert_bit wrapped_example v) j = 0)) :=
  ⟨reachable_wrapped_example, by decide,
    zero_outside_live_region wrapped_example reachable_wrapped_example⟩
/-! ## The table of frequencies -/

theorem calc_frequency_loop_nil (table : List charFrequency) :
    calc_frequency_loop table [] = table := by
  unfold calc_frequency_loop
  rw [List.foldl_nil]

theorem calc_frequency_loop_cons (table : List charFrequency) (x : Nat) (rest : List Nat) :
    calc_frequency_loop table (x :: rest)
      = calc_frequency_loop (calc_frequency_count table (x : Int)) rest := by
  unfold calc_frequency_loop
  rw [List.foldl_cons]

/-- Incrementing a wrapped counter is wrapping the incremented count. -/
theorem wrap_int32_succ (c : Int) : wrap_int32 (wrap_int32 c + 1) = wrap_int32 (c + 1) := by
  unfold wrap_int32
  norm_num
  omega

/-- A count below `2 ^ 31` is not changed by wrapping. -/
theorem wrap_int32_of_lt (n : Nat) (h : n < 2 ^ 31) : wrap_int32 (n : Int) = (n : Int) := by
  unfold wrap_int32
  norm_num at h ⊢
  omega

/-- One step of the second loop of `calc_frequency` on a table whose entry `i` holds
the character `i` and the wrapped count `c i`. -/
theorem calc_frequency_count_table (c : Nat → Int) (x : Nat) :
    calc_frequency_count
        ((List.range 256).map (fun (i : Nat) =>
          ({ character := (i : Int), frequency := wrap_int32 (c i) } : charFrequency)))
        (x : Int)
      = (List.range 256).map (fun (i : Nat) =>
          ({ character := (i : Int),
             frequency := wrap_int32 (c i + if x = i then 1 else 0) } : charFrequency)) := by
  unfold calc_frequency_count
  by_cases hx : x < 256
  · have hguard : ((x : Int) ≥ 0 ∧ (x : Int) < 256) := by omega
    rw [if_pos hguard, Int.toNat_ofNat]
    apply List.ext_getElem?
    intro i
    by_cases hi : i < 256
    · rw [List.getElem?_map, List.getElem?_range hi]
      by_cases hxi : x = i
      · subst hxi
        rw [List.getElem?_set_self (by rw [List.length_map, List.length_range]; exact hx),
          List.getD_eq_getElem?_getD, List.getElem?_map, List.getElem?_range hx]
        simp only [Option.map_some', Option.getD_some, if_true]
        rw [wrap_int32_succ]
      · rw [List.getElem?_set_ne hxi, List.getElem?_map, List.getElem?_range hi]
        simp only [Option.map_some', if_neg hxi, Int.add_zero]
    · rw [List.getElem?_eq_none (by rw [List.length_set, List.length_map, List.length_range]; omega),
        List.getElem?_eq_none (by rw [List.length_map, List.length_range]; omega)]
  · have hguard : ¬ ((x : Int) ≥ 0 ∧ (x : Int) < 256) := by omega
    rw [if_neg hguard]
    apply List.map_congr_left
    intro i hi
    have hi' := List.mem_range.mp hi
    rw [if_neg (by omega), Int.add_zero]

/-- The second loop of `calc_frequency` adds to the count of each entry the number of
occurrences of its index among the bytes read, the counter being a 32-bit `int`. -/
theorem calc_frequency_loop_table (file : List Nat) :
    ∀ c : Nat → Int,
    calc_frequency_loop
        ((List.range 256).map (fun (i : Nat) =>
          ({ character := (i : Int), frequency := wrap_int32 (c i) } : charFrequency)))
        file
      = (List.range 256).map (fun (i : Nat) =>
          ({ character := (i : Int),
             frequency := wrap_int32 (c i + (file.count i : Int)) } : charFrequency)) := by
  induction file with
  | nil =>
    intro c
    rw [calc_frequency_loop_nil]
    apply List.map_congr_left
    intro i _
    rw [List.count_nil, Nat.cast_zero, Int.add_zero]
  | cons x rest ih =>
    intro c
    rw [calc_frequency_loop_cons, calc_frequency_count_table, ih]
    apply List.map_congr_left
    intro i _
    rw [List.count_cons]
    by_cases hxi : x = i
    · have hb : (x == i) = true := by simpa using hxi
      rw [if_pos hxi, if_pos hb]
      push_cast
      rw [Int.add_assoc, Int.add_comm 1]
    · have hb : (x == i) = false := by simpa using hxi
      rw [if_neg hxi, hb]
      simp

/-- The table of `calc_frequency`, entry by entry: the character `i` and the number
of occurrences of the byte `i`, counted in a 32-bit `int`. -/
theorem calc_frequency_eq (file : List Nat) :
    calc_frequency file
      = (List.range 256).map (fun (i : Nat) =>
          ({ character := (i : Int),
             frequency := wrap_int32 (file.count i : Int) } : charFrequency)) := by
  have hinit : calc_frequency_init
      = (List.range 256).map (fun (i : Nat) =>
          ({ character := (i : Int),
             frequency := wrap_int32 ((fun _ => 0) i) } : charFrequency)) := by
    unfold calc_frequency_init
    apply List.map_congr_left
    intro i _
    have h0 : wrap_int32 0 = 0 := by decide
    rw [h0]
  unfold calc_frequency
  rw [hinit, calc_frequency_loop_table]
  apply List.map_congr_left
  intro i _
  rw [Int.zero_add]

/-- The table of `calc_frequency` when no byte occurs `2 ^ 31` times or more: the
counts are exact. -/
theorem calc_frequency_eq_of_lt (file : List Nat)
    (hcount : ∀ i, i < 256 → file.count i < 2 ^ 31) :
    calc_frequency file
      = (List.range 256).map (fun (i : Nat) =>
          ({ character := (i : Int), frequency := (file.count i : Int) } : charFrequency)) := by
  rw [calc_frequency_eq]
  apply List.map_congr_left
  intro i hi
  rw [wrap_int32_of_lt _ (hcount i (List.mem_range.mp hi))]

theorem sum_indicator_range (n x : Nat) (hx : x < n) :
    ((List.range n).map (fun i => if x = i then (1 : Int) else 0)).sum = 1 := by
  induction n with
  | zero => omega
  | succ n ih =>
    rw [List.range_succ, List.map_append, List.sum_append, List.map_singleton,
      List.sum_singleton]
    by_cases hxn : x = n
    · have hz : ((List.range n).map (fun i => if x = i then (1 : Int) else 0)).sum = 0 := by
        apply List.sum_eq_zero
        intro y hy
        rw [List.mem_map] at hy
        obtain ⟨i, hi, rfl⟩ := hy
        have := List.mem_range.mp hi
        rw [if_neg (by omega)]
      rw [hz, if_pos hxn]
      rfl
    · rw [ih (by omega), if_neg hxn]
      rfl

/-- The numbers of occurrences of the values below `n` in a list of values below `n`
sum to the length of the list. -/
theorem sum_count_range (n : Nat) (file : List Nat) (h : ∀ x ∈ file, x < n) :
    ((List.range n).map (fun i => (file.count i : Int))).sum = (file.length : Int) := by
  induction file with
  | nil =>
    apply List.sum_eq_zero
    intro y hy
    rw [List.mem_map] at hy
    obtain ⟨i, -, rfl⟩ := hy
    rfl
  | cons x rest ih =>
    have hx := h x (List.mem_cons_self x rest)
    have hrest := ih (fun y hy => h y (List.mem_cons_of_mem x hy))
    have hsplit : (fun i => ((x :: rest).count i : Int))
        = (fun i => (rest.count i : Int) + (if x = i then (1 : Int) else 0)) := by
      funext i
      rw [List.count_cons]
      by_cases hxi : x = i
      · simp [hxi]
      · have hb : (x == i) = false := by simpa using hxi
        simp [hb, hxi]
    rw [hsplit, List.sum_map_add, hrest, sum_indicator_range n x hx, List.length_cons]
    push_cast
    rfl

/-- Counterexample to C28 as stated: on the file of `2 ^ 31` bytes of value 0 the
counter of entry 0, a 32-bit `int`, ends at `-2147483648`.  The frequency of entry 0
is not the number of occurrences `2147483648`, and it is not above zero although the
byte 0 was observed. -/
theorem calc_frequency_counter_overflow :
    (∀ x ∈ List.replicate 2147483648 0, x < 256) ∧
    0 ∈ List.replicate 2147483648 0 ∧
    (List.replicate 2147483648 0).count 0 = 2147483648 ∧
    (calc_frequency (List.replicate 2147483648 0))[0]?
      = some { character := 0, frequency := -2147483648 } ∧
    (calc_frequency (List.replicate 2147483648 0))[0]?
      ≠ some { character := 0,
               frequency := (((List.replicate 2147483648 0).count 0 : Nat) : Int) } ∧
    ¬ (0 < ((calc_frequency (List.replicate 2147483648 0)).getD 0
              { character := 0, frequency := 0 }).frequency) := by
  have hcount : ∀ n : Nat, (List.replicate n 0).count 0 = n := fun n =>
    List.count_replicate_self 0 n
  have hentry : ∀ n : Nat, (calc_frequency (List.replicate n 0))[0]?
      = some { character := 0, frequency := wrap_int32 (n : Int) } := by
    intro n
    rw [calc_frequency_eq, List.getElem?_map, List.getElem?_range (by decide)]
    show some ({ character := ((0 : Nat) : Int),
                 frequency := wrap_int32 (((List.replicate n 0).count 0 : Nat) : Int) }
                : charFrequency) = _
    rw [hcount]
    rfl
  have hwrap : wrap_int32 ((2147483648 : Nat) : Int) = -2147483648 := by decide
  have h0 := hentry 2147483648
  rw [hwrap] at h0
  refine ⟨?_, ?_, hcount 2147483648, h0, ?_, ?_⟩
  · intro x hx
    rw [List.eq_of_mem_replicate hx]
    decide
  · rw [List.mem_replicate]
    exact ⟨by decide, rfl⟩
  · rw [h0, hcount]
    decide
  · rw [List.getD_eq_getElem?_getD, h0]
    decide

/-- Claim C28, amended: for every sequence of bytes in which no byte value occurs
`2 ^ 31` times or more, `calc_frequency` returns a table of exactly 256 entries in
which entry `i` has the character `i` and, as frequency, the number of occurrences of
the byte `i` in the input; the entries with a frequency above zero are exactly those
of the bytes observed, and the frequencies sum to the length of the input. -/
theorem calc_frequency_table (file : List Nat) (hbytes : ∀ x ∈ file, x < 256)
    (hcount : ∀ i, i < 256 → file.count i < 2 ^ 31) :
    (calc_frequency file).length = 256 ∧
    (∀ i, i < 256 → (calc_frequency file)[i]?
        = some { character := (i : Int), frequency := (file.count i : Int) }) ∧
    (∀ i, i < 256 →
        (0 < ((calc_frequency file).getD i { character := 0, frequency := 0 }).frequency
          ↔ i ∈ file)) ∧
    (∀ x ∈ file,
        ((calc_frequency file).getD x { character := 0, frequency := 0 }).character = (x : Int)
          ∧ 0 < ((calc_frequency file).getD x { character := 0, frequency := 0 }).frequency) ∧
    ((calc_frequency file).map (fun e => e.frequency)).sum = (file.length : Int) := by
  have heq := calc_frequency_eq_of_lt file hcount
  have hentry : ∀ i, i < 256 → (calc_frequency file)[i]?
      = some { character := (i : Int), frequency := (file.count i : Int) } := by
    intro i hi
    rw [heq, List.getElem?_map, List.getElem?_range hi]
    rfl
  have hget : ∀ i, i < 256 → (calc_frequency file).getD i { character := 0, frequency := 0 }
      = { character := (i : Int), frequency := (file.count i : Int) } := by
    intro i hi
    rw [List.getD_eq_getElem?_getD, hentry i hi]
    rfl
  refine ⟨?_, hentry, ?_, ?_, ?_⟩
  · rw [heq, List.length_map, List.length_range]
  · intro i hi
    rw [hget i hi]
    show (0 : Int) < (file.count i : Int) ↔ i ∈ file
    rw [← List.count_pos_iff]
    omega
  · intro x hx
    rw [hget x (hbytes x hx)]
    refine ⟨rfl, ?_⟩
    show (0 : Int) < (file.count x : Int)
    have := List.count_pos_iff.mpr hx
    omega
  · rw [heq, List.map_map]
    exact sum_count_range 256 file hbytes

/-- Witness of C28, amended: the file `AAAAB`. -/
theorem calc_frequency_table_witness :
    (∀ x ∈ [65, 65, 65, 65, 66], x < 256) ∧
    (∀ i, i < 256 → ([65, 65, 65, 65, 66] : List Nat).count i < 2 ^ 31) ∧
    (calc_frequency [65, 65, 65, 65, 66]).length = 256 ∧
    (∀ i, i < 256 → (calc_frequency [65, 65, 65, 65, 66])[i]?
        = some { character := (i : Int),
                 frequency := (([65, 65, 65, 65, 66] : List Nat).count i : Int) }) ∧
    (∀ i, i < 256 →
        (0 < ((calc_frequency [65, 65, 65, 65, 66]).getD i
                { character := 0, frequency := 0 }).frequency
          ↔ i ∈ [65, 65, 65, 65, 66])) ∧
    (∀ x ∈ [65, 65, 65, 65, 66],
        ((calc_frequency [65, 65, 65, 65, 66]).getD x
            { character := 0, frequency := 0 }).character = (x : Int)
          ∧ 0 < ((calc_frequency [65, 65, 65, 65, 66]).getD x
                  { character := 0, frequency := 0 }).frequency) ∧
    ((calc_frequency [65, 65, 65, 65, 66]).map (fun e => e.frequency)).sum
      = (([65, 65, 65, 65, 66] : List Nat).length : Int) :=
  ⟨by decide,
    fun i _ => Nat.lt_of_le_of_lt (List.count_le_length i [65, 65, 65, 65, 66])
      (by decide : ([65, 65, 65, 65, 66] : List Nat).length < 2 ^ 31),
    calc_frequency_table [65, 65, 65, 65, 66] (by decide)
      (fun i _ => Nat.lt_of_le_of_lt (List.count_le_length i [65, 65, 65, 65, 66])
      (by decide : ([65, 65, 65, 65, 66] : List Nat).length < 2 ^ 31))⟩

/-! ## Tables without data, and the whole run -/

/-- The loop of `process_frequency` leaves the queue as it is when no entry that it
visits has a frequency above zero. -/
theorem process_frequency_loop_skip (frequency : List charFrequency) (n : Nat) :
    ∀ (i : Nat) (pq : pqueue trie_node),
    (∀ k, i ≤ k → k < i + n →
      ¬ (frequency.getD k { character := 0, frequency := 0 }).frequency > 0) →
    process_frequency_loop frequency i n pq = pq := by
  induction n with
  | zero => intro i pq _; rfl
  | succ n ih =>
    intro i pq h
    simp only [process_frequency_loop]
    rw [if_neg (h i (Nat.le_refl i) (by omega))]
    exact ih (i + 1) pq (fun k hk1 hk2 => h k (by omega) (by omega))

/-- The table of an empty file has no frequency above zero. -/
theorem calc_frequency_nil_no_data :
    ∀ i, i < 256 →
      ¬ ((calc_frequency []).getD i { character := 0, frequency := 0 }).frequency > 0 := by
  intro i hi
  rw [calc_frequency_eq, List.getD_eq_getElem?_getD, List.getElem?_map,
    List.getElem?_range hi]
  show ¬ wrap_int32 ((([] : List Nat).count i : Nat) : Int) > 0
  rw [List.count_nil]
  decide

/-- Counterexample to C22 as stated: the table of the empty file has no count above
zero, and `process_frequency` does not reject it; it returns the empty queue. -/
theorem process_frequency_accepts_no_data :
    (∀ i, i < 256 →
      ¬ ((calc_frequency []).getD i { character := 0, frequency := 0 }).frequency > 0) ∧
    process_frequency_call (calc_frequency []) ≠ none ∧
    process_frequency_call (calc_frequency []) = some (pqueue_empty (some cmp_key)) := by
  have h : process_frequency_call (calc_frequency []) = some (pqueue_empty (some cmp_key)) := by
    unfold process_frequency_call process_frequency
    rw [process_frequency_loop_skip (calc_frequency []) 256 0 _
      (fun k _ hk => calc_frequency_nil_no_data k (by omega))]
  refine ⟨calc_frequency_nil_no_data, ?_, h⟩
  rw [h]
  exact Option.noConfusion

/-- Claim C22, amended: when no symbol of the frequency table has a count above zero,
`process_frequency` does not fail; it returns the queue of `pqueue_empty(cmp_key)`,
which holds no node and of which `pqueue_is_empty` holds. -/
theorem process_frequency_no_data (frequency : List charFrequency)
    (hnone : ∀ i, i < 256 →
      ¬ (frequency.getD i { character := 0, frequency := 0 }).frequency > 0) :
    process_frequency_call frequency = some (pqueue_empty (some cmp_key)) ∧
    (process_frequency frequency).the_list = [] ∧
    pqueue_is_empty (process_frequency frequency) = true := by
  have h : process_frequency frequency = pqueue_empty (some cmp_key) := by
    unfold process_frequency
    rw [process_frequency_loop_skip frequency 256 0 _ (fun k _ hk => hnone k (by omega))]
  unfold process_frequency_call
  rw [h]
  exact ⟨rfl, rfl, rfl⟩

theorem process_frequency_no_data_witness :
    (∀ i, i < 256 →
      ¬ ((calc_frequency []).getD i { character := 0, frequency := 0 }).frequency > 0) ∧
    (process_frequency_call (calc_frequency []) = some (pqueue_empty (some cmp_key)) ∧
    (process_frequency (calc_frequency [])).the_list = [] ∧
    pqueue_is_empty (process_frequency (calc_frequency [])) = true) :=
  ⟨calc_frequency_nil_no_data,
    process_frequency_no_data (calc_frequency []) calc_frequency_nil_no_data⟩

/-- The exit code of a run is that of `main`. -/
theorem main_run_exit_code (can_open : String → String → Bool) (read : String → List Nat)
    (argc : Int) (argv : List String) :
    (main_run can_open read argc argv).exit_code = main can_open argc argv := by
  unfold main_run main
  by_cases h : (check_prog_params can_open argc argv).1 ≠ 0
  · simp only [if_pos h]
  · simp only [if_neg h]

/-- The output file of a run is empty whenever the run has opened it. -/
theorem main_run_out_file (can_open : String → String → Bool) (read : String → List Nat)
    (argc : Int) (argv : List String) :
    (main_run can_open read argc argv).out_file
      = (check_prog_params can_open argc argv).2.out_file_p.map (fun _ => []) := by
  unfold main_run
  by_cases h : (check_prog_params can_open argc argv).1 ≠ 0
  · simp only [if_pos h]
  · simp only [if_neg h]

set_option maxRecDepth 100000 in
theorem main_run_example_printed :
    (main_run (fun _ _ => true) (fun path => if path = "FILE2" then [] else [65, 65, 65, 65, 66])
      5 ["huffman", "-encode", "FILE0", "FILE1", "FILE2"]).printed = [(1, 66), (4, 65)] := by
  rfl

/-- Evaluation for C21: whatever the bytes `D` are, the run with `-encode` leaves the
output file empty, and so does the run with `-decode` on that result, so that the
round trip of the bytes `AAAAB` gives the empty sequence and not `AAAAB`; what the
run does with the input is to print the queue, here the lines `1 B` and `4 A`. -/
theorem main_stores_no_result :
    (∀ D : List Nat, encode_run D = some []) ∧
    (∀ D E : List Nat, decode_run D E = some []) ∧
    decode_run [65, 65, 65, 65, 66] [] ≠ some [65, 65, 65, 65, 66] ∧
    (main_run (fun _ _ => true) (fun path => if path = "FILE2" then [] else [65, 65, 65, 65, 66])
      5 ["huffman", "-encode", "FILE0", "FILE1", "FILE2"]).printed = [(1, 66), (4, 65)] := by
  have he : (check_prog_params (fun _ _ => true) 5
      ["huffman", "-encode", "FILE0", "FILE1", "FILE2"]).2.out_file_p = some "FILE2" := by
    decide
  have hd : (check_prog_params (fun _ _ => true) 5
      ["huffman", "-decode", "FILE0", "FILE1", "FILE2"]).2.out_file_p = some "FILE2" := by
    decide
  have hdec : ∀ D E : List Nat, decode_run D E = some [] := by
    intro D E
    unfold decode_run
    rw [main_run_out_file, hd]
    rfl
  refine ⟨?_, hdec, ?_, ?_⟩
  · intro D
    unfold encode_run
    rw [main_run_out_file, he]
    rfl
  · rw [hdec]
    decide
  · exact main_run_example_printed

/-! ## The queue without a compare function -/

/-- Without a compare function the loop of `pqueue_insert` runs to the end of the
list and inserts there. -/
theorem pqueue_insert_loop_none {α : Type} (l : List α) (v : α) (rest : List α) :
    ∀ pos : Nat,
    pqueue_insert_loop { the_list := l, cmp_func := none } v rest pos
      = list_insert l (pos + rest.length) v := by
  induction rest with
  | nil => intro pos; rfl
  | cons e rest ih =>
    intro pos
    simp only [pqueue_insert_loop, list_next, List.length_cons]
    rw [ih (pos + 1)]
    congr 1
    omega

/-- Without a compare function `pqueue_insert` appends the value at the end. -/
theorem pqueue_insert_none {α : Type} (l : List α) (v : α) :
    pqueue_insert { the_list := l, cmp_func := none } v
      = { the_list := l ++ [v], cmp_func := none } := by
  cases l with
  | nil => rfl
  | cons e t =>
    have hne : list_is_empty (e :: t) = false := rfl
    simp only [pqueue_insert, hne, Bool.false_eq_true, if_false, list_first]
    rw [pqueue_insert_loop_none, Nat.zero_add]
    simp only [list_insert, List.take_length, List.drop_length]

/-- Without a compare function a sequence of insertions appends the values in their
order. -/
theorem pqueue_insert_all_none {α : Type} (vs : List α) :
    ∀ l : List α,
    pqueue_insert_all { the_list := l, cmp_func := none } vs
      = { the_list := l ++ vs, cmp_func := none } := by
  induction vs with
  | nil => intro l; simp [pqueue_insert_all]
  | cons v vs ih =>
    intro l
    have hstep : pqueue_insert_all { the_list := l, cmp_func := none } (v :: vs)
        = pqueue_insert_all (pqueue_insert { the_list := l, cmp_func := none } v) vs := by
      simp [pqueue_insert_all]
    rw [hstep, pqueue_insert_none, ih, List.append_assoc, List.singleton_append]

/-- The loop of `print_and_empty` with the fuel `k` takes the first `k` elements of
the queue, from the front, and leaves the others. -/
theorem print_and_empty_take {α : Type} (cmp_func : Option (α → α → Int)) (k : Nat) :
    ∀ (l : List α),
    print_and_empty k { the_list := l, cmp_func := cmp_func }
      = (l.take k, { the_list := l.drop k, cmp_func := cmp_func }) := by
  induction k with
  | zero => intro l; rfl
  | succ k ih =>
    intro l
    cases l with
    | nil => rfl
    | cons e t =>
      have hstep : print_and_empty (k + 1) { the_list := e :: t, cmp_func := cmp_func }
          = (e :: (print_and_empty k { the_list := t, cmp_func := cmp_func }).1,
              (print_and_empty k { the_list := t, cmp_func := cmp_func }).2) := by
        simp [print_and_empty, pqueue_is_empty, list_is_empty, pqueue_inspect_first,
          list_inspect, list_first, pqueue_delete_first, list_remove]
      rw [hstep, ih t]
      rfl

/-- Claim C31: in a queue created with a NULL compare function (`pqueue_empty(NULL)`),
`pqueue_insert` always puts the value at the end of the list, whatever the list
holds, so that the queue is a plain FIFO: after the insertion of the values `vs` the
list is `vs`, `pqueue_inspect_first` returns the value inserted first,
`pqueue_delete_first` drops it and leaves the later ones in their order, and taking
the values out one after the other with `pqueue_inspect_first` and
`pqueue_delete_first` returns them in exactly their insertion order and leaves the
queue empty; a value inserted after some deletions again goes to the end. -/
theorem null_comparator_fifo {α : Type} (l vs : List α) (v : α) (k : Nat) :
    (pqueue_empty none : pqueue α) = { the_list := [], cmp_func := none } ∧
    pqueue_insert { the_list := l, cmp_func := none } v
      = { the_list := l ++ [v], cmp_func := none } ∧
    pqueue_insert_all (pqueue_empty none) vs = { the_list := vs, cmp_func := none } ∧
    pqueue_inspect_first (pqueue_insert_all (pqueue_empty none) vs) = vs.head? ∧
    pqueue_delete_first (pqueue_insert_all (pqueue_empty none) vs)
      = { the_list := vs.tail, cmp_func := none } ∧
    print_and_empty vs.length (pqueue_insert_all (pqueue_empty none) vs)
      = (vs, { the_list := [], cmp_func := none }) ∧
    (print_and_empty k (pqueue_insert_all (pqueue_empty none) vs)).1 = vs.take k ∧
    print_and_empty (vs.length + 1)
        (pqueue_insert (print_and_empty k (pqueue_insert_all (pqueue_empty none) vs)).2 v)
      = (vs.drop k ++ [v], { the_list := [], cmp_func := none }) := by
  have hempty : (pqueue_empty none : pqueue α) = { the_list := [], cmp_func := none } := rfl
  have hall : pqueue_insert_all (pqueue_empty none) vs
      = { the_list := vs, cmp_func := none } := by
    rw [hempty, pqueue_insert_all_none, List.nil_append]
  rw [hall]
  refine ⟨hempty, pqueue_insert_none l v, rfl, ?_, ?_, ?_, ?_, ?_⟩
  · cases vs with
    | nil => rfl
    | cons e t => simp [pqueue_inspect_first, list_inspect, list_first]
  · cases vs with
    | nil => rfl
    | cons e t => simp [pqueue_delete_first, list_is_empty, list_remove, list_first]
  · exact print_and_empty_spec none vs.length vs (Nat.le_refl _)
  · rw [print_and_empty_take]
  · have h2 : (print_and_empty k ({ the_list := vs, cmp_func := none } : pqueue α)).2
        = { the_list := vs.drop k, cmp_func := none } := by
      rw [print_and_empty_take]
    rw [h2, pqueue_insert_none]
    apply print_and_empty_spec
    rw [List.length_append, List.length_drop, List.length_singleton]
    omega

end OU2
